import Mathlib

/-!
DGP `BinaryOutputStream`: a shallow embedding and its verified properties.

Source: `src/DGP/BinaryOutputStream.cpp`.

The stream object becomes the record `BinaryOutputStream`; everything outside the
object that the code talks to (the host byte order, the file at `m_path`, the answers
of `std::realloc`, `fopen` and `fwrite`) becomes the record `World`.  Every operation
is a function from a stream and a world to a `Result`: the value returned or the error
raised, together with the stream and the world left behind (a C++ exception leaves the
object in place, so the state after an error is kept).

Conventions.
* `int64` fields are `Int`, `size_t` values are `Nat`; the 64-bit range is not modelled.
  The 32-bit `int` of `writeAlignedString` wraps (`toInt32`), `uint32` values are
  reduced modulo 2^32.
* Bytes are `Nat`s below 256.
* `debugAssertM` / `alwaysAssertM` are modelled as checked: a failing assertion ends
  the call with `Error.assertion`.
* A store or load through `NULL` or outside the allocation ends the call with
  `Error.memoryFault`.
* `reserveBytes`, `writeUInt8`, `writeBytes`, `writeInt32` and the single-value writers
  `writeBool8`, `writeInt8`, `writeInt16`, `writeInt64`, `writeFloat32`, `writeFloat64`
  are defined in `BinaryOutputStream.hpp`, which is not among the sources; they are
  modelled from the specification (their doc comments say so).
* A signed integer is an `Int`, written as its two's complement; a `float32` or
  `float64` is given by its bit pattern, a `bool` by `Bool`.
* `fwrite` either transfers all the bytes asked for or, when it does not, trips the
  assertion that follows it; the content of the file after a short write is not modelled.
* The array writers (`writeUInt16(int64 n, uint16 const * out)` and its siblings)
  overload the names of the single-value writers; here they carry the suffix `Array`.
  An array is the list of its elements, and the count passed is the length of the list
  wherever the two are compared.  The `std::vector` overloads pass `&out[0]` to the
  pointer overloads and are the same functions of the list; the `std::vector<bool>`
  overload of `writeBool8` has a body of its own and is `writeBool8Vector`.
-/

namespace DGP

/-! ## Data model -/

/-- Byte orders (`Endianness::BIG`, `Endianness::LITTLE`). -/
inductive Endianness where
  | BIG
  | LITTLE
  deriving DecidableEq, Repr

/-- The assertions of the source file, one tag per `debugAssertM` / `alwaysAssertM`. -/
inductive Assertion where
  | noBytesToWrite
  | couldNotOpenFile
  | allBytesNotWritten
  | bufferExceedsMaximumSize
  | bufferHasNegativeSize
  | writePositionNegative
  | writePositionBeyondEnd
  | resetInBitsBlock
  | resetNotMemory
  | missingEndBits
  | couldNotWriteBuffer
  | nonBitDataInBitsBlock
  | beginEndBitsMismatch
  | writeBitsOutsideBlock
  deriving DecidableEq, Repr

/-- Ways in which a call ends without returning. -/
inductive Error where
  | outOfMemoryMemory
  | outOfMemoryDisk
  | assertion (a : Assertion)
  | memoryFault
  | divisionByZero
  | fuelExhausted
  deriving DecidableEq, Repr

/-- The fields of `BinaryOutputStream`.  `m_buffer = none` is the `NULL` pointer;
`some b` is an allocation of `m_bufferCapacity` bytes whose `i`-th byte is `b i`. -/
structure BinaryOutputStream where
  m_path : String
  m_fileEndian : Endianness
  m_swapBytes : Bool
  m_beginEndBits : Int
  m_bitString : Nat
  m_bitPos : Int
  m_buffer : Option (Nat → Nat)
  m_bufferLen : Int
  m_bufferCapacity : Int
  m_pos : Int
  m_alreadyWritten : Int
  m_ok : Bool

/-- What the stream talks to.  `file` is the content of the file at `m_path`;
`reallocGrants k`, `fopenGrants k`, `fwriteGrants k` say whether the `k`-th call of
`std::realloc`, `fopen`, `fwrite` succeeds; `garbage k i` is byte `i` of the
uninitialised memory handed out by the `k`-th `realloc`. -/
structure World where
  machine : Endianness
  file : List Nat
  reallocGrants : Nat → Bool
  reallocCalls : Nat
  garbage : Nat → Nat → Nat
  fopenGrants : Nat → Bool
  fopenCalls : Nat
  fwriteGrants : Nat → Bool
  fwriteCalls : Nat

/-- Outcome of a call: a value or an error, and the stream and world afterwards. -/
structure Result (α : Type) where
  value : Except Error α
  stream : BinaryOutputStream
  world : World

/-- Normal return. -/
def Result.ret {α : Type} (a : α) (s : BinaryOutputStream) (w : World) : Result α :=
  ⟨Except.ok a, s, w⟩

/-- Abnormal end (`throw`, failed assertion, fault). -/
def Result.fail {α : Type} (e : Error) (s : BinaryOutputStream) (w : World) : Result α :=
  ⟨Except.error e, s, w⟩

/-- Sequencing: run `k` on the state left by `r` unless `r` ended abnormally. -/
def Result.andThen {α β : Type} (r : Result α)
    (k : α → BinaryOutputStream → World → Result β) : Result β :=
  match r.value with
  | Except.error e => ⟨Except.error e, r.stream, r.world⟩
  | Except.ok a => k a r.stream r.world

/-- The call returned normally. -/
def Result.isOk {α : Type} (r : Result α) : Bool :=
  match r.value with
  | Except.ok _ => true
  | Except.error _ => false

/-- Value of `#define DGP_MAX_WRITE_BUFFER_SIZE 400000000`. -/
def DGP_MAX_WRITE_BUFFER_SIZE : Nat := 400000000

/-- Byte `i` of the buffer (`m_buffer[i]`), `0` when the pointer is `NULL`. -/
def byteAt (s : BinaryOutputStream) (i : Nat) : Nat :=
  match s.m_buffer with
  | some b => b i
  | none => 0

/-- The bytes `m_buffer[from], ..., m_buffer[from + n - 1]`. -/
def bufferSlice (s : BinaryOutputStream) (start n : Nat) : List Nat :=
  (List.range n).map (fun j => byteAt s (start + j))

/-- The buffered bytes `[0, m_bufferLen)`. -/
def bufferBytes (s : BinaryOutputStream) : List Nat :=
  bufferSlice s 0 s.m_bufferLen.toNat

/-- The stores `m_buffer[i + k] = bs[k]` for `k = 0, ..., bs.length - 1` (also
`memcpy(m_buffer + i, bs, bs.length)`).  `none` when a store would go through `NULL`
or outside `[0, m_bufferCapacity)`. -/
def storeBytes (s : BinaryOutputStream) (i : Int) (bs : List Nat) : Option BinaryOutputStream :=
  if bs = [] then some s
  else
    match s.m_buffer with
    | none => none
    | some b =>
      if 0 ≤ i ∧ i + bs.length ≤ s.m_bufferCapacity then
        some { s with
          m_buffer := some (fun j =>
            if i.toNat ≤ j ∧ j < i.toNat + bs.length then bs.getD (j - i.toNat) 0 else b j) }
      else none

/-- Byte `i` of the in-memory representation of the `width`-byte unsigned integer `u`
on the host: `((uint8 *)&u)[i]`. -/
def convert (w : World) (width : Nat) (u : Nat) (i : Nat) : Nat :=
  match w.machine with
  | Endianness.LITTLE => (u / 256 ^ i) % 256
  | Endianness.BIG => (u / 256 ^ (width - 1 - i)) % 256

/-! ## Capacity management and spillover -/

/-- The value of the local `bytesToWrite` of `reserveBytesWhenOutOfMemory`: all but
the last 10 MB of the buffer, or the whole buffer when that would be less than a
third of it (`/` on `int64` truncates). -/
def bytesToWrite (s : BinaryOutputStream) : Int :=
  if s.m_bufferLen - 10 * 1024 * 1024 < s.m_bufferLen.tdiv 3 then s.m_bufferLen
  else s.m_bufferLen - 10 * 1024 * 1024

/-- The stream after a spillover of `bytesToWrite s` bytes out of the allocation `b`:
counters moved, rest of the buffer shifted to offset 0 (`memmove`). -/
def spilled (s : BinaryOutputStream) (b : Nat → Nat) : BinaryOutputStream :=
  { s with
    m_alreadyWritten := s.m_alreadyWritten + bytesToWrite s
    m_bufferLen := s.m_bufferLen - bytesToWrite s
    m_pos := s.m_pos - bytesToWrite s
    m_buffer := some (fun j =>
      if (j : Int) < s.m_bufferLen - bytesToWrite s then b (j + (bytesToWrite s).toNat)
      else b j) }

/-- The world after the `fopen` / `fwrite` / `fclose` of a spillover: the file, opened
in mode `ab` when bytes were persisted before and in mode `wb` otherwise, has received
the first `bytesToWrite s` bytes of the buffer. -/
def spilledWorld (s : BinaryOutputStream) (w : World) : World :=
  { w with
    fopenCalls := w.fopenCalls + 1
    fwriteCalls := w.fwriteCalls + 1
    file := (if s.m_alreadyWritten > 0 then w.file else []) ++
      bufferSlice s 0 (bytesToWrite s).toNat }

/-- The part of `reserveBytesWhenOutOfMemory` that dumps buffered bytes to disk
(source lines 181-215): choose `bytesToWrite`, append that many bytes to the file,
update the counters, check the four assertions and shift the rest of the buffer to
offset 0. -/
def spill (s : BinaryOutputStream) (w : World) : Result Unit :=
  if ¬ (bytesToWrite s > 0) then Result.fail (Error.assertion Assertion.noBytesToWrite) s w
  else if ¬ (w.fopenGrants w.fopenCalls = true) then
    Result.fail (Error.assertion Assertion.couldNotOpenFile) s
      { w with fopenCalls := w.fopenCalls + 1 }
  else
    match s.m_buffer with
    | none =>
      Result.fail Error.memoryFault s
        { w with
          fopenCalls := w.fopenCalls + 1
          file := if s.m_alreadyWritten > 0 then w.file else [] }
    | some b =>
      if ¬ (bytesToWrite s ≤ s.m_bufferCapacity) then
        Result.fail Error.memoryFault s
          { w with
            fopenCalls := w.fopenCalls + 1
            file := if s.m_alreadyWritten > 0 then w.file else [] }
      else if ¬ (w.fwriteGrants w.fwriteCalls = true) then
        Result.fail (Error.assertion Assertion.allBytesNotWritten) s
          { w with
            fopenCalls := w.fopenCalls + 1
            fwriteCalls := w.fwriteCalls + 1
            file := if s.m_alreadyWritten > 0 then w.file else [] }
      else if ¬ (s.m_bufferLen - bytesToWrite s < s.m_bufferCapacity) then
        Result.fail (Error.assertion Assertion.bufferExceedsMaximumSize)
          { spilled s b with m_buffer := s.m_buffer } (spilledWorld s w)
      else if ¬ (s.m_bufferLen - bytesToWrite s ≥ 0) then
        Result.fail (Error.assertion Assertion.bufferHasNegativeSize)
          { spilled s b with m_buffer := s.m_buffer } (spilledWorld s w)
      else if ¬ (s.m_pos - bytesToWrite s ≥ 0) then
        Result.fail (Error.assertion Assertion.writePositionNegative)
          { spilled s b with m_buffer := s.m_buffer } (spilledWorld s w)
      else if ¬ (s.m_pos - bytesToWrite s ≤ s.m_bufferLen - bytesToWrite s) then
        Result.fail (Error.assertion Assertion.writePositionBeyondEnd)
          { spilled s b with m_buffer := s.m_buffer } (spilledWorld s w)
      else if ¬ (s.m_bufferLen ≤ s.m_bufferCapacity) then
        Result.fail Error.memoryFault
          { spilled s b with m_buffer := s.m_buffer } (spilledWorld s w)
      else Result.ret () (spilled s b) (spilledWorld s w)

/-- Body of `reserveBytesWhenOutOfMemory(bytes)`; `retry` stands for the closing call
`reserveBytes(bytes)`. -/
def reserveBytesWhenOutOfMemoryWith (retry : Nat → BinaryOutputStream → World → Result Unit)
    (bytes : Nat) (s : BinaryOutputStream) (w : World) : Result Unit :=
  if s.m_path = "<memory>" then Result.fail Error.outOfMemoryMemory s w
  else if (bytes : Int) > s.m_bufferCapacity then Result.fail Error.outOfMemoryDisk s w
  else (spill s w).andThen (fun _ s1 w1 => retry bytes s1 w1)

/-- Body of `reallocBuffer(bytes, oldBufferLen)`; `retry` stands for the call of
`reserveBytes` that closes `reserveBytesWhenOutOfMemory`.  The new size
`(size_t)(m_bufferLen * 1.5) + 100` is `floor(3 * m_bufferLen / 2) + 100` (the
product in `double` is exact below 2^52). -/
def reallocBufferWith (retry : Nat → BinaryOutputStream → World → Result Unit)
    (bytes : Nat) (oldBufferLen : Nat) (s : BinaryOutputStream) (w : World) : Result Unit :=
  let newBufferLen : Nat := ((s.m_bufferLen * 3).tdiv 2).toNat + 100
  if s.m_path = "<memory>" ∨ newBufferLen < DGP_MAX_WRITE_BUFFER_SIZE then
    let w1 : World := { w with reallocCalls := w.reallocCalls + 1 }
    if w.reallocGrants w.reallocCalls = true then
      let newBuffer : Nat → Nat :=
        match s.m_buffer with
        | none => w.garbage w.reallocCalls
        | some b => fun j => if (j : Int) < s.m_bufferCapacity then b j
                             else w.garbage w.reallocCalls j
      Result.ret () { s with m_bufferCapacity := newBufferLen, m_buffer := some newBuffer } w1
    else if bytes > 0 then
      reserveBytesWhenOutOfMemoryWith retry bytes { s with m_bufferLen := oldBufferLen } w1
    else Result.ret () { s with m_buffer := none } w1
  else if bytes > 0 then
    reserveBytesWhenOutOfMemoryWith retry bytes { s with m_bufferLen := oldBufferLen } w
  else Result.ret () { s with m_buffer := none } w

/-- Modelled from the spec: `reserveBytes` is declared in `BinaryOutputStream.hpp`,
which is not part of the sources at hand.  Section 4.1: make room for `bytes` bytes at
the cursor; the length is raised to `max(length, cursor + bytes)` and, when that
exceeds the capacity, `reallocBuffer` is called with the length before the request (the
value it restores when it backs the request out).  The mutual recursion
`reserveBytes -> reallocBuffer -> reserveBytesWhenOutOfMemory -> reserveBytes` is
unfolded along `fuel`. -/
def reserveBytesFuel : Nat → Nat → BinaryOutputStream → World → Result Unit
  | 0, _, s, w => Result.fail Error.fuelExhausted s w
  | fuel + 1, bytes, s, w =>
    let oldBufferLen : Nat := s.m_bufferLen.toNat
    let s1 : BinaryOutputStream :=
      { s with m_bufferLen := max s.m_bufferLen (s.m_pos + bytes) }
    if s1.m_bufferLen > s1.m_bufferCapacity then
      reallocBufferWith (reserveBytesFuel fuel) bytes oldBufferLen s1 w
    else Result.ret () s1 w

/-- Modelled from the spec: `reserveBytes(bytes)` of `BinaryOutputStream.hpp`
(`ensureCapacity` of section 4.1).  Every spillover that is followed by a retry
strictly lowers `m_bufferLen`, so `m_bufferLen + 1` rounds of the recursion suffice
(`reserveBytes_ne_fuelExhausted`). -/
def reserveBytes (bytes : Nat) (s : BinaryOutputStream) (w : World) : Result Unit :=
  reserveBytesFuel (s.m_bufferLen.toNat + 1) bytes s w

/-- The source function `reallocBuffer(bytes, oldBufferLen)`. -/
def reallocBuffer (bytes : Nat) (oldBufferLen : Nat) (s : BinaryOutputStream) (w : World) :
    Result Unit :=
  reallocBufferWith reserveBytes bytes oldBufferLen s w

/-- The source function `reserveBytesWhenOutOfMemory(bytes)`. -/
def reserveBytesWhenOutOfMemory (bytes : Nat) (s : BinaryOutputStream) (w : World) :
    Result Unit :=
  reserveBytesWhenOutOfMemoryWith reserveBytes bytes s w

/-! ## Construction, byte order, reset, commit -/

/-- The source function `setEndianness(endian)`. -/
def setEndianness (endian : Endianness) (s : BinaryOutputStream) (w : World) :
    BinaryOutputStream :=
  { s with m_fileEndian := endian, m_swapBytes := decide (endian ≠ w.machine) }

/-- The source function `ok()`. -/
def ok (s : BinaryOutputStream) : Bool := s.m_ok

/-- The source function `_commit(flush, force)`.  `fflush` has no effect on the
modelled file content. -/
def _commit (flush force : Bool) (s : BinaryOutputStream) (w : World) : Result Bool :=
  if ¬ (s.m_ok = true) then Result.ret false s w
  else if s.m_path = "<memory>" then Result.ret true s w
  else if ¬ (force = true) ∧ s.m_bufferLen ≤ 0 then Result.ret true s w
  else if ¬ (s.m_beginEndBits = 0) then
    Result.fail (Error.assertion Assertion.missingEndBits) s w
  else
    let w1 : World := { w with fopenCalls := w.fopenCalls + 1 }
    if ¬ (w.fopenGrants w.fopenCalls = true) then
      Result.ret false { s with m_ok := false } w1
    else
      let opened : List Nat := if s.m_alreadyWritten > 0 then w.file else []
      let w2 : World := { w1 with file := opened }
      if s.m_buffer.isSome = true ∧ s.m_bufferLen > 0 then
        if ¬ (s.m_bufferLen ≤ s.m_bufferCapacity) then Result.fail Error.memoryFault s w2
        else
          let w3 : World := { w2 with fwriteCalls := w2.fwriteCalls + 1 }
          if ¬ (w.fwriteGrants w.fwriteCalls = true) then
            Result.fail (Error.assertion Assertion.couldNotWriteBuffer) s w3
          else
            let _ := flush
            Result.ret true
              { s with
                m_alreadyWritten := s.m_alreadyWritten + s.m_bufferLen
                m_bufferLen := 0
                m_pos := 0 }
              { w3 with file := opened ++ bufferBytes s }
      else
        Result.ret true s w2

/-- The source function `commit(flush)`. -/
def commit (flush : Bool) (s : BinaryOutputStream) (w : World) : Result Bool :=
  _commit flush false s w

/-- The member initialisers shared by the two constructors. -/
def initialFields (path : String) : BinaryOutputStream :=
  { m_path := path
    m_fileEndian := Endianness.LITTLE
    m_swapBytes := false
    m_beginEndBits := 0
    m_bitString := 0
    m_bitPos := 0
    m_buffer := none
    m_bufferLen := 0
    m_bufferCapacity := 0
    m_pos := 0
    m_alreadyWritten := 0
    m_ok := true }

/-- The constructor `BinaryOutputStream(Endianness endian)` of an in-memory stream. -/
def newMemoryStream (endian : Endianness) (w : World) : BinaryOutputStream :=
  setEndianness endian (initialFields "<memory>") w

/-- The constructor `BinaryOutputStream(path, file_endian)` of a file-backed stream;
it ends with the probe `_commit(false, true)`, whose return value is dropped. -/
def newFileStream (path : String) (file_endian : Endianness) (w : World) : Result Unit :=
  (_commit false true (setEndianness file_endian (initialFields path) w) w).andThen
    (fun _ s1 w1 => Result.ret () s1 w1)

/-- The source function `reset()`. -/
def reset (s : BinaryOutputStream) (w : World) : Result Unit :=
  if ¬ (s.m_beginEndBits = 0) then Result.fail (Error.assertion Assertion.resetInBitsBlock) s w
  else if ¬ (s.m_path = "<memory>") then
    Result.fail (Error.assertion Assertion.resetNotMemory) s w
  else
    Result.ret ()
      { s with
        m_pos := 0
        m_alreadyWritten := 0
        m_bufferLen := 0
        m_beginEndBits := 0
        m_bitString := 0
        m_bitPos := 0 } w

/-! ## Scalar writers -/

/-- Modelled from the spec: `writeUInt8` is defined in `BinaryOutputStream.hpp`, which
is not part of the sources at hand.  Section 4.3: a 1-byte value is placed verbatim at
the cursor after room for it is ensured, and the cursor advances by 1. -/
def writeUInt8 (i : Nat) (s : BinaryOutputStream) (w : World) : Result Unit :=
  (reserveBytes 1 s w).andThen (fun _ s1 w1 =>
    match storeBytes s1 s1.m_pos [i % 256] with
    | none => Result.fail Error.memoryFault s1 w1
    | some s2 => Result.ret () { s2 with m_pos := s2.m_pos + 1 } w1)

/-- Modelled from the spec: `writeBytes(n, b)` is defined in `BinaryOutputStream.hpp`,
which is not part of the sources at hand.  Sections 4.3 and 4.5: the `n` raw bytes are
copied to the cursor in one piece after room for them is ensured, and the cursor
advances by `n`.  A negative `n` is outside the model (`memoryFault`). -/
def writeBytes (n : Int) (b : List Nat) (s : BinaryOutputStream) (w : World) : Result Unit :=
  if n < 0 then Result.fail Error.memoryFault s w
  else
    (reserveBytes n.toNat s w).andThen (fun _ s1 w1 =>
      match storeBytes s1 s1.m_pos ((b.take n.toNat).map (fun x => x % 256)) with
      | none => Result.fail Error.memoryFault s1 w1
      | some s2 => Result.ret () { s2 with m_pos := s2.m_pos + n } w1)

/-- The source function `writeUInt16(u)` (the byte-by-byte path; the unaligned store of
`DGP_ALLOW_UNALIGNED_WRITES` places the same bytes). -/
def writeUInt16 (u : Nat) (s : BinaryOutputStream) (w : World) : Result Unit :=
  (reserveBytes 2 s w).andThen (fun _ s1 w1 =>
    let c := convert w1 2 u
    let bs : List Nat := if s1.m_swapBytes = true then [c 1, c 0] else [c 0, c 1]
    match storeBytes s1 s1.m_pos bs with
    | none => Result.fail Error.memoryFault s1 w1
    | some s2 => Result.ret () { s2 with m_pos := s2.m_pos + 2 } w1)

/-- The source function `writeUInt32(u)`. -/
def writeUInt32 (u : Nat) (s : BinaryOutputStream) (w : World) : Result Unit :=
  (reserveBytes 4 s w).andThen (fun _ s1 w1 =>
    if ¬ (s1.m_beginEndBits = 0) then
      Result.fail (Error.assertion Assertion.nonBitDataInBitsBlock) s1 w1
    else
      let c := convert w1 4 u
      let bs : List Nat :=
        if s1.m_swapBytes = true then [c 3, c 2, c 1, c 0] else [c 0, c 1, c 2, c 3]
      match storeBytes s1 s1.m_pos bs with
      | none => Result.fail Error.memoryFault s1 w1
      | some s2 => Result.ret () { s2 with m_pos := s2.m_pos + 4 } w1)

/-- The source function `writeUInt64(u)`. -/
def writeUInt64 (u : Nat) (s : BinaryOutputStream) (w : World) : Result Unit :=
  (reserveBytes 8 s w).andThen (fun _ s1 w1 =>
    let c := convert w1 8 u
    let bs : List Nat :=
      if s1.m_swapBytes = true then [c 7, c 6, c 5, c 4, c 3, c 2, c 1, c 0]
      else [c 0, c 1, c 2, c 3, c 4, c 5, c 6, c 7]
    match storeBytes s1 s1.m_pos bs with
    | none => Result.fail Error.memoryFault s1 w1
    | some s2 => Result.ret () { s2 with m_pos := s2.m_pos + 8 } w1)

/-- Modelled from the spec: `writeInt32(i)` is defined in `BinaryOutputStream.hpp`,
which is not part of the sources at hand.  Section 4.3: a signed 32-bit value is
written as the 4 bytes of its two's complement representation, like `writeUInt32`. -/
def writeInt32 (i : Int) (s : BinaryOutputStream) (w : World) : Result Unit :=
  writeUInt32 (i % 4294967296).toNat s w

/-! ## Aligned strings -/

/-- The conversion `(int)x` of a `size_t` to a 32-bit `int` (wrap-around). -/
def toInt32 (x : Nat) : Int :=
  if x % 4294967296 < 2147483648 then ((x % 4294967296 : Nat) : Int)
  else ((x % 4294967296 : Nat) : Int) - 4294967296

/-- The loop `for (int i = 0; i < padding; ++i) writeUInt8(0);`. -/
def writePadding : Nat → BinaryOutputStream → World → Result Unit
  | 0, s, w => Result.ret () s w
  | k + 1, s, w => (writeUInt8 0 s w).andThen (fun _ s1 w1 => writePadding k s1 w1)

/-- The source function `writeAlignedString(s, alignment)`; `str` holds the bytes of
the string.  `length % alignment` with `alignment = 0` is a division by zero. -/
def writeAlignedString (str : List Nat) (alignment : Int) (s : BinaryOutputStream) (w : World) :
    Result Unit :=
  let length : Int := toInt32 str.length
  (writeInt32 length s w).andThen (fun _ s1 w1 =>
    (writeBytes length str s1 w1).andThen (fun _ s2 w2 =>
      if alignment = 0 then Result.fail Error.divisionByZero s2 w2
      else
        let padding : Int := (alignment - length.tmod alignment).tmod alignment
        if padding > 0 then writePadding padding.toNat s2 w2
        else Result.ret () s2 w2))

/-! ## Bit packing -/

/-- The source function `beginBits()`. -/
def beginBits (s : BinaryOutputStream) (w : World) : Result Unit :=
  if ¬ (s.m_beginEndBits = 0) then
    Result.fail (Error.assertion Assertion.beginEndBitsMismatch) s w
  else Result.ret () { s with m_bitString := 0, m_bitPos := 0, m_beginEndBits := 1 } w

/-- The loop `while (num_bits > 0)` of `writeBits`, by the number of remaining bits.
`m_bitString` is a `uint8`, so the accumulated value is kept modulo 256. -/
def writeBitsLoop : Nat → Nat → BinaryOutputStream → World → Result Unit
  | 0, _, s, w => Result.ret () s w
  | num_bits + 1, value, s, w =>
    let s1 : BinaryOutputStream :=
      { s with
        m_bitString := (s.m_bitString ||| ((value &&& 1) <<< s.m_bitPos.toNat)) % 256
        m_bitPos := s.m_bitPos + 1 }
    if s1.m_bitPos > 7 then
      (writeUInt8 s1.m_bitString s1 w).andThen (fun _ s2 w2 =>
        writeBitsLoop num_bits (value >>> 1) { s2 with m_bitString := 0, m_bitPos := 0 } w2)
    else writeBitsLoop num_bits (value >>> 1) s1 w

/-- The source function `writeBits(num_bits, value)`; `value` is a `uint32`. -/
def writeBits (num_bits : Int) (value : Nat) (s : BinaryOutputStream) (w : World) :
    Result Unit :=
  if ¬ (s.m_beginEndBits = 1) then
    Result.fail (Error.assertion Assertion.writeBitsOutsideBlock) s w
  else writeBitsLoop num_bits.toNat (value % 4294967296) s w

/-- The source function `endBits()`. -/
def endBits (s : BinaryOutputStream) (w : World) : Result Unit :=
  if ¬ (s.m_beginEndBits = 1) then
    Result.fail (Error.assertion Assertion.beginEndBitsMismatch) s w
  else
    (if s.m_bitPos > 0 then writeUInt8 s.m_bitString s w else Result.ret () s w).andThen
      (fun _ s1 w1 =>
        Result.ret () { s1 with m_bitString := 0, m_bitPos := 0, m_beginEndBits := 0 } w1)

/-- The common shape of the byte writers: make room for `bs` at the cursor, place the
bytes there, advance the cursor past them. -/
def putBytes (bs : List Nat) (s : BinaryOutputStream) (w : World) : Result Unit :=
  (reserveBytes bs.length s w).andThen (fun _ s1 w1 =>
    match storeBytes s1 s1.m_pos bs with
    | none => Result.fail Error.memoryFault s1 w1
    | some s2 => Result.ret () { s2 with m_pos := s2.m_pos + bs.length } w1)

/-- The `writeBits` calls of a bit-packing span, in order; each call is a pair
`(num_bits, value)`. -/
def writeBitsCalls : List (Int × Nat) → BinaryOutputStream → World → Result Unit
  | [], s, w => Result.ret () s w
  | c :: rest, s, w =>
    (writeBits c.1 c.2 s w).andThen (fun _ s1 w1 => writeBitsCalls rest s1 w1)

/-- A complete bit-packing span: `beginBits()`, the `writeBits` calls, `endBits()`. -/
def bitsSpan (calls : List (Int × Nat)) (s : BinaryOutputStream) (w : World) : Result Unit :=
  (beginBits s w).andThen (fun _ s1 w1 =>
    (writeBitsCalls calls s1 w1).andThen (fun _ s2 w2 => endBits s2 w2))

/-- One appending write of the public interface. -/
inductive Op where
  | uint16 (u : Nat)
  | uint32 (u : Nat)
  | uint64 (u : Nat)
  | alignedString (str : List Nat) (alignment : Int)
  | bits (calls : List (Int × Nat))

/-- Running one write. -/
def runOp (op : Op) (s : BinaryOutputStream) (w : World) : Result Unit :=
  match op with
  | Op.uint16 u => writeUInt16 u s w
  | Op.uint32 u => writeUInt32 u s w
  | Op.uint64 u => writeUInt64 u s w
  | Op.alignedString str alignment => writeAlignedString str alignment s w
  | Op.bits calls => bitsSpan calls s w

/-- Running a sequence of writes, stopping at the first one that does not return. -/
def runOps : List Op → BinaryOutputStream → World → Result Unit
  | [], s, w => Result.ret () s w
  | op :: rest, s, w => (runOp op s w).andThen (fun _ s1 w1 => runOps rest s1 w1)

/-! ## Specification-side vocabulary -/

/-- The `width` bytes of the unsigned integer `u` in byte order `order`. -/
def encodeUInt (order : Endianness) (width : Nat) (u : Nat) : List Nat :=
  match order with
  | Endianness.LITTLE => (List.range width).map (fun i => (u / 256 ^ i) % 256)
  | Endianness.BIG => ((List.range width).map (fun i => (u / 256 ^ i) % 256)).reverse

/-- The unsigned integer that the bytes `bs` denote when read in byte order `order`. -/
def decodeUInt (order : Endianness) (bs : List Nat) : Nat :=
  match order with
  | Endianness.LITTLE => bs.foldr (fun b acc => b + 256 * acc) 0
  | Endianness.BIG => bs.foldl (fun acc b => acc * 256 + b) 0

/-- The bytes that `writeUInt16/32/64` hand to the buffer for the value `u`, as a
function of `m_swapBytes` and of the host representation `convert`. -/
def hostBytes (swap : Bool) (w : World) (width : Nat) (u : Nat) : List Nat :=
  if swap = true then ((List.range width).map (fun i => convert w width u i)).reverse
  else (List.range width).map (fun i => convert w width u i)

/-- World used in examples: a little-endian host, an empty file, and `realloc`,
`fopen`, `fwrite` that always succeed. -/
def littleHost : World :=
  { machine := Endianness.LITTLE
    file := []
    reallocGrants := fun _ => true
    reallocCalls := 0
    garbage := fun _ _ => 170
    fopenGrants := fun _ => true
    fopenCalls := 0
    fwriteGrants := fun _ => true
    fwriteCalls := 0 }

/-- World used in examples: as `littleHost`, on a big-endian host. -/
def bigHost : World := { littleHost with machine := Endianness.BIG }

/-- Fields that no capacity operation and no writer touches. -/
def SameConfig (s s1 : BinaryOutputStream) : Prop :=
  s1.m_path = s.m_path ∧ s1.m_fileEndian = s.m_fileEndian ∧ s1.m_swapBytes = s.m_swapBytes ∧
  s1.m_ok = s.m_ok

/-- The bit accumulator is untouched. -/
def SameBits (s s1 : BinaryOutputStream) : Prop :=
  s1.m_beginEndBits = s.m_beginEndBits ∧ s1.m_bitString = s.m_bitString ∧
  s1.m_bitPos = s.m_bitPos

/-- The parts of the world a call cannot change: host byte order and the future
answers of the system calls. -/
def SameHost (w w1 : World) : Prop :=
  w1.machine = w.machine ∧ w1.reallocGrants = w.reallocGrants ∧ w1.garbage = w.garbage ∧
  w1.fopenGrants = w.fopenGrants ∧ w1.fwriteGrants = w.fwriteGrants

/-- The data-model invariant `0 ≤ cursor ≤ length ≤ capacity`. -/
def Inv (s : BinaryOutputStream) : Prop :=
  0 ≤ s.m_pos ∧ s.m_pos ≤ s.m_bufferLen ∧ s.m_bufferLen ≤ s.m_bufferCapacity

instance (s : BinaryOutputStream) : Decidable (Inv s) := by
  unfold Inv
  infer_instance

/-- Well-formed states: the data-model invariant, an allocation whenever the capacity
is positive, and (for a file-backed stream) a file that holds exactly the
`m_alreadyWritten` bytes persisted so far. -/
def WellFormed (s : BinaryOutputStream) (w : World) : Prop :=
  Inv s ∧ (0 < s.m_bufferCapacity → s.m_buffer.isSome = true) ∧
  (s.m_path ≠ "<memory>" → (w.file.length : Int) = s.m_alreadyWritten)

instance (s : BinaryOutputStream) (w : World) : Decidable (WellFormed s w) := by
  unfold WellFormed
  infer_instance

/-- Effect of a successful `reserveBytes(bytes)` that took the stream from `s`, `w` to
`s1`, `w1` and spilled `k` bytes on the way: the first `k` buffered bytes went to the
end of the file, the rest of the buffer moved down by `k`, and the length covers
`bytes` bytes at the cursor. -/
def ReservedBy (bytes : Nat) (s : BinaryOutputStream) (w : World) (s1 : BinaryOutputStream)
    (w1 : World) (k : Nat) : Prop :=
  (k : Int) ≤ s.m_pos ∧ s1.m_pos = s.m_pos - k ∧
  s1.m_alreadyWritten = s.m_alreadyWritten + k ∧
  s1.m_bufferLen = max (s.m_bufferLen - k) (s1.m_pos + bytes) ∧
  s.m_bufferCapacity ≤ s1.m_bufferCapacity ∧
  w1.file = w.file ++ bufferSlice s 0 k ∧
  (∀ j : Nat, (j : Int) < s.m_bufferLen - k → byteAt s1 j = byteAt s (j + k)) ∧
  (s.m_path = "<memory>" → k = 0)

/-- The low `count` bits of `value`, least significant first. -/
def lowBits (count value : Nat) : List Bool :=
  (List.range count).map (fun j => value.testBit j)

/-- The bits of a byte sequence, each byte read least significant bit first. -/
def unpackBits (bytes : List Nat) : List Bool :=
  bytes.flatMap (fun b => lowBits 8 b)

/-- The number whose bits, least significant first, are `bits`. -/
def bitsValue : List Bool → Nat
  | [] => 0
  | b :: rest => b.toNat + 2 * bitsValue rest

/-- Packing bits into bytes, least significant bit first: `pending` holds the bits
already accumulated for the current byte (fewer than 8); the result is the list of
completed bytes and the bits left pending. -/
def packFrom : List Bool → List Bool → List Nat × List Bool
  | pending, [] => ([], pending)
  | pending, b :: rest =>
    if pending.length + 1 > 7 then
      (bitsValue (pending ++ [b]) :: (packFrom [] rest).1, (packFrom [] rest).2)
    else packFrom (pending ++ [b]) rest

/-- The bytes of a complete bit-packing span over the bit sequence `bits`: the
completed bytes, then one more byte for the pending bits if there are any. -/
def packBits (bits : List Bool) : List Nat :=
  (packFrom [] bits).1 ++
    (if (packFrom [] bits).2 = [] then [] else [bitsValue (packFrom [] bits).2])

/-- The bit sequence requested by a list of `writeBits` calls: the low `num_bits` bits
of each value (a `uint32`), in call order. -/
def callBits (calls : List (Int × Nat)) : List Bool :=
  calls.flatMap (fun c => lowBits c.1.toNat (c.2 % 4294967296))

/-- Total number of bits requested by a list of `writeBits` calls. -/
def totalBits (calls : List (Int × Nat)) : Nat :=
  (calls.map (fun c => c.1.toNat)).sum

/-- Well-formed states whose cursor is at the end of the buffer (appending writes). -/
def Appending (s : BinaryOutputStream) (w : World) : Prop :=
  WellFormed s w ∧ s.m_pos = s.m_bufferLen

/-- The logical output so far: the bytes persisted in the file followed by the bytes
still buffered. -/
def output (s : BinaryOutputStream) (w : World) : List Nat :=
  w.file ++ bufferBytes s

/-- The step from `s`, `w` to `s1`, `w1` appended exactly the bytes `bs` to the logical
output and kept the stream in appending shape. -/
def Appended (s : BinaryOutputStream) (w : World) (s1 : BinaryOutputStream) (w1 : World)
    (bs : List Nat) : Prop :=
  Appending s1 w1 ∧ output s1 w1 = output s w ++ bs ∧ SameConfig s s1 ∧ SameHost w w1 ∧
  s1.m_alreadyWritten + s1.m_bufferLen = s.m_alreadyWritten + s.m_bufferLen + bs.length ∧
  s.m_bufferCapacity ≤ s1.m_bufferCapacity ∧
  (s.m_path = "<memory>" → w1.file = w.file)

/-- An in-memory stream all of whose allocation requests will be granted. -/
def Unfailing (s : BinaryOutputStream) (w : World) : Prop :=
  s.m_path = "<memory>" ∧ ∀ k, w.reallocGrants k = true

/-- The bit accumulator holds exactly the pending bits `pending` (fewer than 8). -/
def BitAcc (s : BinaryOutputStream) (pending : List Bool) : Prop :=
  s.m_bitPos = pending.length ∧ pending.length < 8 ∧ s.m_bitString = bitsValue pending

/-- The zero bytes that pad a string of `len` bytes to the alignment `a`:
`(a - len mod a) mod a` of them. -/
def paddingOf (len : Nat) (a : Int) : Nat :=
  ((a - (len : Int) % a) % a).toNat

/-- The bytes of an aligned string in byte order `order`: the 4-byte length (the
`int` that `(int)s.length()` yields), that many characters, and
`(a - length % a) % a` zero bytes, with `%` as on C++ `int`s. -/
def alignedStringBytes (order : Endianness) (str : List Nat) (a : Int) : List Nat :=
  encodeUInt order 4 (toInt32 str.length % 4294967296).toNat ++
    (str.take (toInt32 str.length).toNat).map (fun x => x % 256) ++
    List.replicate ((a - (toInt32 str.length).tmod a).tmod a).toNat 0

/-- Arguments with which a write can return at all: an aligned string needs a
non-zero alignment (`length % alignment`) and a length that `(int)` leaves
non-negative. -/
def Op.Valid : Op → Prop
  | Op.uint16 _ => True
  | Op.uint32 _ => True
  | Op.uint64 _ => True
  | Op.alignedString str a => a ≠ 0 ∧ 0 ≤ toInt32 str.length
  | Op.bits _ => True

instance (op : Op) : Decidable op.Valid := by
  cases op <;> unfold Op.Valid <;> infer_instance

/-- The bytes a write stands for in a stream of byte order `order`. -/
def opBytes (order : Endianness) : Op → List Nat
  | Op.uint16 u => encodeUInt order 2 u
  | Op.uint32 u => encodeUInt order 4 u
  | Op.uint64 u => encodeUInt order 8 u
  | Op.alignedString str a => alignedStringBytes order str a
  | Op.bits calls => packBits (callBits calls)

/-- The bytes a sequence of writes stands for: the concatenation, in order. -/
def opsBytes (order : Endianness) (ops : List Op) : List Nat :=
  ops.flatMap (opBytes order)

/-- The swap flag agrees with the declared byte order, as `setEndianness` leaves it. -/
def Consistent (s : BinaryOutputStream) (w : World) : Prop :=
  s.m_swapBytes = decide (s.m_fileEndian ≠ w.machine)

/-- A call that needs `room` more bytes cannot fail for lack of memory: either the
stream is in memory and every allocation is granted, or the bytes fit the capacity
at hand. -/
def Sure (s : BinaryOutputStream) (w : World) (room : Nat) : Prop :=
  Unfailing s w ∨ s.m_bufferLen + (room : Int) ≤ s.m_bufferCapacity

/-- Summary of a call that appends `bs`: it returns whenever memory is sure to
suffice (and then memory still suffices for what was left over), and when it returns
the logical output has grown by exactly `bs`, with `m_beginEndBits` as before. -/
def Runs {α : Type} (r : Result α) (s : BinaryOutputStream) (w : World) (bs : List Nat) : Prop :=
  (∀ m : Nat, Sure s w (bs.length + m) → r.isOk = true ∧ Sure r.stream r.world m) ∧
  (r.isOk = true →
    Appended s w r.stream r.world bs ∧ r.stream.m_beginEndBits = s.m_beginEndBits)

instance (s : BinaryOutputStream) (w : World) : Decidable (Appending s w) := by
  unfold Appending
  infer_instance

instance (s : BinaryOutputStream) (w : World) : Decidable (Consistent s w) := by
  unfold Consistent
  infer_instance

/-- World used in examples: as `littleHost`, but only the first `realloc` is granted,
so a file-backed stream that outgrows its first buffer has to spill. -/
def refusingHost : World := { littleHost with reallocGrants := fun k => decide (k = 0) }

/-- Fifteen 8-byte writes: one more than the first buffer (112 bytes) holds. -/
def fifteenWrites : List Op := List.replicate 15 (Op.uint64 72623859790382856)

/-- World used in examples: as `littleHost`, but every `fopen` fails. -/
def closedHost : World := { littleHost with fopenGrants := fun _ => false }

/-- The operations of the stream, public and private, with their arguments. -/
inductive Call where
  | setEndianness (endian : Endianness)
  | commit (flush : Bool)
  | reset
  | writeUInt8 (i : Nat)
  | writeBytes (n : Int) (b : List Nat)
  | writeInt32 (i : Int)
  | writeUInt16 (u : Nat)
  | writeUInt32 (u : Nat)
  | writeUInt64 (u : Nat)
  | writeAlignedString (str : List Nat) (alignment : Int)
  | beginBits
  | writeBits (num_bits : Int) (value : Nat)
  | endBits
  | reserveBytes (bytes : Nat)
  | reallocBuffer (bytes oldBufferLen : Nat)
  | reserveBytesWhenOutOfMemory (bytes : Nat)

/-- The stream and the world after a call has ended, whether it returned or not. -/
def runCall (c : Call) (s : BinaryOutputStream) (w : World) : BinaryOutputStream × World :=
  match c with
  | Call.setEndianness endian => (setEndianness endian s w, w)
  | Call.commit flush => ((commit flush s w).stream, (commit flush s w).world)
  | Call.reset => ((reset s w).stream, (reset s w).world)
  | Call.writeUInt8 i => ((writeUInt8 i s w).stream, (writeUInt8 i s w).world)
  | Call.writeBytes n b => ((writeBytes n b s w).stream, (writeBytes n b s w).world)
  | Call.writeInt32 i => ((writeInt32 i s w).stream, (writeInt32 i s w).world)
  | Call.writeUInt16 u => ((writeUInt16 u s w).stream, (writeUInt16 u s w).world)
  | Call.writeUInt32 u => ((writeUInt32 u s w).stream, (writeUInt32 u s w).world)
  | Call.writeUInt64 u => ((writeUInt64 u s w).stream, (writeUInt64 u s w).world)
  | Call.writeAlignedString str a =>
    ((writeAlignedString str a s w).stream, (writeAlignedString str a s w).world)
  | Call.beginBits => ((beginBits s w).stream, (beginBits s w).world)
  | Call.writeBits n v => ((writeBits n v s w).stream, (writeBits n v s w).world)
  | Call.endBits => ((endBits s w).stream, (endBits s w).world)
  | Call.reserveBytes bytes => ((reserveBytes bytes s w).stream, (reserveBytes bytes s w).world)
  | Call.reallocBuffer bytes old =>
    ((reallocBuffer bytes old s w).stream, (reallocBuffer bytes old s w).world)
  | Call.reserveBytesWhenOutOfMemory bytes =>
    ((reserveBytesWhenOutOfMemory bytes s w).stream,
      (reserveBytesWhenOutOfMemory bytes s w).world)

/-- The states a stream can be in after any sequence of calls from `s0`, `w0`. -/
inductive ReachableFrom (s0 : BinaryOutputStream) (w0 : World) :
    BinaryOutputStream → World → Prop where
  | start : ReachableFrom s0 w0 s0 w0
  | step (c : Call) (s : BinaryOutputStream) (w : World) :
      ReachableFrom s0 w0 s w → ReachableFrom s0 w0 (runCall c s w).1 (runCall c s w).2

/-- A step of a caller of a file-backed stream: an appending write or a commit. -/
inductive Action where
  | write (op : Op)
  | commit (flush : Bool)

/-- Running a sequence of steps; `none` as soon as a write does not return or a commit
does not return `true`. -/
def runActions : List Action → BinaryOutputStream → World → Option (BinaryOutputStream × World)
  | [], s, w => some (s, w)
  | Action.write op :: rest, s, w =>
    if (runOp op s w).isOk = true then runActions rest (runOp op s w).stream (runOp op s w).world
    else none
  | Action.commit flush :: rest, s, w =>
    match (commit flush s w).value with
    | Except.ok true => runActions rest (commit flush s w).stream (commit flush s w).world
    | _ => none

/-- The bytes written by a sequence of steps (commits write none). -/
def actionsBytes (order : Endianness) : List Action → List Nat
  | [] => []
  | Action.write op :: rest => opBytes order op ++ actionsBytes order rest
  | Action.commit _ :: rest => actionsBytes order rest

/-- A state as a spillover meets it in the examples: a full 112-byte buffer on a
file-backed stream. -/
def fullBuffer : BinaryOutputStream :=
  { initialFields "out.bin" with
    m_buffer := some (fun i => i % 256)
    m_bufferLen := 112
    m_bufferCapacity := 112
    m_pos := 112 }

/-- World used in examples: as `littleHost`, but `realloc` never succeeds. -/
def deniedHost : World := { littleHost with reallocGrants := fun _ => false }

/-- A state inside a bit-packing span, as used in the examples: a fresh in-memory
stream after `beginBits()`. -/
def packingStream : BinaryOutputStream :=
  (beginBits (newMemoryStream Endianness.LITTLE littleHost) littleHost).stream

/-- The size that `reallocBuffer` asks `realloc` for when the length is `len`:
`(size_t)(len * 1.5) + 100`. -/
def newBufferLen (len : Int) : Nat := ((len * 3).tdiv 2).toNat + 100

/-- A state as a partial spillover meets it in the examples: a full 30 MB buffer on a
file-backed stream. -/
def largeBuffer : BinaryOutputStream :=
  { initialFields "out.bin" with
    m_buffer := some (fun i => i % 256)
    m_bufferLen := 31457280
    m_bufferCapacity := 31457280
    m_pos := 31457280 }

/-- A file-backed stream whose buffer capacity is below `DGP_MAX_WRITE_BUFFER_SIZE`. -/
def Capped (s : BinaryOutputStream) : Prop :=
  s.m_path ≠ "<memory>" ∧ s.m_bufferCapacity < DGP_MAX_WRITE_BUFFER_SIZE

/-- Summary of a request `reserveBytes(n)` from `s`, `w` that goes through at most `m`
spillover steps (every spillover step calls `fopen` once, and nothing else in a
request does): the request returns when `fopen` and `fwrite` succeed, and if it
returns after exactly `m` steps the buffer was emptied on the way, so the cursor is 0,
the length is `n` and the capacity is as before. -/
def SpillsAtMost (m n : Nat) (s : BinaryOutputStream) (w : World) : Prop :=
  (reserveBytes n s w).world.fopenCalls ≤ w.fopenCalls + m ∧
  ((∀ k, w.fopenGrants k = true ∧ w.fwriteGrants k = true) →
    (reserveBytes n s w).isOk = true) ∧
  ((reserveBytes n s w).isOk = true →
    (reserveBytes n s w).world.fopenCalls = w.fopenCalls + m →
    (reserveBytes n s w).stream.m_pos = 0 ∧ (reserveBytes n s w).stream.m_bufferLen = n ∧
    (reserveBytes n s w).stream.m_bufferCapacity = s.m_bufferCapacity)

/-- The outcome `r1` is the outcome `r` with the swap flag of the stream set to `b`:
both return or neither does, and when they return they leave the same world and
streams that differ in `m_swapBytes` at most. -/
def SwapImage (b : Bool) (r1 r : Result Unit) : Prop :=
  r1.isOk = r.isOk ∧
  (r.isOk = true → r1.stream = { r.stream with m_swapBytes := b } ∧ r1.world = r.world)

/-- What the comparison of the two settings of `m_swapBytes` says of a writer `write`
of `width` bytes started from the state `s`: the two runs return or fail together, and
when they return, with `k` the number of bytes the write spilled to the file on the way
(0 on an in-memory stream), the bytes placed at the cursor with the flag set are the
reversal of the bytes placed with the flag clear (which are the host representation of
the value), the cursor ends `width` past its old place moved down by `k`, and every
other buffered byte is the old one moved down by `k`. -/
def SwapReverses (write : Nat → BinaryOutputStream → World → Result Unit) (width : Nat)
    (s : BinaryOutputStream) (w : World) (u : Nat) : Prop :=
  (write u { s with m_swapBytes := true } w).isOk =
    (write u { s with m_swapBytes := false } w).isOk ∧
  ((write u { s with m_swapBytes := false } w).isOk = true →
    ∃ k : Nat, (k : Int) ≤ s.m_pos ∧ (s.m_path = "<memory>" → k = 0) ∧
      (write u { s with m_swapBytes := false } w).stream.m_alreadyWritten
        = s.m_alreadyWritten + k ∧
      (write u { s with m_swapBytes := true } w).stream.m_alreadyWritten
        = s.m_alreadyWritten + k ∧
      bufferSlice (write u { s with m_swapBytes := false } w).stream (s.m_pos - k).toNat width
        = (List.range width).map (fun i => convert w width u i) ∧
      bufferSlice (write u { s with m_swapBytes := true } w).stream (s.m_pos - k).toNat width
        = (bufferSlice (write u { s with m_swapBytes := false } w).stream
            (s.m_pos - k).toNat width).reverse ∧
      (write u { s with m_swapBytes := false } w).stream.m_pos = s.m_pos - k + width ∧
      (write u { s with m_swapBytes := true } w).stream.m_pos = s.m_pos - k + width ∧
      ∀ j : Nat, (j : Int) < s.m_bufferLen - k →
        ((j : Int) < s.m_pos - k ∨ s.m_pos - k + width ≤ j) →
        byteAt (write u { s with m_swapBytes := false } w).stream j = byteAt s (j + k) ∧
        byteAt (write u { s with m_swapBytes := true } w).stream j = byteAt s (j + k))

/-- The list `l` with the bytes `bs` written over it from position `p` on (the list
grows when they reach past its end). -/
def overwrite (l : List Nat) (p : Nat) (bs : List Nat) : List Nat :=
  l.take p ++ bs ++ l.drop (p + bs.length)

/-- Position of the cursor in the logical output (persisted bytes, then buffer). -/
def logicalCursor (s : BinaryOutputStream) (w : World) : Nat :=
  w.file.length + s.m_pos.toNat

/-- Summary of a run from `s`, `w` to `s1`, `w1` that wrote the bytes `bs` at the
cursor: the logical output is the old one overwritten with `bs` from the old cursor on,
the cursor is past them, the file has only grown (by as many bytes as the persisted
count), and nothing is persisted on an in-memory stream. -/
def Wrote (s : BinaryOutputStream) (w : World) (s1 : BinaryOutputStream) (w1 : World)
    (bs : List Nat) : Prop :=
  WellFormed s1 w1 ∧
  output s1 w1 = overwrite (output s w) (logicalCursor s w) bs ∧
  logicalCursor s1 w1 = logicalCursor s w + bs.length ∧
  (∃ x, w1.file = w.file ++ x ∧ (x.length : Int) = s1.m_alreadyWritten - s.m_alreadyWritten) ∧
  (s.m_path = "<memory>" → s1.m_alreadyWritten = s.m_alreadyWritten) ∧
  SameConfig s s1 ∧ SameBits s s1 ∧ SameHost w w1

/-! ## Array writers -/

/-- Modelled from the spec: `writeInt8(i)` is defined in `BinaryOutputStream.hpp`, which
is not part of the sources at hand.  Section 4.3: a signed 8-bit value is written as
the byte of its two's complement representation, like `writeUInt8`. -/
def writeInt8 (i : Int) (s : BinaryOutputStream) (w : World) : Result Unit :=
  writeUInt8 (i % 256).toNat s w

/-- Modelled from the spec: `writeBool8(b)` is defined in `BinaryOutputStream.hpp`,
which is not part of the sources at hand.  Section 4.3 (boolean-as-byte): `true` is
written as the byte 1 and `false` as the byte 0. -/
def writeBool8 (b : Bool) (s : BinaryOutputStream) (w : World) : Result Unit :=
  writeUInt8 (if b = true then 1 else 0) s w

/-- Modelled from the spec: `writeInt16(i)` is defined in `BinaryOutputStream.hpp`,
which is not part of the sources at hand.  Section 4.3: a signed 16-bit value is
written as the 2 bytes of its two's complement representation, like `writeUInt16`. -/
def writeInt16 (i : Int) (s : BinaryOutputStream) (w : World) : Result Unit :=
  writeUInt16 (i % 65536).toNat s w

/-- Modelled from the spec: `writeInt64(i)` is defined in `BinaryOutputStream.hpp`,
which is not part of the sources at hand.  Section 4.3: a signed 64-bit value is
written as the 8 bytes of its two's complement representation, like `writeUInt64`. -/
def writeInt64 (i : Int) (s : BinaryOutputStream) (w : World) : Result Unit :=
  writeUInt64 (i % 18446744073709551616).toNat s w

/-- Modelled from the spec: `writeFloat32(f)` is defined in `BinaryOutputStream.hpp`,
which is not part of the sources at hand.  Section 4.3: a 32-bit float is written as
the 4 bytes of its representation, like `writeUInt32`.  A `float32` value is given here
by its bit pattern `f` (the `uint32` that occupies the same 4 bytes); writing it
involves no floating-point arithmetic. -/
def writeFloat32 (f : Nat) (s : BinaryOutputStream) (w : World) : Result Unit :=
  writeUInt32 f s w

/-- Modelled from the spec: `writeFloat64(f)` is defined in `BinaryOutputStream.hpp`,
which is not part of the sources at hand.  Section 4.3: a 64-bit float is written as
the 8 bytes of its representation, like `writeUInt64`.  A `float64` value is given here
by its bit pattern `f` (the `uint64` that occupies the same 8 bytes). -/
def writeFloat64 (f : Nat) (s : BinaryOutputStream) (w : World) : Result Unit :=
  writeUInt64 f s w

/-- The loop `for (int64 i = 0; i < n; ++i) write##fname(out[i]);` of the array
writers: the `k` rounds for the indices `i, ..., i + k - 1`, with `single` the
single-value writer `write##fname`.  Reading `out[i]` past the end of the array is a
`memoryFault`. -/
def writeLoop {α : Type} (single : α → BinaryOutputStream → World → Result Unit)
    (out : List α) : Nat → Nat → BinaryOutputStream → World → Result Unit
  | 0, _, s, w => Result.ret () s w
  | k + 1, i, s, w =>
    match out[i]? with
    | none => Result.fail Error.memoryFault s w
    | some x => (single x s w).andThen (fun _ s1 w1 => writeLoop single out k (i + 1) s1 w1)

/-- The memory of an array `out` of `width`-byte elements on the host, byte by byte:
what `(void const *)out` points to.  `bits x` is the unsigned integer that occupies the
same `width` bytes as the element `x`. -/
def arrayMemory {α : Type} (w : World) (width : Nat) (bits : α → Nat) (out : List α) :
    List Nat :=
  out.flatMap (fun x => (List.range width).map (fun i => convert w width (bits x) i))

/-- The array writer that the macro at source lines 77-87 defines for an element type
of `size` bytes with single-value writer `single`:
`if (sizeof(tname) == 1) writeBytes(n, (void *)out); else` the per-element loop. -/
def writeArrayOfBytes {α : Type} (size : Nat) (bits : α → Nat)
    (single : α → BinaryOutputStream → World → Result Unit)
    (n : Int) (out : List α) (s : BinaryOutputStream) (w : World) : Result Unit :=
  if size = 1 then writeBytes n (arrayMemory w size bits out) s w
  else writeLoop single out n.toNat 0 s w

/-- The array writer that the macro at source lines 95-105 defines for an element type
of `width` bytes with single-value writer `single`: the per-element loop when
`m_swapBytes` is set, otherwise `writeBytes(sizeof(tname) * n, (void const *)out)`. -/
def writeArrayOfWords {α : Type} (width : Nat) (bits : α → Nat)
    (single : α → BinaryOutputStream → World → Result Unit)
    (n : Int) (out : List α) (s : BinaryOutputStream) (w : World) : Result Unit :=
  if s.m_swapBytes = true then writeLoop single out n.toNat 0 s w
  else writeBytes (width * n) (arrayMemory w width bits out) s w

/-- The source function `writeBool8(int64 n, bool const * out)` (source line 89;
`sizeof(bool) == 1`, a `bool` object holds 1 for `true` and 0 for `false`). -/
def writeBool8Array (n : Int) (out : List Bool) (s : BinaryOutputStream) (w : World) :
    Result Unit :=
  writeArrayOfBytes 1 (fun b => if b = true then 1 else 0) writeBool8 n out s w

/-- The source function `writeBool8(int64 n, std::vector<bool> const & out)` (source
lines 35-41): `std::vector<bool>` is packed, so the elements are written one by one
with `writeBool8(out[i])`. -/
def writeBool8Vector (n : Int) (out : List Bool) (s : BinaryOutputStream) (w : World) :
    Result Unit :=
  writeLoop writeBool8 out n.toNat 0 s w

/-- The source function `writeUInt8(int64 n, uint8 const * out)` (source line 90; the
overload of `writeUInt8` that takes a count and an array; `sizeof(uint8) == 1`). -/
def writeUInt8Array (n : Int) (out : List Nat) (s : BinaryOutputStream) (w : World) :
    Result Unit :=
  writeArrayOfBytes 1 (fun u => u) writeUInt8 n out s w

/-- The source function `writeInt8(int64 n, int8 const * out)` (source line 91). -/
def writeInt8Array (n : Int) (out : List Int) (s : BinaryOutputStream) (w : World) :
    Result Unit :=
  writeArrayOfBytes 1 (fun i => (i % 256).toNat) writeInt8 n out s w

/-- The source function `writeUInt16(int64 n, uint16 const * out)` (source line 107). -/
def writeUInt16Array (n : Int) (out : List Nat) (s : BinaryOutputStream) (w : World) :
    Result Unit :=
  writeArrayOfWords 2 (fun u => u) writeUInt16 n out s w

/-- The source function `writeInt16(int64 n, int16 const * out)` (source line 108). -/
def writeInt16Array (n : Int) (out : List Int) (s : BinaryOutputStream) (w : World) :
    Result Unit :=
  writeArrayOfWords 2 (fun i => (i % 65536).toNat) writeInt16 n out s w

/-- The source function `writeUInt32(int64 n, uint32 const * out)` (source line 109). -/
def writeUInt32Array (n : Int) (out : List Nat) (s : BinaryOutputStream) (w : World) :
    Result Unit :=
  writeArrayOfWords 4 (fun u => u) writeUInt32 n out s w

/-- The source function `writeInt32(int64 n, int32 const * out)` (source line 110). -/
def writeInt32Array (n : Int) (out : List Int) (s : BinaryOutputStream) (w : World) :
    Result Unit :=
  writeArrayOfWords 4 (fun i => (i % 4294967296).toNat) writeInt32 n out s w

/-- The source function `writeUInt64(int64 n, uint64 const * out)` (source line 111). -/
def writeUInt64Array (n : Int) (out : List Nat) (s : BinaryOutputStream) (w : World) :
    Result Unit :=
  writeArrayOfWords 8 (fun u => u) writeUInt64 n out s w

/-- The source function `writeInt64(int64 n, int64 const * out)` (source line 112). -/
def writeInt64Array (n : Int) (out : List Int) (s : BinaryOutputStream) (w : World) :
    Result Unit :=
  writeArrayOfWords 8 (fun i => (i % 18446744073709551616).toNat) writeInt64 n out s w

/-- The source function `writeFloat32(int64 n, float32 const * out)` (source line 113);
the elements are given by their bit patterns. -/
def writeFloat32Array (n : Int) (out : List Nat) (s : BinaryOutputStream) (w : World) :
    Result Unit :=
  writeArrayOfWords 4 (fun f => f) writeFloat32 n out s w

/-- The source function `writeFloat64(int64 n, float64 const * out)` (source line 114);
the elements are given by their bit patterns. -/
def writeFloat64Array (n : Int) (out : List Nat) (s : BinaryOutputStream) (w : World) :
    Result Unit :=
  writeArrayOfWords 8 (fun f => f) writeFloat64 n out s w

/-- Calling the single-value writer `single` on the elements of `out` in order,
stopping at the first call that does not return. -/
def writeEach {α : Type} (single : α → BinaryOutputStream → World → Result Unit) :
    List α → BinaryOutputStream → World → Result Unit
  | [], s, w => Result.ret () s w
  | x :: rest, s, w =>
    (single x s w).andThen (fun _ s1 w1 => writeEach single rest s1 w1)

/-- Two outcomes leave the same logical stream: the same logical output (persisted
bytes followed by buffered bytes) and the same cursor position in it. -/
def SameOutput (r1 r2 : Result Unit) : Prop :=
  output r1.stream r1.world = output r2.stream r2.world ∧
  logicalCursor r1.stream r1.world = logicalCursor r2.stream r2.world

/-- Two outcomes leave the same buffer: the same bytes `[0, length)`, the same length
and the same cursor. -/
def SameBuffer (r1 r2 : Result Unit) : Prop :=
  bufferBytes r1.stream = bufferBytes r2.stream ∧
  r1.stream.m_bufferLen = r2.stream.m_bufferLen ∧ r1.stream.m_pos = r2.stream.m_pos

/-- How the outcome `arr` of an array writer and the outcome `each` of the
per-element calls, both started from `s`, agree when both return: always in the
logical stream; in the buffer too when neither run persisted anything, which is always
so on an in-memory stream. -/
def ArrayAgrees (arr each : Result Unit) (s : BinaryOutputStream) : Prop :=
  arr.isOk = true → each.isOk = true →
    SameOutput arr each ∧
    (arr.stream.m_alreadyWritten = s.m_alreadyWritten →
      each.stream.m_alreadyWritten = s.m_alreadyWritten → SameBuffer arr each) ∧
    (s.m_path = "<memory>" → SameBuffer arr each)

/-- What holds of an array writer `arr` and its single-value writer `single` on every
array `out` (passed with its length as the count) from the state `s`, `w`: the two
agree as `ArrayAgrees` says when both return, and both return on an in-memory stream
whose allocations are granted, outside a bit-packing span. -/
def ArrayWriterAgrees {α : Type}
    (arr : Int → List α → BinaryOutputStream → World → Result Unit)
    (single : α → BinaryOutputStream → World → Result Unit)
    (s : BinaryOutputStream) (w : World) : Prop :=
  ∀ out : List α,
    ArrayAgrees (arr out.length out s w) (writeEach single out s w) s ∧
    (Unfailing s w → s.m_beginEndBits = 0 →
      (arr out.length out s w).isOk = true ∧ (writeEach single out s w).isOk = true)

/-- The run used in the examples of a full buffer: a file-backed stream, constructed on
a host that grants the first `realloc` only, after fourteen 8-byte writes.  Its buffer
of 112 bytes is full and no further growth will be granted. -/
def fullRun : Result Unit :=
  runOps (List.replicate 14 (Op.uint64 72623859790382856))
    (newFileStream "out.bin" Endianness.LITTLE refusingHost).stream
    (newFileStream "out.bin" Endianness.LITTLE refusingHost).world

/-- The run used in the examples of a nearly full buffer: as `fullRun`, after twelve
8-byte writes and one 4-byte write, so that the buffer of 112 bytes holds 100. -/
def nearlyFullRun : Result Unit :=
  runOps (List.replicate 12 (Op.uint64 72623859790382856) ++ [Op.uint32 305419896])
    (newFileStream "out.bin" Endianness.LITTLE refusingHost).stream
    (newFileStream "out.bin" Endianness.LITTLE refusingHost).world

/-! ## Theorems -/

/-! ### Sequencing -/

theorem Result.andThen_ok {α β : Type} (r : Result α)
    (k : α → BinaryOutputStream → World → Result β) (a : α) (h : r.value = Except.ok a) :
    r.andThen k = k a r.stream r.world := by
  simp [Result.andThen, h]

theorem Result.andThen_error {α β : Type} (r : Result α)
    (k : α → BinaryOutputStream → World → Result β) (e : Error) (h : r.value = Except.error e) :
    r.andThen k = ⟨Except.error e, r.stream, r.world⟩ := by
  simp [Result.andThen, h]

theorem Result.isOk_iff {α : Type} (r : Result α) :
    r.isOk = true ↔ ∃ a, r.value = Except.ok a := by
  unfold Result.isOk
  cases h : r.value <;> simp

theorem Result.andThen_isOk {α β : Type} (r : Result α)
    (k : α → BinaryOutputStream → World → Result β) (h : (r.andThen k).isOk = true) :
    ∃ a, r.value = Except.ok a ∧ r.andThen k = k a r.stream r.world := by
  cases hv : r.value with
  | error e =>
    rw [Result.andThen_error r k e hv] at h
    simp [Result.isOk] at h
  | ok a => exact ⟨a, rfl, Result.andThen_ok r k a hv⟩

/-! ### Stores -/

theorem storeBytes_slice (s s2 : BinaryOutputStream) (i : Int) (bs : List Nat)
    (h : storeBytes s i bs = some s2) : bufferSlice s2 i.toNat bs.length = bs := by
  unfold storeBytes at h
  by_cases hbs : bs = []
  · subst hbs
    simp [bufferSlice]
  · rw [if_neg hbs] at h
    cases hb : s.m_buffer with
    | none => rw [hb] at h; simp at h
    | some b =>
      rw [hb] at h
      simp only at h
      split at h
      · injection h with h
        subst h
        apply List.ext_getElem
        · simp [bufferSlice]
        · intro n h1 h2
          simp only [bufferSlice, List.length_map, List.length_range] at h1
          simp [bufferSlice, byteAt, h1, List.getD_eq_getElem?_getD, List.getElem?_eq_getElem h2]
      · simp at h

/-! ### Spillover -/

theorem spill_ok (s : BinaryOutputStream) (w : World) (h : (spill s w).isOk = true) :
    ∃ b, s.m_buffer = some b ∧ 0 < bytesToWrite s ∧ bytesToWrite s ≤ s.m_pos ∧
      s.m_pos ≤ s.m_bufferLen ∧ s.m_bufferLen ≤ s.m_bufferCapacity ∧
      s.m_bufferLen - bytesToWrite s < s.m_bufferCapacity ∧
      bytesToWrite s ≤ s.m_bufferLen ∧
      w.fopenGrants w.fopenCalls = true ∧ w.fwriteGrants w.fwriteCalls = true ∧
      spill s w = Result.ret () (spilled s b) (spilledWorld s w) := by
  unfold spill at h ⊢
  by_cases h1 : bytesToWrite s > 0
  swap
  · rw [if_pos h1] at h; simp [Result.isOk, Result.fail] at h
  rw [if_neg (not_not.mpr h1)] at h ⊢
  by_cases h2 : w.fopenGrants w.fopenCalls = true
  swap
  · rw [if_pos h2] at h; simp [Result.isOk, Result.fail] at h
  rw [if_neg (not_not.mpr h2)] at h ⊢
  cases hb : s.m_buffer with
  | none => rw [hb] at h; simp [Result.isOk, Result.fail] at h
  | some b =>
    rw [hb] at h
    simp only [] at h ⊢
    by_cases h3 : bytesToWrite s ≤ s.m_bufferCapacity
    swap
    · rw [if_pos h3] at h; simp [Result.isOk, Result.fail] at h
    rw [if_neg (not_not.mpr h3)] at h ⊢
    by_cases h4 : w.fwriteGrants w.fwriteCalls = true
    swap
    · rw [if_pos h4] at h; simp [Result.isOk, Result.fail] at h
    rw [if_neg (not_not.mpr h4)] at h ⊢
    by_cases h5 : s.m_bufferLen - bytesToWrite s < s.m_bufferCapacity
    swap
    · rw [if_pos h5] at h; simp [Result.isOk, Result.fail] at h
    rw [if_neg (not_not.mpr h5)] at h ⊢
    by_cases h6 : s.m_bufferLen - bytesToWrite s ≥ 0
    swap
    · rw [if_pos h6] at h; simp [Result.isOk, Result.fail] at h
    rw [if_neg (not_not.mpr h6)] at h ⊢
    by_cases h7 : s.m_pos - bytesToWrite s ≥ 0
    swap
    · rw [if_pos h7] at h; simp [Result.isOk, Result.fail] at h
    rw [if_neg (not_not.mpr h7)] at h ⊢
    by_cases h8 : s.m_pos - bytesToWrite s ≤ s.m_bufferLen - bytesToWrite s
    swap
    · rw [if_pos h8] at h; simp [Result.isOk, Result.fail] at h
    rw [if_neg (not_not.mpr h8)] at h ⊢
    by_cases h9 : s.m_bufferLen ≤ s.m_bufferCapacity
    swap
    · rw [if_pos h9] at h; simp [Result.isOk, Result.fail] at h
    rw [if_neg (not_not.mpr h9)] at h ⊢
    exact ⟨b, rfl, h1, by omega, by omega, h9, h5, by omega, h2, h4, rfl⟩

theorem spill_frame (s : BinaryOutputStream) (w : World) :
    SameConfig s (spill s w).stream ∧ SameBits s (spill s w).stream ∧
      SameHost w (spill s w).world ∧
      (spill s w).stream.m_bufferCapacity = s.m_bufferCapacity ∧
      (spill s w).world.reallocCalls = w.reallocCalls := by
  unfold spill
  split
  · simp [SameConfig, SameBits, SameHost, Result.fail]
  split
  · simp [SameConfig, SameBits, SameHost, Result.fail]
  split
  · simp [SameConfig, SameBits, SameHost, Result.fail]
  repeat' split
  all_goals simp [SameConfig, SameBits, SameHost, Result.fail, Result.ret, spilled, spilledWorld]

theorem sameConfig_refl (s : BinaryOutputStream) : SameConfig s s := ⟨rfl, rfl, rfl, rfl⟩

theorem sameBits_refl (s : BinaryOutputStream) : SameBits s s := ⟨rfl, rfl, rfl⟩

theorem sameHost_refl (w : World) : SameHost w w := ⟨rfl, rfl, rfl, rfl, rfl⟩

theorem sameConfig_trans {s s1 s2 : BinaryOutputStream} (h1 : SameConfig s s1)
    (h2 : SameConfig s1 s2) : SameConfig s s2 := by
  obtain ⟨a1, a2, a3, a4⟩ := h1
  obtain ⟨b1, b2, b3, b4⟩ := h2
  exact ⟨b1.trans a1, b2.trans a2, b3.trans a3, b4.trans a4⟩

theorem sameBits_trans {s s1 s2 : BinaryOutputStream} (h1 : SameBits s s1)
    (h2 : SameBits s1 s2) : SameBits s s2 := by
  obtain ⟨a1, a2, a3⟩ := h1
  obtain ⟨b1, b2, b3⟩ := h2
  exact ⟨b1.trans a1, b2.trans a2, b3.trans a3⟩

theorem sameHost_trans {w w1 w2 : World} (h1 : SameHost w w1) (h2 : SameHost w1 w2) :
    SameHost w w2 := by
  obtain ⟨a1, a2, a3, a4, a5⟩ := h1
  obtain ⟨b1, b2, b3, b4, b5⟩ := h2
  exact ⟨b1.trans a1, b2.trans a2, b3.trans a3, b4.trans a4, b5.trans a5⟩

/-! ### `reserveBytes` -/

theorem reserveBytesWhenOutOfMemoryWith_frame
    (retry : Nat → BinaryOutputStream → World → Result Unit)
    (hr : ∀ n s w, SameConfig s (retry n s w).stream ∧ SameBits s (retry n s w).stream ∧
      SameHost w (retry n s w).world)
    (bytes : Nat) (s : BinaryOutputStream) (w : World) :
    SameConfig s (reserveBytesWhenOutOfMemoryWith retry bytes s w).stream ∧
      SameBits s (reserveBytesWhenOutOfMemoryWith retry bytes s w).stream ∧
      SameHost w (reserveBytesWhenOutOfMemoryWith retry bytes s w).world := by
  unfold reserveBytesWhenOutOfMemoryWith
  split
  · exact ⟨sameConfig_refl s, sameBits_refl s, sameHost_refl w⟩
  split
  · exact ⟨sameConfig_refl s, sameBits_refl s, sameHost_refl w⟩
  obtain ⟨f1, f2, f3, -, -⟩ := spill_frame s w
  cases hv : (spill s w).value with
  | error e =>
    rw [Result.andThen_error _ _ e hv]
    exact ⟨f1, f2, f3⟩
  | ok a =>
    rw [Result.andThen_ok _ _ a hv]
    obtain ⟨g1, g2, g3⟩ := hr bytes (spill s w).stream (spill s w).world
    exact ⟨sameConfig_trans f1 g1, sameBits_trans f2 g2, sameHost_trans f3 g3⟩

theorem reallocBufferWith_frame
    (retry : Nat → BinaryOutputStream → World → Result Unit)
    (hr : ∀ n s w, SameConfig s (retry n s w).stream ∧ SameBits s (retry n s w).stream ∧
      SameHost w (retry n s w).world)
    (bytes oldBufferLen : Nat) (s : BinaryOutputStream) (w : World) :
    SameConfig s (reallocBufferWith retry bytes oldBufferLen s w).stream ∧
      SameBits s (reallocBufferWith retry bytes oldBufferLen s w).stream ∧
      SameHost w (reallocBufferWith retry bytes oldBufferLen s w).world := by
  unfold reallocBufferWith
  simp only []
  split
  · split
    · simp [SameConfig, SameBits, SameHost, Result.ret]
    · split
      · obtain ⟨g1, g2, g3⟩ := reserveBytesWhenOutOfMemoryWith_frame retry hr bytes
          { s with m_bufferLen := oldBufferLen } { w with reallocCalls := w.reallocCalls + 1 }
        exact ⟨g1, g2, g3⟩
      · simp [SameConfig, SameBits, SameHost, Result.ret]
  · split
    · obtain ⟨g1, g2, g3⟩ := reserveBytesWhenOutOfMemoryWith_frame retry hr bytes
        { s with m_bufferLen := oldBufferLen } w
      exact ⟨g1, g2, g3⟩
    · simp [SameConfig, SameBits, SameHost, Result.ret]

theorem reserveBytesFuel_frame (fuel bytes : Nat) (s : BinaryOutputStream) (w : World) :
    SameConfig s (reserveBytesFuel fuel bytes s w).stream ∧
      SameBits s (reserveBytesFuel fuel bytes s w).stream ∧
      SameHost w (reserveBytesFuel fuel bytes s w).world := by
  induction fuel generalizing bytes s w with
  | zero => simp [reserveBytesFuel, SameConfig, SameBits, SameHost, Result.fail]
  | succ fuel ih =>
    rw [reserveBytesFuel]
    simp only []
    split
    · obtain ⟨g1, g2, g3⟩ := reallocBufferWith_frame (reserveBytesFuel fuel) ih bytes
        s.m_bufferLen.toNat { s with m_bufferLen := max s.m_bufferLen (s.m_pos + bytes) } w
      exact ⟨g1, g2, g3⟩
    · simp [SameConfig, SameBits, SameHost, Result.ret]

theorem reserveBytes_frame (bytes : Nat) (s : BinaryOutputStream) (w : World) :
    SameConfig s (reserveBytes bytes s w).stream ∧ SameBits s (reserveBytes bytes s w).stream ∧
      SameHost w (reserveBytes bytes s w).world :=
  reserveBytesFuel_frame _ bytes s w

theorem spill_inv (s : BinaryOutputStream) (w : World) (h : (spill s w).isOk = true) :
    Inv (spill s w).stream ∧ 0 ≤ (spill s w).stream.m_bufferLen ∧
      (spill s w).stream.m_bufferLen < s.m_bufferLen ∧
      (spill s w).stream.m_bufferLen < (spill s w).stream.m_bufferCapacity := by
  obtain ⟨b, -, h1, h2, h3, h4, h5, h6, -, -, heq⟩ := spill_ok s w h
  rw [heq]
  simp only [Result.ret, spilled, Inv]
  omega

theorem reserveBytesWhenOutOfMemoryWith_inv
    (retry : Nat → BinaryOutputStream → World → Result Unit) (bytes : Nat)
    (hr : ∀ s w, Inv s → (retry bytes s w).isOk = true →
      Inv (retry bytes s w).stream ∧
        (retry bytes s w).stream.m_pos + bytes ≤ (retry bytes s w).stream.m_bufferLen)
    (s : BinaryOutputStream) (w : World)
    (h : (reserveBytesWhenOutOfMemoryWith retry bytes s w).isOk = true) :
    Inv (reserveBytesWhenOutOfMemoryWith retry bytes s w).stream ∧
      (reserveBytesWhenOutOfMemoryWith retry bytes s w).stream.m_pos + bytes ≤
        (reserveBytesWhenOutOfMemoryWith retry bytes s w).stream.m_bufferLen := by
  unfold reserveBytesWhenOutOfMemoryWith at h ⊢
  split at h
  · simp [Result.isOk, Result.fail] at h
  split at h
  · simp [Result.isOk, Result.fail] at h
  rename_i h1 h2
  rw [if_neg h1, if_neg h2]
  obtain ⟨a, hv, heq⟩ := Result.andThen_isOk _ _ h
  rw [heq] at h ⊢
  have hs : (spill s w).isOk = true := (Result.isOk_iff _).mpr ⟨a, hv⟩
  exact hr _ _ (spill_inv s w hs).1 h

theorem newBufferLen_ge (len : Int) (h : 0 ≤ len) :
    len ≤ ((((len * 3).tdiv 2).toNat + 100 : Nat) : Int) := by
  rw [Int.tdiv_eq_ediv (by omega) (by omega)]
  omega

theorem reallocBufferWith_inv
    (retry : Nat → BinaryOutputStream → World → Result Unit) (bytes oldBufferLen : Nat)
    (hr : ∀ s w, Inv s → (retry bytes s w).isOk = true →
      Inv (retry bytes s w).stream ∧
        (retry bytes s w).stream.m_pos + bytes ≤ (retry bytes s w).stream.m_bufferLen)
    (s : BinaryOutputStream) (w : World)
    (hpos : 0 ≤ s.m_pos) (hlen : s.m_pos ≤ s.m_bufferLen)
    (hzero : bytes = 0 → s.m_bufferLen ≤ s.m_bufferCapacity)
    (h : (reallocBufferWith retry bytes oldBufferLen s w).isOk = true) :
    Inv (reallocBufferWith retry bytes oldBufferLen s w).stream ∧
      (s.m_pos + bytes ≤ s.m_bufferLen →
        (reallocBufferWith retry bytes oldBufferLen s w).stream.m_pos + bytes ≤
          (reallocBufferWith retry bytes oldBufferLen s w).stream.m_bufferLen) := by
  have hge := newBufferLen_ge s.m_bufferLen (by omega)
  unfold reallocBufferWith at h ⊢
  simp only [] at h ⊢
  split
  · rename_i hc
    rw [if_pos hc] at h
    split
    · simp only [Result.ret, Inv]
      exact ⟨⟨hpos, hlen, hge⟩, fun hx => hx⟩
    · rename_i hg
      rw [if_neg hg] at h
      split
      · rename_i hb
        rw [if_pos hb] at h
        have := reserveBytesWhenOutOfMemoryWith_inv retry bytes hr _ _ h
        exact ⟨this.1, fun _ => this.2⟩
      · rename_i hb
        simp only [Result.ret, Inv]
        have hb0 : bytes = 0 := by omega
        exact ⟨⟨hpos, hlen, hzero hb0⟩, fun hx => hx⟩
  · rename_i hc
    rw [if_neg hc] at h
    split
    · rename_i hb
      rw [if_pos hb] at h
      have := reserveBytesWhenOutOfMemoryWith_inv retry bytes hr _ _ h
      exact ⟨this.1, fun _ => this.2⟩
    · rename_i hb
      simp only [Result.ret, Inv]
      have hb0 : bytes = 0 := by omega
      exact ⟨⟨hpos, hlen, hzero hb0⟩, fun hx => hx⟩

theorem reserveBytesFuel_inv (fuel bytes : Nat) (s : BinaryOutputStream) (w : World)
    (hinv : Inv s) (h : (reserveBytesFuel fuel bytes s w).isOk = true) :
    Inv (reserveBytesFuel fuel bytes s w).stream ∧
      (reserveBytesFuel fuel bytes s w).stream.m_pos + bytes ≤
        (reserveBytesFuel fuel bytes s w).stream.m_bufferLen := by
  induction fuel generalizing s w with
  | zero => simp [reserveBytesFuel, Result.isOk, Result.fail] at h
  | succ fuel ih =>
    obtain ⟨i1, i2, i3⟩ := hinv
    rw [reserveBytesFuel] at h ⊢
    simp only [] at h ⊢
    split
    · rename_i hc
      rw [if_pos hc] at h
      have := reallocBufferWith_inv (reserveBytesFuel fuel) bytes s.m_bufferLen.toNat
        (fun s w hi hk => ih s w hi hk)
        { s with m_bufferLen := max s.m_bufferLen (s.m_pos + bytes) } w
        i1 (by simp only []; omega) (by intro hb; simp only []; subst hb; simp; omega) h
      exact ⟨this.1, this.2 (by simp only []; omega)⟩
    · rename_i hc
      simp only [Result.ret, Inv] at hc ⊢
      omega

theorem reserveBytes_inv (bytes : Nat) (s : BinaryOutputStream) (w : World)
    (hinv : Inv s) (h : (reserveBytes bytes s w).isOk = true) :
    Inv (reserveBytes bytes s w).stream ∧
      (reserveBytes bytes s w).stream.m_pos + bytes ≤ (reserveBytes bytes s w).stream.m_bufferLen :=
  reserveBytesFuel_inv _ bytes s w hinv h

/-! ### The recursion of `reserveBytes` is well founded -/

theorem reserveBytesWhenOutOfMemoryWith_congr
    (r1 r2 : Nat → BinaryOutputStream → World → Result Unit) (bytes : Nat)
    (s : BinaryOutputStream) (w : World)
    (h : ∀ s1 w1, 0 ≤ s1.m_bufferLen → s1.m_bufferLen < s.m_bufferLen →
      r1 bytes s1 w1 = r2 bytes s1 w1) :
    reserveBytesWhenOutOfMemoryWith r1 bytes s w =
      reserveBytesWhenOutOfMemoryWith r2 bytes s w := by
  unfold reserveBytesWhenOutOfMemoryWith
  split
  · rfl
  split
  · rfl
  cases hv : (spill s w).value with
  | error e => rw [Result.andThen_error _ _ e hv, Result.andThen_error _ _ e hv]
  | ok a =>
    rw [Result.andThen_ok _ _ a hv, Result.andThen_ok _ _ a hv]
    have hs : (spill s w).isOk = true := (Result.isOk_iff _).mpr ⟨a, hv⟩
    obtain ⟨-, h1, h2, -⟩ := spill_inv s w hs
    exact h _ _ h1 h2

theorem reallocBufferWith_congr
    (r1 r2 : Nat → BinaryOutputStream → World → Result Unit) (bytes oldBufferLen : Nat)
    (s : BinaryOutputStream) (w : World)
    (h : ∀ s1 w1, 0 ≤ s1.m_bufferLen → s1.m_bufferLen < (oldBufferLen : Int) →
      r1 bytes s1 w1 = r2 bytes s1 w1) :
    reallocBufferWith r1 bytes oldBufferLen s w = reallocBufferWith r2 bytes oldBufferLen s w := by
  unfold reallocBufferWith
  simp only []
  rw [reserveBytesWhenOutOfMemoryWith_congr r1 r2 bytes
      { s with m_bufferLen := oldBufferLen } { w with reallocCalls := w.reallocCalls + 1 } h,
    reserveBytesWhenOutOfMemoryWith_congr r1 r2 bytes { s with m_bufferLen := oldBufferLen } w h]

theorem reserveBytesFuel_stable (f1 f2 bytes : Nat) (s : BinaryOutputStream) (w : World)
    (h1 : s.m_bufferLen.toNat < f1) (h2 : s.m_bufferLen.toNat < f2) :
    reserveBytesFuel f1 bytes s w = reserveBytesFuel f2 bytes s w := by
  induction f1 generalizing f2 s w with
  | zero => omega
  | succ a ih =>
    cases f2 with
    | zero => omega
    | succ b =>
      rw [reserveBytesFuel, reserveBytesFuel]
      simp only []
      rw [reallocBufferWith_congr (reserveBytesFuel a) (reserveBytesFuel b)]
      intro s1 w1 g1 g2
      exact ih b s1 w1 (by omega) (by omega)

/-- The recursive equation of `reserveBytes`, as the header writes it: raise the
length, and call `reallocBuffer` when it exceeds the capacity. -/
theorem reserveBytes_eq (bytes : Nat) (s : BinaryOutputStream) (w : World) :
    reserveBytes bytes s w =
      if max s.m_bufferLen (s.m_pos + bytes) > s.m_bufferCapacity then
        reallocBuffer bytes s.m_bufferLen.toNat
          { s with m_bufferLen := max s.m_bufferLen (s.m_pos + bytes) } w
      else Result.ret () { s with m_bufferLen := max s.m_bufferLen (s.m_pos + bytes) } w := by
  unfold reserveBytes reallocBuffer
  rw [reserveBytesFuel]
  simp only []
  rw [reallocBufferWith_congr (reserveBytesFuel s.m_bufferLen.toNat) reserveBytes]
  intro s1 w1 g1 g2
  unfold reserveBytes
  exact reserveBytesFuel_stable _ _ bytes s1 w1 (by omega) (by omega)

theorem reserveBytesWhenOutOfMemoryWith_fuel
    (retry : Nat → BinaryOutputStream → World → Result Unit) (bytes : Nat)
    (s : BinaryOutputStream) (w : World)
    (hr : ∀ s1 w1, 0 ≤ s1.m_bufferLen → s1.m_bufferLen < s.m_bufferLen →
      (retry bytes s1 w1).value ≠ Except.error Error.fuelExhausted) :
    (reserveBytesWhenOutOfMemoryWith retry bytes s w).value ≠
      Except.error Error.fuelExhausted := by
  unfold reserveBytesWhenOutOfMemoryWith
  split
  · simp [Result.fail]
  split
  · simp [Result.fail]
  cases hv : (spill s w).value with
  | error e =>
    rw [Result.andThen_error _ _ e hv]
    simp only [ne_eq, Except.error.injEq]
    intro he
    subst he
    unfold spill at hv
    repeat' split at hv
    all_goals simp [Result.fail, Result.ret] at hv
  | ok a =>
    rw [Result.andThen_ok _ _ a hv]
    have hs : (spill s w).isOk = true := (Result.isOk_iff _).mpr ⟨a, hv⟩
    obtain ⟨-, h1, h2, -⟩ := spill_inv s w hs
    exact hr _ _ h1 h2

theorem reallocBufferWith_fuel
    (retry : Nat → BinaryOutputStream → World → Result Unit) (bytes oldBufferLen : Nat)
    (s : BinaryOutputStream) (w : World)
    (hr : ∀ s1 w1, 0 ≤ s1.m_bufferLen → s1.m_bufferLen < (oldBufferLen : Int) →
      (retry bytes s1 w1).value ≠ Except.error Error.fuelExhausted) :
    (reallocBufferWith retry bytes oldBufferLen s w).value ≠
      Except.error Error.fuelExhausted := by
  unfold reallocBufferWith
  simp only []
  have k1 := reserveBytesWhenOutOfMemoryWith_fuel retry bytes
    { s with m_bufferLen := oldBufferLen } { w with reallocCalls := w.reallocCalls + 1 } hr
  have k2 := reserveBytesWhenOutOfMemoryWith_fuel retry bytes
    { s with m_bufferLen := oldBufferLen } w hr
  repeat' split
  all_goals first | exact k1 | exact k2 | simp [Result.ret]

theorem reserveBytesFuel_fuel (fuel bytes : Nat) (s : BinaryOutputStream) (w : World)
    (h : s.m_bufferLen.toNat < fuel) :
    (reserveBytesFuel fuel bytes s w).value ≠ Except.error Error.fuelExhausted := by
  induction fuel generalizing s w with
  | zero => omega
  | succ a ih =>
    rw [reserveBytesFuel]
    simp only []
    split
    · apply reallocBufferWith_fuel
      intro s1 w1 g1 g2
      exact ih s1 w1 (by omega)
    · simp [Result.ret]

/-- The fuel handed to the recursion is never used up: `reserveBytes` always ends by
returning or by one of the errors of the source. -/
theorem reserveBytes_ne_fuelExhausted (bytes : Nat) (s : BinaryOutputStream) (w : World) :
    (reserveBytes bytes s w).value ≠ Except.error Error.fuelExhausted :=
  reserveBytesFuel_fuel _ bytes s w (by omega)

/-! ### What a successful `reserveBytes` does to the buffered bytes -/

theorem bufferSlice_append (s : BinaryOutputStream) (a b : Nat) :
    bufferSlice s 0 (a + b) = bufferSlice s 0 a ++ bufferSlice s a b := by
  simp [bufferSlice, List.range_add, List.map_map, Function.comp_def]

theorem bufferSlice_congr (s1 s2 : BinaryOutputStream) (i1 i2 n : Nat)
    (h : ∀ j, j < n → byteAt s1 (i1 + j) = byteAt s2 (i2 + j)) :
    bufferSlice s1 i1 n = bufferSlice s2 i2 n := by
  unfold bufferSlice
  apply List.map_congr_left
  intro j hj
  exact h j (List.mem_range.mp hj)

theorem bufferSlice_length (s : BinaryOutputStream) (i n : Nat) :
    (bufferSlice s i n).length = n := by
  simp [bufferSlice]

theorem stream_restore_len (s : BinaryOutputStream) (x : Int) (h : 0 ≤ s.m_bufferLen) :
    ({ { s with m_bufferLen := x } with m_bufferLen := ((s.m_bufferLen.toNat : Nat) : Int) } :
      BinaryOutputStream) = s := by
  cases s
  simp only [BinaryOutputStream.mk.injEq, true_and, and_true] at h ⊢
  omega

theorem reserveBytesWhenOutOfMemoryWith_spec
    (retry : Nat → BinaryOutputStream → World → Result Unit) (bytes : Nat)
    (hr : ∀ s w, WellFormed s w → (retry bytes s w).isOk = true →
      WellFormed (retry bytes s w).stream (retry bytes s w).world ∧
        ∃ k, ReservedBy bytes s w (retry bytes s w).stream (retry bytes s w).world k)
    (s : BinaryOutputStream) (w : World) (hwf : WellFormed s w)
    (h : (reserveBytesWhenOutOfMemoryWith retry bytes s w).isOk = true) :
    WellFormed (reserveBytesWhenOutOfMemoryWith retry bytes s w).stream
        (reserveBytesWhenOutOfMemoryWith retry bytes s w).world ∧
      ∃ k, ReservedBy bytes s w (reserveBytesWhenOutOfMemoryWith retry bytes s w).stream
        (reserveBytesWhenOutOfMemoryWith retry bytes s w).world k := by
  unfold reserveBytesWhenOutOfMemoryWith at h ⊢
  split at h
  · simp [Result.isOk, Result.fail] at h
  split at h
  · simp [Result.isOk, Result.fail] at h
  rename_i hmem hcap
  rw [if_neg hmem, if_neg hcap]
  obtain ⟨a, hv, heq⟩ := Result.andThen_isOk _ _ h
  rw [heq] at h ⊢
  have hs : (spill s w).isOk = true := (Result.isOk_iff _).mpr ⟨a, hv⟩
  obtain ⟨b, hb, t1, t2, t3, t4, t5, t6, -, -, hsp⟩ := spill_ok s w hs
  obtain ⟨⟨i1, i2, i3⟩, hbuf, hfile⟩ := hwf
  have hfile := hfile hmem
  have hopened : (if s.m_alreadyWritten > 0 then w.file else []) = w.file := by
    split
    · rfl
    · have : w.file.length = 0 := by omega
      exact (List.length_eq_zero.mp this).symm
  rw [hsp] at h ⊢
  simp only [Result.ret] at h ⊢
  have hwf3 : WellFormed (spilled s b) (spilledWorld s w) := by
    refine ⟨?_, ?_, ?_⟩
    · simp only [Inv, spilled]; omega
    · intro _; simp [spilled]
    · intro _
      simp only [spilledWorld, spilled, hopened, List.length_append, bufferSlice_length]
      push_cast
      omega
  obtain ⟨hwf1, k1, r1, r2, r3, r4, r5, r6, r7, r8⟩ := hr _ _ hwf3 h
  refine ⟨hwf1, (bytesToWrite s).toNat + k1, ?_, ?_, ?_, ?_, ?_, ?_, ?_, ?_⟩
  · simp only [spilled] at r1; push_cast; omega
  · rw [r2]; simp only [spilled]; push_cast; omega
  · rw [r3]; simp only [spilled]; push_cast; omega
  · rw [r4]; simp only [spilled]; push_cast
    rw [Int.toNat_of_nonneg (by omega)]
    congr 1
    omega
  · simpa [spilled] using r5
  · rw [r6]
    simp only [spilledWorld, hopened, List.append_assoc]
    rw [bufferSlice_append]
    congr 2
    apply bufferSlice_congr
    intro j hj
    simp only [spilled] at r1
    have hj1 : (j : Int) < s.m_bufferLen - bytesToWrite s := by omega
    simp [byteAt, spilled, hb, hj1, Nat.add_comm]
  · intro j hj
    simp only [spilled] at r1
    push_cast at hj
    rw [Int.toNat_of_nonneg (by omega)] at hj
    rw [r7 j (by simp only [spilled]; omega)]
    have hj1 : ((j + k1 : Nat) : Int) < s.m_bufferLen - bytesToWrite s := by
      push_cast; omega
    simp only [byteAt, spilled, hb, hj1, if_true]
    congr 1
    omega
  · intro hm; exact absurd hm hmem

theorem ReservedBy.of_world (bytes : Nat) (s : BinaryOutputStream) (w w0 : World)
    (s1 : BinaryOutputStream) (w1 : World) (k : Nat) (hf : w0.file = w.file)
    (h : ReservedBy bytes s w0 s1 w1 k) : ReservedBy bytes s w s1 w1 k := by
  unfold ReservedBy at h ⊢
  rw [← hf]
  exact h

theorem reserveBytesFuel_spec (fuel bytes : Nat) (s : BinaryOutputStream) (w : World)
    (hwf : WellFormed s w) (h : (reserveBytesFuel fuel bytes s w).isOk = true) :
    WellFormed (reserveBytesFuel fuel bytes s w).stream (reserveBytesFuel fuel bytes s w).world ∧
      ∃ k, ReservedBy bytes s w (reserveBytesFuel fuel bytes s w).stream
        (reserveBytesFuel fuel bytes s w).world k := by
  induction fuel generalizing s w with
  | zero => simp [reserveBytesFuel, Result.isOk, Result.fail] at h
  | succ fuel ih =>
    have hwf0 := hwf
    obtain ⟨⟨i1, i2, i3⟩, hbuf, hfile⟩ := hwf
    have hrestore := stream_restore_len s (max s.m_bufferLen (s.m_pos + bytes)) (by omega)
    have viaSpill : ∀ w0 : World, w0.file = w.file →
        (reserveBytesWhenOutOfMemoryWith (reserveBytesFuel fuel) bytes s w0).isOk = true →
        WellFormed (reserveBytesWhenOutOfMemoryWith (reserveBytesFuel fuel) bytes s w0).stream
          (reserveBytesWhenOutOfMemoryWith (reserveBytesFuel fuel) bytes s w0).world ∧
        ∃ k, ReservedBy bytes s w
          (reserveBytesWhenOutOfMemoryWith (reserveBytesFuel fuel) bytes s w0).stream
          (reserveBytesWhenOutOfMemoryWith (reserveBytesFuel fuel) bytes s w0).world k := by
      intro w0 hf hk
      have hwfw : WellFormed s w0 := ⟨⟨i1, i2, i3⟩, hbuf, by rw [hf]; exact hfile⟩
      obtain ⟨g1, k, g2⟩ := reserveBytesWhenOutOfMemoryWith_spec (reserveBytesFuel fuel) bytes
        (fun s w hw hk => ih s w hw hk) s w0 hwfw hk
      exact ⟨g1, k, ReservedBy.of_world bytes s w w0 _ _ k hf g2⟩
    rw [reserveBytesFuel] at h ⊢
    simp only [] at h ⊢
    split
    · rename_i hc
      rw [if_pos hc] at h
      have hb0 : bytes ≠ 0 := by
        intro hb; subst hb; simp at hc; omega
      unfold reallocBufferWith at h ⊢
      simp only [hrestore] at h ⊢
      have hge := newBufferLen_ge (max s.m_bufferLen (s.m_pos + bytes)) (by omega)
      split
      · rename_i hatt
        rw [if_pos hatt] at h
        split
        · refine ⟨⟨?_, ?_, ?_⟩, 0, ?_⟩
          · simp only [Result.ret, Inv]; omega
          · intro _; simp [Result.ret]
          · simpa [Result.ret] using hfile
          · refine ⟨by simpa using i1, by simp [Result.ret], by simp [Result.ret],
              by simp [Result.ret], ?_, by simp [Result.ret, bufferSlice], ?_, fun _ => rfl⟩
            · simp only [Result.ret]; omega
            · intro j hj
              simp only [Result.ret, byteAt, Nat.add_zero]
              cases hbf : s.m_buffer with
              | none =>
                have : ¬ (0 < s.m_bufferCapacity) := by
                  intro hp; have := hbuf hp; simp [hbf] at this
                simp at hj
                omega
              | some b =>
                simp only []
                simp at hj
                rw [if_pos (by omega)]
        · rename_i hg
          rw [if_neg hg] at h
          rw [if_pos (by omega)] at h ⊢
          exact viaSpill _ rfl h
      · rename_i hatt
        rw [if_neg hatt] at h
        rw [if_pos (by omega)] at h ⊢
        exact viaSpill _ rfl h
    · rename_i hc
      refine ⟨⟨?_, ?_, ?_⟩, 0, ?_⟩
      · simp only [Result.ret, Inv]; omega
      · simpa [Result.ret] using hbuf
      · simpa [Result.ret] using hfile
      · refine ⟨by simpa using i1, by simp [Result.ret], by simp [Result.ret],
          by simp [Result.ret], by simp [Result.ret], by simp [Result.ret, bufferSlice],
          ?_, fun _ => rfl⟩
        intro j _
        simp [Result.ret, byteAt]

theorem reserveBytes_spec (bytes : Nat) (s : BinaryOutputStream) (w : World)
    (hwf : WellFormed s w) (h : (reserveBytes bytes s w).isOk = true) :
    WellFormed (reserveBytes bytes s w).stream (reserveBytes bytes s w).world ∧
      ∃ k, ReservedBy bytes s w (reserveBytes bytes s w).stream
        (reserveBytes bytes s w).world k :=
  reserveBytesFuel_spec _ bytes s w hwf h

/-! ### Placing bytes at the cursor -/

theorem storeBytes_fields (s s2 : BinaryOutputStream) (i : Int) (bs : List Nat)
    (h : storeBytes s i bs = some s2) : s2 = { s with m_buffer := s2.m_buffer } := by
  unfold storeBytes at h
  split at h
  · injection h with h; subst h; rfl
  · split at h
    · simp at h
    · split at h
      · injection h with h; subst h; rfl
      · simp at h

theorem storeBytes_bounds (s s2 : BinaryOutputStream) (i : Int) (bs : List Nat)
    (hne : bs ≠ []) (h : storeBytes s i bs = some s2) :
    0 ≤ i ∧ i + bs.length ≤ s.m_bufferCapacity ∧ s2.m_buffer.isSome = true := by
  unfold storeBytes at h
  rw [if_neg hne] at h
  split at h
  · simp at h
  · split at h
    · rename_i hc
      injection h with h; subst h
      exact ⟨hc.1, hc.2, rfl⟩
    · simp at h

theorem storeBytes_outside (s s2 : BinaryOutputStream) (i : Int) (bs : List Nat)
    (h : storeBytes s i bs = some s2) (j : Nat)
    (hj : j < i.toNat ∨ i.toNat + bs.length ≤ j) : byteAt s2 j = byteAt s j := by
  unfold storeBytes at h
  split at h
  · injection h with h; subst h; rfl
  · split at h
    · simp at h
    · rename_i b hb
      split at h
      · injection h with h; subst h
        have : ¬ (i.toNat ≤ j ∧ j < i.toNat + bs.length) := by omega
        simp only [byteAt, hb]
        rw [if_neg this]
      · simp at h

theorem storeBytes_some (s : BinaryOutputStream) (i : Int) (bs : List Nat)
    (h0 : 0 ≤ i) (h1 : i + bs.length ≤ s.m_bufferCapacity)
    (hb : bs ≠ [] → s.m_buffer.isSome = true) : ∃ s2, storeBytes s i bs = some s2 := by
  unfold storeBytes
  split
  · exact ⟨s, rfl⟩
  · rename_i hne
    have := hb hne
    cases hbuf : s.m_buffer with
    | none => simp [hbuf] at this
    | some b =>
      simp only []
      rw [if_pos ⟨h0, h1⟩]
      exact ⟨_, rfl⟩

theorem putBytes_ok (bs : List Nat) (s : BinaryOutputStream) (w : World)
    (h : (putBytes bs s w).isOk = true) :
    (reserveBytes bs.length s w).isOk = true ∧
      ∃ s2, storeBytes (reserveBytes bs.length s w).stream
          (reserveBytes bs.length s w).stream.m_pos bs = some s2 ∧
        putBytes bs s w = Result.ret () { s2 with m_pos := s2.m_pos + bs.length }
          (reserveBytes bs.length s w).world := by
  unfold putBytes at h ⊢
  obtain ⟨a, hv, heq⟩ := Result.andThen_isOk _ _ h
  rw [heq] at h ⊢
  refine ⟨(Result.isOk_iff _).mpr ⟨a, hv⟩, ?_⟩
  cases hst : storeBytes (reserveBytes bs.length s w).stream
      (reserveBytes bs.length s w).stream.m_pos bs with
  | none => rw [hst] at h; simp [Result.isOk, Result.fail] at h
  | some s2 => exact ⟨s2, rfl, rfl⟩

theorem putBytes_frame (bs : List Nat) (s : BinaryOutputStream) (w : World) :
    SameConfig s (putBytes bs s w).stream ∧ SameBits s (putBytes bs s w).stream ∧
      SameHost w (putBytes bs s w).world := by
  obtain ⟨f1, f2, f3⟩ := reserveBytes_frame bs.length s w
  unfold putBytes
  cases hv : (reserveBytes bs.length s w).value with
  | error e => rw [Result.andThen_error _ _ e hv]; exact ⟨f1, f2, f3⟩
  | ok a =>
    rw [Result.andThen_ok _ _ a hv]
    cases hst : storeBytes (reserveBytes bs.length s w).stream
        (reserveBytes bs.length s w).stream.m_pos bs with
    | none => exact ⟨f1, f2, f3⟩
    | some s2 =>
      have := storeBytes_fields _ _ _ _ hst
      simp only [Result.ret]
      rw [this]
      exact ⟨f1, f2, f3⟩

theorem putBytes_inv (bs : List Nat) (s : BinaryOutputStream) (w : World) (hinv : Inv s)
    (h : (putBytes bs s w).isOk = true) : Inv (putBytes bs s w).stream := by
  obtain ⟨hr, s2, hst, heq⟩ := putBytes_ok bs s w h
  obtain ⟨⟨i1, i2, i3⟩, i4⟩ := reserveBytes_inv bs.length s w hinv hr
  have hf := storeBytes_fields _ _ _ _ hst
  rw [heq]
  simp only [Result.ret, Inv]
  rw [hf]
  simp only []
  omega

/-- Appending `bs` to a well-formed stream whose cursor is at the end of the buffer:
the logical output (file followed by buffer) grows by exactly `bs`. -/
theorem putBytes_spec (bs : List Nat) (s : BinaryOutputStream) (w : World)
    (hwf : WellFormed s w) (happ : s.m_pos = s.m_bufferLen)
    (h : (putBytes bs s w).isOk = true) :
    WellFormed (putBytes bs s w).stream (putBytes bs s w).world ∧
      (putBytes bs s w).stream.m_pos = (putBytes bs s w).stream.m_bufferLen ∧
      (putBytes bs s w).world.file ++ bufferBytes (putBytes bs s w).stream =
        w.file ++ bufferBytes s ++ bs ∧
      (putBytes bs s w).stream.m_alreadyWritten + (putBytes bs s w).stream.m_bufferLen =
        s.m_alreadyWritten + s.m_bufferLen + bs.length ∧
      s.m_bufferCapacity ≤ (putBytes bs s w).stream.m_bufferCapacity ∧
      (s.m_path = "<memory>" → (putBytes bs s w).world.file = w.file) := by
  obtain ⟨hr, s2, hst, heq⟩ := putBytes_ok bs s w h
  obtain ⟨⟨⟨i1, i2, i3⟩, hbuf, hfile⟩, k, r1, r2, r3, r4, r5, r6, r7, r8⟩ :=
    reserveBytes_spec bs.length s w hwf hr
  obtain ⟨⟨j1, j2, j3⟩, -, -⟩ := hwf
  have hf := storeBytes_fields _ _ _ _ hst
  have hlen1 : (reserveBytes bs.length s w).stream.m_bufferLen =
      (reserveBytes bs.length s w).stream.m_pos + bs.length := by omega
  rw [heq]
  simp only [Result.ret]
  refine ⟨⟨?_, ?_, ?_⟩, ?_, ?_, ?_, ?_, ?_⟩
  · simp only [Inv]; rw [hf]; simp only []; omega
  · intro hc
    by_cases hne : bs = []
    · subst hne
      simp only [storeBytes, if_true] at hst
      injection hst with hst
      subst hst
      exact hbuf hc
    · exact (storeBytes_bounds _ _ _ _ hne hst).2.2
  · rw [hf]; exact hfile
  · rw [hf]; simp only []; omega
  · rw [r6]
    unfold bufferBytes
    have e1 : ({ s2 with m_pos := s2.m_pos + bs.length } : BinaryOutputStream).m_bufferLen.toNat
        = (reserveBytes bs.length s w).stream.m_pos.toNat + bs.length := by
      rw [hf]; simp only []; omega
    have e2 : s.m_bufferLen.toNat = k + (reserveBytes bs.length s w).stream.m_pos.toNat := by
      omega
    rw [e1, e2, bufferSlice_append, bufferSlice_append]
    simp only [List.append_assoc]
    congr 2
    congr 1
    · apply bufferSlice_congr
      intro j hj
      have : byteAt ({ s2 with m_pos := s2.m_pos + bs.length } : BinaryOutputStream) (0 + j)
          = byteAt s2 (0 + j) := rfl
      rw [this, storeBytes_outside _ _ _ _ hst (0 + j) (Or.inl (by omega))]
      rw [Nat.zero_add, r7 j (by omega), Nat.add_comm]
    · show bufferSlice s2 _ _ = bs
      exact storeBytes_slice _ s2 _ _ hst
  · rw [hf]; simp only []; rw [r3]; omega
  · rw [hf]; simp only []; omega
  · intro hm
    rw [r6, r8 hm]
    simp [bufferSlice]

/-! ### The writers as instances of `putBytes` -/

theorem convert_congr (w w1 : World) (h : w1.machine = w.machine) : convert w1 = convert w := by
  funext width u i
  simp [convert, h]

theorem putBytes_congr_ok (bs : List Nat) (n : Nat) (hn : bs.length = n)
    (s : BinaryOutputStream) (w : World)
    (k : Unit → BinaryOutputStream → World → Result Unit)
    (hk : ∀ s1 w1, SameConfig s s1 → SameBits s s1 → SameHost w w1 →
      k () s1 w1 =
        match storeBytes s1 s1.m_pos bs with
        | none => Result.fail Error.memoryFault s1 w1
        | some s2 => Result.ret () { s2 with m_pos := s2.m_pos + bs.length } w1) :
    (reserveBytes n s w).andThen k = putBytes bs s w := by
  subst hn
  unfold putBytes
  obtain ⟨f1, f2, f3⟩ := reserveBytes_frame bs.length s w
  cases hv : (reserveBytes bs.length s w).value with
  | error e => rw [Result.andThen_error _ _ e hv, Result.andThen_error _ _ e hv]
  | ok a =>
    rw [Result.andThen_ok _ _ a hv, Result.andThen_ok _ _ a hv]
    exact hk _ _ f1 f2 f3

theorem writeUInt8_eq (i : Nat) (s : BinaryOutputStream) (w : World) :
    writeUInt8 i s w = putBytes [i % 256] s w := by
  unfold writeUInt8
  apply putBytes_congr_ok [i % 256] 1 rfl s w
  intro s1 w1 _ _ _
  simp

theorem writeUInt16_eq (u : Nat) (s : BinaryOutputStream) (w : World) :
    writeUInt16 u s w = putBytes (hostBytes s.m_swapBytes w 2 u) s w := by
  unfold writeUInt16
  have hl : (hostBytes s.m_swapBytes w 2 u).length = 2 := by
    unfold hostBytes; split <;> simp
  apply putBytes_congr_ok _ _ hl
  intro s1 w1 f1 _ f3
  simp only [hl]
  rw [convert_congr w w1 f3.1, f1.2.2.1]
  have : ∀ b : Bool, (if b = true then [convert w 2 u 1, convert w 2 u 0]
      else [convert w 2 u 0, convert w 2 u 1]) = hostBytes b w 2 u := by
    intro b; cases b <;> simp [hostBytes, List.range_succ]
  rw [this]
  simp

theorem writeUInt32_eq (u : Nat) (s : BinaryOutputStream) (w : World)
    (hbits : s.m_beginEndBits = 0) :
    writeUInt32 u s w = putBytes (hostBytes s.m_swapBytes w 4 u) s w := by
  unfold writeUInt32
  have hl : (hostBytes s.m_swapBytes w 4 u).length = 4 := by
    unfold hostBytes; split <;> simp
  apply putBytes_congr_ok _ _ hl
  intro s1 w1 f1 f2 f3
  simp only [hl]
  rw [convert_congr w w1 f3.1, f1.2.2.1, if_neg (by rw [f2.1, hbits]; simp)]
  have : ∀ b : Bool, (if b = true
      then [convert w 4 u 3, convert w 4 u 2, convert w 4 u 1, convert w 4 u 0]
      else [convert w 4 u 0, convert w 4 u 1, convert w 4 u 2, convert w 4 u 3])
        = hostBytes b w 4 u := by
    intro b; cases b <;> simp [hostBytes, List.range_succ]
  rw [this]
  simp

theorem writeUInt64_eq (u : Nat) (s : BinaryOutputStream) (w : World) :
    writeUInt64 u s w = putBytes (hostBytes s.m_swapBytes w 8 u) s w := by
  unfold writeUInt64
  have hl : (hostBytes s.m_swapBytes w 8 u).length = 8 := by
    unfold hostBytes; split <;> simp
  apply putBytes_congr_ok _ _ hl
  intro s1 w1 f1 _ f3
  simp only [hl]
  rw [convert_congr w w1 f3.1, f1.2.2.1]
  have : ∀ b : Bool, (if b = true
      then [convert w 8 u 7, convert w 8 u 6, convert w 8 u 5, convert w 8 u 4,
        convert w 8 u 3, convert w 8 u 2, convert w 8 u 1, convert w 8 u 0]
      else [convert w 8 u 0, convert w 8 u 1, convert w 8 u 2, convert w 8 u 3,
        convert w 8 u 4, convert w 8 u 5, convert w 8 u 6, convert w 8 u 7])
        = hostBytes b w 8 u := by
    intro b; cases b <;> simp [hostBytes, List.range_succ]
  rw [this]
  simp

theorem writeBytes_eq (n : Int) (b : List Nat) (s : BinaryOutputStream) (w : World)
    (h0 : 0 ≤ n) (h1 : n ≤ b.length) :
    writeBytes n b s w = putBytes ((b.take n.toNat).map (fun x => x % 256)) s w := by
  unfold writeBytes
  rw [if_neg (by omega)]
  have hl : ((b.take n.toNat).map (fun x => x % 256)).length = n.toNat := by
    simp; omega
  apply putBytes_congr_ok _ _ hl
  intro s1 w1 _ _ _
  simp only [hl]
  rw [Int.toNat_of_nonneg h0]

/-- The bytes handed to the buffer are the value in the declared byte order, whenever
`m_swapBytes` was set by `setEndianness`. -/
theorem hostBytes_eq_encodeUInt (target : Endianness) (w : World) (width u : Nat) :
    hostBytes (decide (target ≠ w.machine)) w width u = encodeUInt target width u := by
  have hrev : (List.map (fun i => u / 256 ^ (width - 1 - i) % 256) (List.range width))
      = (List.map (fun i => u / 256 ^ i % 256) (List.range width)).reverse := by
    apply List.ext_getElem
    · simp
    · intro n h1 h2
      simp only [List.length_map, List.length_range] at h1
      simp [List.getElem_reverse]
  cases target <;> cases hm : w.machine <;>
    simp [hostBytes, encodeUInt, convert, hm, hrev]

/-! ### When a write is sure to return -/

theorem reserveBytes_fits (bytes : Nat) (s : BinaryOutputStream) (w : World)
    (h : max s.m_bufferLen (s.m_pos + bytes) ≤ s.m_bufferCapacity) :
    reserveBytes bytes s w =
      Result.ret () { s with m_bufferLen := max s.m_bufferLen (s.m_pos + bytes) } w := by
  rw [reserveBytes_eq, if_neg (by omega)]

theorem reserveBytes_isOk_of_grant (bytes : Nat) (s : BinaryOutputStream) (w : World)
    (hmem : s.m_path = "<memory>") (hg : w.reallocGrants w.reallocCalls = true) :
    (reserveBytes bytes s w).isOk = true := by
  rw [reserveBytes_eq]
  split
  · unfold reallocBuffer reallocBufferWith
    simp only []
    rw [if_pos (Or.inl hmem), if_pos hg]
    rfl
  · rfl

theorem putBytes_isOk_of_reserve (bs : List Nat) (s : BinaryOutputStream) (w : World)
    (hwf : WellFormed s w) (h : (reserveBytes bs.length s w).isOk = true) :
    (putBytes bs s w).isOk = true := by
  obtain ⟨⟨⟨i1, i2, i3⟩, hbuf, -⟩, -⟩ := reserveBytes_spec bs.length s w hwf h
  obtain ⟨-, i4⟩ := reserveBytes_inv bs.length s w hwf.1 h
  obtain ⟨a, hv⟩ := (Result.isOk_iff _).mp h
  unfold putBytes
  rw [Result.andThen_ok _ _ a hv]
  obtain ⟨s2, hs2⟩ := storeBytes_some (reserveBytes bs.length s w).stream
    (reserveBytes bs.length s w).stream.m_pos bs i1 (by omega) (by
      intro hne
      apply hbuf
      have : 0 < bs.length := List.length_pos.mpr hne
      omega)
  rw [hs2]
  rfl

theorem putBytes_readback (bs : List Nat) (s : BinaryOutputStream) (w : World)
    (h : (putBytes bs s w).isOk = true) :
    bufferSlice (putBytes bs s w).stream
      ((putBytes bs s w).stream.m_pos - bs.length).toNat bs.length = bs := by
  obtain ⟨-, s2, hst, heq⟩ := putBytes_ok bs s w h
  have hf := storeBytes_fields _ _ _ _ hst
  rw [heq]
  simp only [Result.ret]
  show bufferSlice s2 _ _ = bs
  have : (s2.m_pos + (bs.length : Int) - bs.length).toNat
      = (reserveBytes bs.length s w).stream.m_pos.toNat := by
    rw [hf]; simp
  rw [this]
  exact storeBytes_slice _ s2 _ _ hst

theorem writeUInt32_bits_of_isOk (u : Nat) (s : BinaryOutputStream) (w : World)
    (h : (writeUInt32 u s w).isOk = true) : s.m_beginEndBits = 0 := by
  unfold writeUInt32 at h
  obtain ⟨a, hv, heq⟩ := Result.andThen_isOk _ _ h
  rw [heq] at h
  obtain ⟨-, f2, -⟩ := reserveBytes_frame 4 s w
  by_contra hne
  rw [if_pos (by rw [f2.1]; exact hne)] at h
  simp [Result.isOk, Result.fail] at h

/-! ### Byte order -/

theorem decode_encode_16 (target : Endianness) (v : Nat) (h : v < 2 ^ 16) :
    decodeUInt target (encodeUInt target 2 v) = v := by
  cases target <;> simp [decodeUInt, encodeUInt, List.range_succ] <;> omega

theorem decode_encode_32 (target : Endianness) (v : Nat) (h : v < 2 ^ 32) :
    decodeUInt target (encodeUInt target 4 v) = v := by
  cases target <;> simp [decodeUInt, encodeUInt, List.range_succ] <;> omega

theorem decode_encode_64 (target : Endianness) (v : Nat) (h : v < 2 ^ 64) :
    decodeUInt target (encodeUInt target 8 v) = v := by
  cases target <;> simp [decodeUInt, encodeUInt, List.range_succ] <;> omega

theorem encodeUInt_length (target : Endianness) (width v : Nat) :
    (encodeUInt target width v).length = width := by
  cases target <;> simp [encodeUInt]

theorem newMemoryStream_wellFormed (endian : Endianness) (w : World) :
    WellFormed (newMemoryStream endian w) w ∧
      (newMemoryStream endian w).m_path = "<memory>" ∧
      (newMemoryStream endian w).m_pos = (newMemoryStream endian w).m_bufferLen ∧
      (newMemoryStream endian w).m_beginEndBits = 0 ∧
      (newMemoryStream endian w).m_bufferLen = 0 ∧
      (newMemoryStream endian w).m_swapBytes = decide (endian ≠ w.machine) := by
  simp [WellFormed, Inv, newMemoryStream, setEndianness, initialFields]

theorem putBytes_memory (bs : List Nat) (s : BinaryOutputStream) (w : World)
    (hwf : WellFormed s w) (happ : s.m_pos = s.m_bufferLen) (hmem : s.m_path = "<memory>")
    (h : (putBytes bs s w).isOk = true) :
    bufferBytes (putBytes bs s w).stream = bufferBytes s ++ bs := by
  obtain ⟨-, -, hout, -, -, hfile⟩ := putBytes_spec bs s w hwf happ h
  rw [hfile hmem, List.append_assoc] at hout
  exact List.append_cancel_left hout

theorem writeUInt_isOk_fresh (target : Endianness) (w : World)
    (hg : w.reallocGrants w.reallocCalls = true) (v : Nat) :
    (writeUInt16 v (newMemoryStream target w) w).isOk = true ∧
      (writeUInt32 v (newMemoryStream target w) w).isOk = true ∧
      (writeUInt64 v (newMemoryStream target w) w).isOk = true := by
  obtain ⟨hwf, hmem, -, hbits, -, -⟩ := newMemoryStream_wellFormed target w
  refine ⟨?_, ?_, ?_⟩
  · rw [writeUInt16_eq]
    exact putBytes_isOk_of_reserve _ _ _ hwf (reserveBytes_isOk_of_grant _ _ _ hmem hg)
  · rw [writeUInt32_eq _ _ _ hbits]
    exact putBytes_isOk_of_reserve _ _ _ hwf (reserveBytes_isOk_of_grant _ _ _ hmem hg)
  · rw [writeUInt64_eq]
    exact putBytes_isOk_of_reserve _ _ _ hwf (reserveBytes_isOk_of_grant _ _ _ hmem hg)

/-- C1: for each of `writeUInt16`, `writeUInt32` and `writeUInt64`, every value `v`
of the width, every host byte order (`w.machine`) and every declared target order,
with `m_swapBytes` as `setEndianness` computes it: whenever the write returns, the
2/4/8 bytes it placed at the cursor, read back as an unsigned integer in the declared
target order, equal `v`; and on a fresh in-memory stream whose allocation is granted
the write does return. -/
theorem writeUInt_roundtrip (target : Endianness) (s : BinaryOutputStream) (w : World) :
    (∀ v, v < 2 ^ 16 → (writeUInt16 v (setEndianness target s w) w).isOk = true →
      decodeUInt target
        (bufferSlice (writeUInt16 v (setEndianness target s w) w).stream
          ((writeUInt16 v (setEndianness target s w) w).stream.m_pos - 2).toNat 2) = v) ∧
    (∀ v, v < 2 ^ 32 → (writeUInt32 v (setEndianness target s w) w).isOk = true →
      decodeUInt target
        (bufferSlice (writeUInt32 v (setEndianness target s w) w).stream
          ((writeUInt32 v (setEndianness target s w) w).stream.m_pos - 4).toNat 4) = v) ∧
    (∀ v, v < 2 ^ 64 → (writeUInt64 v (setEndianness target s w) w).isOk = true →
      decodeUInt target
        (bufferSlice (writeUInt64 v (setEndianness target s w) w).stream
          ((writeUInt64 v (setEndianness target s w) w).stream.m_pos - 8).toNat 8) = v) ∧
    (w.reallocGrants w.reallocCalls = true → ∀ v,
      (writeUInt16 v (newMemoryStream target w) w).isOk = true ∧
      (writeUInt32 v (newMemoryStream target w) w).isOk = true ∧
      (writeUInt64 v (newMemoryStream target w) w).isOk = true) := by
  have hswap : (setEndianness target s w).m_swapBytes = decide (target ≠ w.machine) := rfl
  refine ⟨?_, ?_, ?_, ?_⟩
  · intro v hv hok
    rw [writeUInt16_eq, hswap, hostBytes_eq_encodeUInt] at hok ⊢
    have := putBytes_readback _ _ _ hok
    rw [encodeUInt_length] at this
    simp only [Nat.cast_ofNat] at this
    rw [this]
    exact decode_encode_16 target v hv
  · intro v hv hok
    have hbits := writeUInt32_bits_of_isOk _ _ _ hok
    rw [writeUInt32_eq _ _ _ hbits, hswap, hostBytes_eq_encodeUInt] at hok ⊢
    have := putBytes_readback _ _ _ hok
    rw [encodeUInt_length] at this
    simp only [Nat.cast_ofNat] at this
    rw [this]
    exact decode_encode_32 target v hv
  · intro v hv hok
    rw [writeUInt64_eq, hswap, hostBytes_eq_encodeUInt] at hok ⊢
    have := putBytes_readback _ _ _ hok
    rw [encodeUInt_length] at this
    simp only [Nat.cast_ofNat] at this
    rw [this]
    exact decode_encode_64 target v hv
  · intro hg v
    exact writeUInt_isOk_fresh target w hg v

theorem writeUInt_roundtrip_witness :
    decodeUInt Endianness.BIG
      (bufferSlice
        (writeUInt32 305419896
          (setEndianness Endianness.BIG (initialFields "<memory>") littleHost) littleHost).stream
        ((writeUInt32 305419896
          (setEndianness Endianness.BIG (initialFields "<memory>") littleHost)
            littleHost).stream.m_pos - 4).toNat 4) = 305419896 :=
  (writeUInt_roundtrip Endianness.BIG (initialFields "<memory>") littleHost).2.1 305419896
    (by decide) (by decide)

/-- C2 (counterexample): on a little-endian host, `writeUInt32(0x12345678)` to a fresh
in-memory stream whose byte order is opposite to the host order (big-endian) yields the
bytes `12 34 56 78`, not `78 56 34 12`; with the matching order (little-endian) it
yields `78 56 34 12`, not `12 34 56 78`. -/
theorem writeUInt32_scenario_counterexample :
    littleHost.machine = Endianness.LITTLE ∧
    bufferBytes (writeUInt32 305419896 (newMemoryStream Endianness.BIG littleHost)
      littleHost).stream = [18, 52, 86, 120] ∧
    bufferBytes (writeUInt32 305419896 (newMemoryStream Endianness.BIG littleHost)
      littleHost).stream ≠ [120, 86, 52, 18] ∧
    bufferBytes (writeUInt32 305419896 (newMemoryStream Endianness.LITTLE littleHost)
      littleHost).stream = [120, 86, 52, 18] ∧
    bufferBytes (writeUInt32 305419896 (newMemoryStream Endianness.LITTLE littleHost)
      littleHost).stream ≠ [18, 52, 86, 120] := by
  decide

/-- C2 (amended): `writeUInt32(0x12345678)` to a fresh in-memory stream (allocation
granted) returns and leaves exactly the 4 bytes of the value in the declared byte
order: `12 34 56 78` for a big-endian stream and `78 56 34 12` for a little-endian
stream, on every host.  Hence the pairing "opposite order gives `78 56 34 12`, matching
order gives `12 34 56 78`" holds on a big-endian host and is exchanged on a
little-endian host. -/
theorem writeUInt32_scenario (w : World) (hg : w.reallocGrants w.reallocCalls = true) :
    (∀ target, (writeUInt32 305419896 (newMemoryStream target w) w).isOk = true) ∧
    bufferBytes (writeUInt32 305419896 (newMemoryStream Endianness.BIG w) w).stream
      = [18, 52, 86, 120] ∧
    bufferBytes (writeUInt32 305419896 (newMemoryStream Endianness.LITTLE w) w).stream
      = [120, 86, 52, 18] ∧
    (w.machine = Endianness.BIG → ∀ target,
      bufferBytes (writeUInt32 305419896 (newMemoryStream target w) w).stream =
        if target ≠ w.machine then [120, 86, 52, 18] else [18, 52, 86, 120]) ∧
    (w.machine = Endianness.LITTLE → ∀ target,
      bufferBytes (writeUInt32 305419896 (newMemoryStream target w) w).stream =
        if target ≠ w.machine then [18, 52, 86, 120] else [120, 86, 52, 18]) := by
  have hok : ∀ target, (writeUInt32 305419896 (newMemoryStream target w) w).isOk = true :=
    fun target => (writeUInt_isOk_fresh target w hg 305419896).2.1
  have key : ∀ target,
      bufferBytes (writeUInt32 305419896 (newMemoryStream target w) w).stream
        = encodeUInt target 4 305419896 := by
    intro target
    obtain ⟨hwf, hmem, happ, hbits, hlen, hswap⟩ := newMemoryStream_wellFormed target w
    have h := hok target
    rw [writeUInt32_eq _ _ _ hbits, hswap, hostBytes_eq_encodeUInt] at h ⊢
    rw [putBytes_memory _ _ _ hwf happ hmem h]
    simp [bufferBytes, bufferSlice, hlen]
  refine ⟨hok, ?_, ?_, ?_, ?_⟩
  · rw [key]; decide
  · rw [key]; decide
  · intro hm target
    rw [key, hm]
    cases target <;> decide
  · intro hm target
    rw [key, hm]
    cases target <;> decide

theorem writeUInt32_scenario_witness :
    bufferBytes (writeUInt32 305419896 (newMemoryStream Endianness.LITTLE bigHost)
      bigHost).stream = [120, 86, 52, 18] :=
  (writeUInt32_scenario bigHost (by decide)).2.2.1

/-! ### Appending steps -/

theorem appended_refl (s : BinaryOutputStream) (w : World) (h : Appending s w) :
    Appended s w s w [] :=
  ⟨h, by simp, sameConfig_refl s, sameHost_refl w, by simp, le_refl _, fun _ => rfl⟩

theorem appended_trans {s s1 s2 : BinaryOutputStream} {w w1 w2 : World} {a b : List Nat}
    (h1 : Appended s w s1 w1 a) (h2 : Appended s1 w1 s2 w2 b) :
    Appended s w s2 w2 (a ++ b) := by
  obtain ⟨a1, a2, a3, a4, a5, a6, a7⟩ := h1
  obtain ⟨b1, b2, b3, b4, b5, b6, b7⟩ := h2
  refine ⟨b1, ?_, sameConfig_trans a3 b3, sameHost_trans a4 b4, ?_, le_trans a6 b6, ?_⟩
  · rw [b2, a2, List.append_assoc]
  · rw [b5, a5, List.length_append]; push_cast; omega
  · intro hm
    rw [b7 (by rw [a3.1]; exact hm), a7 hm]

theorem unfailing_of_same {s s1 : BinaryOutputStream} {w w1 : World} (h : Unfailing s w)
    (hc : SameConfig s s1) (hh : SameHost w w1) : Unfailing s1 w1 := by
  obtain ⟨h1, h2⟩ := h
  exact ⟨by rw [hc.1]; exact h1, fun k => by rw [hh.2.1]; exact h2 k⟩

/-! ### Bits -/

theorem or_shift_eq_add : ∀ p < 8, ∀ x < 2 ^ p, ∀ b < 2,
    (x ||| (b <<< p)) % 256 = x + b * 2 ^ p := by
  decide

theorem bitsValue_lt (l : List Bool) : bitsValue l < 2 ^ l.length := by
  induction l with
  | nil => simp [bitsValue]
  | cons b l ih =>
    simp only [bitsValue, List.length_cons, pow_succ]
    cases b <;> simp <;> omega

theorem bitsValue_append_single (l : List Bool) (b : Bool) :
    bitsValue (l ++ [b]) = bitsValue l + b.toNat * 2 ^ l.length := by
  induction l with
  | nil => simp [bitsValue]
  | cons c l ih =>
    rw [List.cons_append, bitsValue, ih, bitsValue, List.length_cons, pow_succ]
    ring

theorem testBit_bitsValue (l : List Bool) (j : Nat) :
    (bitsValue l).testBit j = l.getD j false := by
  induction l generalizing j with
  | nil => simp [bitsValue]
  | cons b l ih =>
    cases j with
    | zero =>
      simp only [bitsValue, Nat.testBit_zero, List.getD_cons_zero]
      cases b <;> simp
    | succ j =>
      rw [Nat.testBit_succ, List.getD_cons_succ, ← ih j]
      congr 1
      simp only [bitsValue]
      cases b
      · simp
      · simp; omega

theorem lowBits_bitsValue (l : List Bool) (m : Nat) (h : l.length ≤ m) :
    lowBits m (bitsValue l) = l ++ List.replicate (m - l.length) false := by
  apply List.ext_getElem
  · simp [lowBits]; omega
  · intro n h1 h2
    simp only [lowBits, List.length_map, List.length_range] at h1
    simp only [lowBits, List.getElem_map, List.getElem_range, testBit_bitsValue]
    by_cases hn : n < l.length
    · rw [List.getElem_append_left hn]
      simp [List.getD_eq_getElem?_getD, List.getElem?_eq_getElem hn]
    · rw [List.getElem_append_right (by omega)]
      simp [List.getD_eq_getElem?_getD, List.getElem?_eq_none (by omega : l.length ≤ n)]

theorem lowBits_succ (n v : Nat) :
    lowBits (n + 1) v = v.testBit 0 :: lowBits n (v >>> 1) := by
  simp only [lowBits, List.range_succ_eq_map, List.map_cons, List.map_map]
  congr 1
  apply List.map_congr_left
  intro j _
  simp [Function.comp, Nat.testBit_shiftRight, Nat.add_comm]

theorem lowBits_mod (c v : Nat) (h : c ≤ 32) :
    lowBits c (v % 4294967296) = lowBits c v := by
  unfold lowBits
  apply List.map_congr_left
  intro j hj
  have hj := List.mem_range.mp hj
  have : (4294967296 : Nat) = 2 ^ 32 := by norm_num
  rw [this, Nat.testBit_mod_two_pow]
  simp
  intro h32
  omega

theorem unpackBits_append (a b : List Nat) :
    unpackBits (a ++ b) = unpackBits a ++ unpackBits b := by
  simp [unpackBits, List.flatMap_append]

theorem unpackBits_single (x : Nat) : unpackBits [x] = lowBits 8 x := by
  simp [unpackBits, List.flatMap]

theorem unpackBits_length (a : List Nat) : (unpackBits a).length = 8 * a.length := by
  induction a with
  | nil => simp [unpackBits]
  | cons x a ih =>
    have : unpackBits (x :: a) = unpackBits [x] ++ unpackBits a := unpackBits_append [x] a
    rw [this, List.length_append, ih, unpackBits_single]
    simp [lowBits]
    omega

theorem accumulate_bit (pending : List Bool) (v : Nat) (h : pending.length < 8) :
    (bitsValue pending ||| ((v &&& 1) <<< pending.length)) % 256
      = bitsValue (pending ++ [v.testBit 0]) := by
  rw [bitsValue_append_single, Nat.and_one_is_mod]
  have hb : (v.testBit 0).toNat = v % 2 := by
    rw [Nat.testBit_zero]
    rcases Nat.mod_two_eq_zero_or_one v with h0 | h1
    · simp [h0]
    · simp [h1]
  rw [hb]
  exact or_shift_eq_add pending.length h (bitsValue pending) (bitsValue_lt pending) (v % 2)
    (Nat.mod_lt _ (by norm_num))

theorem packFrom_append (p a b : List Bool) :
    packFrom p (a ++ b) =
      ((packFrom p a).1 ++ (packFrom (packFrom p a).2 b).1, (packFrom (packFrom p a).2 b).2) := by
  induction a generalizing p with
  | nil => simp [packFrom]
  | cons x a ih =>
    rw [List.cons_append, packFrom, packFrom]
    split
    · simp [ih]
    · exact ih _

theorem packFrom_unpack (p bits : List Bool) (hp : p.length < 8) :
    unpackBits (packFrom p bits).1 ++ (packFrom p bits).2 = p ++ bits ∧
      (packFrom p bits).2.length < 8 := by
  induction bits generalizing p with
  | nil => simp [packFrom, unpackBits, hp]
  | cons b rest ih =>
    rw [packFrom]
    split
    · rename_i hfull
      have h7 : p.length = 7 := by omega
      obtain ⟨i1, i2⟩ := ih [] (by simp)
      refine ⟨?_, i2⟩
      have : unpackBits (bitsValue (p ++ [b]) :: (packFrom [] rest).1)
          = unpackBits [bitsValue (p ++ [b])] ++ unpackBits (packFrom [] rest).1 :=
        unpackBits_append [_] _
      simp only []
      rw [this, unpackBits_single, lowBits_bitsValue _ 8 (by simp [h7]), List.append_assoc,
        List.append_assoc, i1]
      simp [h7]
    · rename_i hfull
      obtain ⟨i1, i2⟩ := ih (p ++ [b]) (by simp; omega)
      refine ⟨?_, i2⟩
      rw [i1, List.append_assoc]
      rfl

/-- The packed bytes of a span, read back least significant bit first, are the
requested bits followed by zero bits up to the byte boundary, and there are
`ceil(n / 8)` of them. -/
theorem packBits_spec (bits : List Bool) :
    (packBits bits).length = (bits.length + 7) / 8 ∧
      unpackBits (packBits bits) =
        bits ++ List.replicate (8 * (packBits bits).length - bits.length) false := by
  obtain ⟨h1, h2⟩ := packFrom_unpack [] bits (by simp)
  have hlen := congrArg List.length h1
  simp only [List.length_append, unpackBits_length, List.nil_append] at hlen
  unfold packBits
  by_cases hp : (packFrom [] bits).2 = []
  · rw [if_pos hp, List.append_nil]
    rw [hp] at h1 hlen
    simp only [List.length_nil, Nat.add_zero, List.append_nil, List.nil_append] at h1 hlen
    refine ⟨by omega, ?_⟩
    rw [h1]
    have : 8 * (packFrom [] bits).1.length - bits.length = 0 := by omega
    rw [this]
    simp
  · rw [if_neg hp]
    have hpos : 0 < (packFrom [] bits).2.length := List.length_pos.mpr hp
    refine ⟨by simp only [List.length_append, List.length_singleton]; omega, ?_⟩
    rw [unpackBits_append, unpackBits_single, lowBits_bitsValue _ 8 (by omega),
      ← List.append_assoc, h1, List.nil_append]
    congr 2
    simp only [List.length_append, List.length_singleton]
    omega

/-! ### Composite writes -/

theorem putBytes_runs (bs : List Nat) (s : BinaryOutputStream) (w : World)
    (hA : Appending s w) : Runs (putBytes bs s w) s w bs := by
  obtain ⟨hwf, happ⟩ := hA
  obtain ⟨f1, f2, f3⟩ := putBytes_frame bs s w
  refine ⟨?_, ?_⟩
  · intro m hs
    rcases hs with hu | hfit
    · exact ⟨putBytes_isOk_of_reserve _ _ _ hwf
        (reserveBytes_isOk_of_grant _ _ _ hu.1 (hu.2 _)), Or.inl (unfailing_of_same hu f1 f3)⟩
    · obtain ⟨i1, i2, i3⟩ := hwf.1
      have hmax : max s.m_bufferLen (s.m_pos + (bs.length : Int)) = s.m_bufferLen + bs.length := by
        rw [happ]; omega
      have hfits := reserveBytes_fits bs.length s w (by rw [hmax]; push_cast at hfit; omega)
      have hrok : (reserveBytes bs.length s w).isOk = true := by rw [hfits]; rfl
      have hok := putBytes_isOk_of_reserve _ _ _ hwf hrok
      refine ⟨hok, Or.inr ?_⟩
      obtain ⟨-, s2, hst, heq⟩ := putBytes_ok bs s w hok
      have hf := storeBytes_fields _ _ _ _ hst
      rw [heq]
      simp only [Result.ret]
      rw [hf, hfits]
      simp only [Result.ret, hmax]
      push_cast at hfit
      omega
  · intro h
    obtain ⟨g1, g2, g3, g4, g5, g6⟩ := putBytes_spec bs s w hwf happ h
    exact ⟨⟨⟨g1, g2⟩, g3, f1, f3, g4, g5, g6⟩, f2.1⟩

theorem runs_ret (s : BinaryOutputStream) (w : World) (hA : Appending s w) :
    Runs (Result.ret () s w) s w [] := by
  refine ⟨fun m hs => ⟨rfl, ?_⟩, fun _ => ⟨appended_refl s w hA, rfl⟩⟩
  simpa using hs

theorem runs_andThen {α β : Type} (r : Result α) (k : α → BinaryOutputStream → World → Result β)
    (s : BinaryOutputStream) (w : World) (a b : List Nat) (h1 : Runs r s w a)
    (h2 : ∀ x, r.value = Except.ok x → Appending r.stream r.world →
      r.stream.m_beginEndBits = s.m_beginEndBits → SameConfig s r.stream → SameHost w r.world →
      Runs (k x r.stream r.world) r.stream r.world b) :
    Runs (r.andThen k) s w (a ++ b) := by
  obtain ⟨p1, p2⟩ := h1
  refine ⟨?_, ?_⟩
  · intro m hs
    rw [List.length_append, Nat.add_assoc] at hs
    obtain ⟨hok, hs1⟩ := p1 _ hs
    obtain ⟨x, hv⟩ := (Result.isOk_iff _).mp hok
    rw [Result.andThen_ok _ _ x hv]
    obtain ⟨q1, q2⟩ := p2 hok
    exact (h2 x hv q1.1 q2 q1.2.2.1 q1.2.2.2.1).1 m hs1
  · intro hok2
    obtain ⟨x, hv, heq⟩ := Result.andThen_isOk _ _ hok2
    rw [heq] at hok2 ⊢
    obtain ⟨q1, q2⟩ := p2 ((Result.isOk_iff _).mpr ⟨x, hv⟩)
    obtain ⟨r1, r2⟩ := (h2 x hv q1.1 q2 q1.2.2.1 q1.2.2.2.1).2 hok2
    exact ⟨appended_trans q1 r1, r2.trans q2⟩

theorem writeBitsLoop_run (n : Nat) (v : Nat) (s : BinaryOutputStream) (w : World)
    (pending : List Bool) (hA : Appending s w) (hacc : BitAcc s pending) :
    Runs (writeBitsLoop n v s w) s w (packFrom pending (lowBits n v)).1 ∧
      ((writeBitsLoop n v s w).isOk = true →
        BitAcc (writeBitsLoop n v s w).stream (packFrom pending (lowBits n v)).2) := by
  induction n generalizing v s w pending with
  | zero => exact ⟨runs_ret s w hA, fun _ => hacc⟩
  | succ n ih =>
    obtain ⟨hpos, hlt, hstr⟩ := hacc
    have hval : (s.m_bitString ||| ((v &&& 1) <<< s.m_bitPos.toNat)) % 256
        = bitsValue (pending ++ [v.testBit 0]) := by
      rw [hstr, hpos, Int.toNat_ofNat]
      exact accumulate_bit pending v hlt
    rw [writeBitsLoop, lowBits_succ, packFrom]
    simp only [hval]
    by_cases hfull : s.m_bitPos + 1 > 7
    · rw [if_pos hfull, writeUInt8_eq, if_pos (by omega)]
      have h7 : pending.length = 7 := by omega
      have hbyte : bitsValue (pending ++ [v.testBit 0]) % 256
          = bitsValue (pending ++ [v.testBit 0]) := by
        apply Nat.mod_eq_of_lt
        have := bitsValue_lt (pending ++ [v.testBit 0])
        simpa [h7] using this
      rw [hbyte]
      have hA1 : Appending
          { s with m_bitString := bitsValue (pending ++ [v.testBit 0]),
                   m_bitPos := s.m_bitPos + 1 } w := hA
      have hput := putBytes_runs [bitsValue (pending ++ [v.testBit 0])] _ w hA1
      generalize putBytes [bitsValue (pending ++ [v.testBit 0])]
        { s with m_bitString := bitsValue (pending ++ [v.testBit 0]),
                 m_bitPos := s.m_bitPos + 1 } w = r at hput ⊢
      have hnext : Appending r.stream r.world →
          Appending { r.stream with m_bitString := 0, m_bitPos := 0 } r.world ∧
          BitAcc { r.stream with m_bitString := 0, m_bitPos := 0 } [] :=
        fun hap => ⟨hap, rfl, by simp, rfl⟩
      refine ⟨?_, ?_⟩
      · have := runs_andThen r
          (fun _ s2 w2 => writeBitsLoop n (v >>> 1) { s2 with m_bitString := 0, m_bitPos := 0 } w2)
          s w [bitsValue (pending ++ [v.testBit 0])] (packFrom [] (lowBits n (v >>> 1))).1
          hput (fun _ _ hap _ _ _ => (ih (v >>> 1) _ _ [] (hnext hap).1 (hnext hap).2).1)
        exact this
      · intro hok2
        obtain ⟨a, hv, heq⟩ := Result.andThen_isOk _ _ hok2
        rw [heq] at hok2 ⊢
        obtain ⟨hap, -⟩ := hput.2 ((Result.isOk_iff _).mpr ⟨a, hv⟩)
        exact (ih (v >>> 1) _ _ [] (hnext hap.1).1 (hnext hap.1).2).2 hok2
    · rw [if_neg hfull, if_neg (by omega)]
      have hA1 : Appending
          { s with m_bitString := bitsValue (pending ++ [v.testBit 0]),
                   m_bitPos := s.m_bitPos + 1 } w := hA
      have hacc1 : BitAcc
          { s with m_bitString := bitsValue (pending ++ [v.testBit 0]),
                   m_bitPos := s.m_bitPos + 1 } (pending ++ [v.testBit 0]) := by
        refine ⟨?_, ?_, rfl⟩
        · simp only [List.length_append, List.length_singleton]; push_cast; omega
        · simp only [List.length_append, List.length_singleton]; omega
      exact ih (v >>> 1) _ w (pending ++ [v.testBit 0]) hA1 hacc1

theorem writeBits_run (c : Int) (v : Nat) (s : BinaryOutputStream) (w : World)
    (pending : List Bool) (hA : Appending s w) (hacc : BitAcc s pending)
    (hbits : s.m_beginEndBits = 1) :
    Runs (writeBits c v s w) s w (packFrom pending (lowBits c.toNat (v % 4294967296))).1 ∧
      ((writeBits c v s w).isOk = true →
        BitAcc (writeBits c v s w).stream
          (packFrom pending (lowBits c.toNat (v % 4294967296))).2) := by
  unfold writeBits
  rw [if_neg (by simp [hbits])]
  exact writeBitsLoop_run c.toNat (v % 4294967296) s w pending hA hacc

theorem writeBitsCalls_run (calls : List (Int × Nat)) (s : BinaryOutputStream) (w : World)
    (pending : List Bool) (hA : Appending s w) (hacc : BitAcc s pending)
    (hbits : s.m_beginEndBits = 1) :
    Runs (writeBitsCalls calls s w) s w (packFrom pending (callBits calls)).1 ∧
      ((writeBitsCalls calls s w).isOk = true →
        BitAcc (writeBitsCalls calls s w).stream (packFrom pending (callBits calls)).2) := by
  induction calls generalizing s w pending with
  | nil => exact ⟨runs_ret s w hA, fun _ => hacc⟩
  | cons c rest ih =>
    rw [writeBitsCalls]
    have hcb : callBits (c :: rest)
        = lowBits c.1.toNat (c.2 % 4294967296) ++ callBits rest := by
      simp [callBits]
    rw [hcb, packFrom_append]
    obtain ⟨p1, p2⟩ := writeBits_run c.1 c.2 s w pending hA hacc hbits
    generalize writeBits c.1 c.2 s w = r at p1 p2 ⊢
    refine ⟨?_, ?_⟩
    · apply runs_andThen r _ s w _ _ p1
      intro x hv hap hb1 _ _
      have hok : r.isOk = true := (Result.isOk_iff _).mpr ⟨x, hv⟩
      exact (ih _ _ _ hap (p2 hok) (hb1.trans hbits)).1
    · intro hok2
      obtain ⟨a, hv, heq⟩ := Result.andThen_isOk _ _ hok2
      rw [heq] at hok2 ⊢
      have hok := (Result.isOk_iff _).mpr ⟨a, hv⟩
      obtain ⟨q1, q2⟩ := p1.2 hok
      exact (ih _ _ _ q1.1 (p2 hok) (q2.trans hbits)).2 hok2

theorem callBits_length (calls : List (Int × Nat)) :
    (callBits calls).length = totalBits calls := by
  induction calls with
  | nil => simp [totalBits, callBits]
  | cons c rest ih =>
    have hcb : callBits (c :: rest)
        = lowBits c.1.toNat (c.2 % 4294967296) ++ callBits rest := by
      simp [callBits]
    rw [hcb, List.length_append, ih]
    simp [totalBits, lowBits]

theorem callBits_eq (calls : List (Int × Nat)) (hc : ∀ c ∈ calls, 0 ≤ c.1 ∧ c.1 ≤ 32) :
    callBits calls = calls.flatMap (fun c => lowBits c.1.toNat c.2) := by
  unfold callBits
  apply List.flatMap_congr
  intro c hcm
  exact lowBits_mod _ _ (by have := (hc c hcm).2; omega)

theorem endBits_run (s : BinaryOutputStream) (w : World) (pending : List Bool)
    (hA : Appending s w) (hacc : BitAcc s pending) (hbits : s.m_beginEndBits = 1) :
    (∀ m : Nat, Sure s w ((if pending = [] then [] else [bitsValue pending]).length + m) →
        (endBits s w).isOk = true ∧ Sure (endBits s w).stream (endBits s w).world m) ∧
      ((endBits s w).isOk = true →
        Appended s w (endBits s w).stream (endBits s w).world
          (if pending = [] then [] else [bitsValue pending]) ∧
        (endBits s w).stream.m_beginEndBits = 0) := by
  obtain ⟨hpos, hlt, hstr⟩ := hacc
  by_cases hp : pending = []
  · subst hp
    simp only [↓reduceIte]
    unfold endBits
    rw [if_neg (not_not.mpr hbits), if_neg (by rw [hpos]; simp)]
    refine ⟨fun m hs => ⟨rfl, ?_⟩, fun _ => ⟨appended_refl s w hA, rfl⟩⟩
    simpa using hs
  · have hlen : 0 < pending.length := List.length_pos.mpr hp
    simp only [hp, ↓reduceIte]
    unfold endBits
    rw [if_neg (not_not.mpr hbits), if_pos (by rw [hpos]; omega), writeUInt8_eq, hstr]
    have hbyte : bitsValue pending % 256 = bitsValue pending := by
      apply Nat.mod_eq_of_lt
      have := bitsValue_lt pending
      have h2 : 2 ^ pending.length ≤ 2 ^ 8 := Nat.pow_le_pow_right (by norm_num) (by omega)
      omega
    rw [hbyte]
    obtain ⟨p1, p2⟩ := putBytes_runs [bitsValue pending] s w hA
    generalize putBytes [bitsValue pending] s w = r at p1 p2 ⊢
    refine ⟨?_, ?_⟩
    · intro m hs
      obtain ⟨hok, hs1⟩ := p1 m hs
      obtain ⟨a, hv⟩ := (Result.isOk_iff _).mp hok
      rw [Result.andThen_ok _ _ a hv]
      exact ⟨rfl, hs1⟩
    · intro hok2
      obtain ⟨a, hv, heq⟩ := Result.andThen_isOk _ _ hok2
      rw [heq]
      obtain ⟨hap, -⟩ := p2 ((Result.isOk_iff _).mpr ⟨a, hv⟩)
      exact ⟨hap, rfl⟩

theorem bitsSpan_bits_of_isOk (calls : List (Int × Nat)) (s : BinaryOutputStream) (w : World)
    (h : (bitsSpan calls s w).isOk = true) : s.m_beginEndBits = 0 := by
  unfold bitsSpan beginBits at h
  by_contra hb
  rw [if_pos hb] at h
  simp [Result.andThen, Result.fail, Result.isOk] at h

/-- A complete span appends exactly `packBits` of the requested bits. -/
theorem bitsSpan_run (calls : List (Int × Nat)) (s : BinaryOutputStream) (w : World)
    (hA : Appending s w) (hb : s.m_beginEndBits = 0) :
    Runs (bitsSpan calls s w) s w (packBits (callBits calls)) := by
  unfold bitsSpan beginBits packBits
  rw [if_neg (not_not.mpr hb), Result.andThen_ok _ _ () rfl]
  simp only [Result.ret]
  have hA1 : Appending { s with m_bitString := 0, m_bitPos := 0, m_beginEndBits := 1 } w := hA
  obtain ⟨p1, p2⟩ := writeBitsCalls_run calls
    { s with m_bitString := 0, m_bitPos := 0, m_beginEndBits := 1 } w [] hA1
    ⟨rfl, by simp, rfl⟩ rfl
  generalize writeBitsCalls calls
    { s with m_bitString := 0, m_bitPos := 0, m_beginEndBits := 1 } w = r at p1 p2 ⊢
  refine ⟨?_, ?_⟩
  · intro m hs
    rw [List.length_append, Nat.add_assoc] at hs
    obtain ⟨hok, hs1⟩ := p1.1 _ hs
    obtain ⟨a, hv⟩ := (Result.isOk_iff _).mp hok
    rw [Result.andThen_ok _ _ a hv]
    obtain ⟨q1, q4⟩ := p1.2 hok
    exact (endBits_run _ _ _ q1.1 (p2 hok) q4).1 m hs1
  · intro hok2
    obtain ⟨a, hv, heq⟩ := Result.andThen_isOk _ _ hok2
    rw [heq] at hok2 ⊢
    have hok := (Result.isOk_iff _).mpr ⟨a, hv⟩
    obtain ⟨q1, q4⟩ := p1.2 hok
    obtain ⟨e1, e3⟩ := (endBits_run _ _ _ q1.1 (p2 hok) q4).2 hok2
    exact ⟨appended_trans q1 e1, e3.trans hb.symm⟩

theorem hostBytes_consistent (s : BinaryOutputStream) (w : World) (hc : Consistent s w)
    (width u : Nat) : hostBytes s.m_swapBytes w width u = encodeUInt s.m_fileEndian width u := by
  rw [hc]
  exact hostBytes_eq_encodeUInt _ _ _ _

theorem writeUInt16_runs (u : Nat) (s : BinaryOutputStream) (w : World) (hA : Appending s w)
    (hc : Consistent s w) : Runs (writeUInt16 u s w) s w (encodeUInt s.m_fileEndian 2 u) := by
  rw [writeUInt16_eq, hostBytes_consistent s w hc]
  exact putBytes_runs _ s w hA

theorem writeUInt32_runs (u : Nat) (s : BinaryOutputStream) (w : World) (hA : Appending s w)
    (hbits : s.m_beginEndBits = 0) (hc : Consistent s w) :
    Runs (writeUInt32 u s w) s w (encodeUInt s.m_fileEndian 4 u) := by
  rw [writeUInt32_eq _ _ _ hbits, hostBytes_consistent s w hc]
  exact putBytes_runs _ s w hA

theorem writeUInt64_runs (u : Nat) (s : BinaryOutputStream) (w : World) (hA : Appending s w)
    (hc : Consistent s w) : Runs (writeUInt64 u s w) s w (encodeUInt s.m_fileEndian 8 u) := by
  rw [writeUInt64_eq, hostBytes_consistent s w hc]
  exact putBytes_runs _ s w hA

theorem writePadding_runs (k : Nat) (s : BinaryOutputStream) (w : World) (hA : Appending s w) :
    Runs (writePadding k s w) s w (List.replicate k 0) := by
  induction k generalizing s w with
  | zero => exact runs_ret s w hA
  | succ k ih =>
    rw [writePadding, writeUInt8_eq]
    have : List.replicate (k + 1) 0 = [0 % 256] ++ List.replicate k 0 := by
      simp [List.replicate_succ]
    rw [this]
    apply runs_andThen _ _ s w _ _ (putBytes_runs _ s w hA)
    intro _ _ hA1 _ _ _
    exact ih _ _ hA1

theorem toInt32_small (n : Nat) (h : n < 2147483648) : toInt32 n = n := by
  unfold toInt32
  have : n % 4294967296 = n := Nat.mod_eq_of_lt (by omega)
  rw [this, if_pos h]

theorem padding_eq (len : Nat) (a : Int) (ha : 1 ≤ a) :
    (a - (len : Int).tmod a).tmod a = (a - (len : Int) % a) % a := by
  have e1 : (len : Int).tmod a = (len : Int) % a := Int.tmod_eq_emod (by omega) (by omega)
  have h1 : 0 ≤ (len : Int) % a := Int.emod_nonneg _ (by omega)
  have h2 : (len : Int) % a < a := Int.emod_lt_of_pos _ (by omega)
  rw [e1]
  exact Int.tmod_eq_emod (by omega) (by omega)

theorem toInt32_le (n : Nat) (h : 0 ≤ toInt32 n) : toInt32 n ≤ n := by
  unfold toInt32 at h ⊢
  split
  · have := Nat.mod_le n 4294967296
    omega
  · rename_i hc
    rw [if_neg hc] at h
    omega

theorem writeAlignedString_runs (str : List Nat) (a : Int) (s : BinaryOutputStream) (w : World)
    (hA : Appending s w) (hbits : s.m_beginEndBits = 0) (hc : Consistent s w)
    (hv : (Op.alignedString str a).Valid) :
    Runs (writeAlignedString str a s w) s w (alignedStringBytes s.m_fileEndian str a) := by
  obtain ⟨ha, hL⟩ := hv
  unfold writeAlignedString alignedStringBytes writeInt32
  simp only []
  rw [List.append_assoc]
  apply runs_andThen _ _ s w _ _ (writeUInt32_runs _ s w hA hbits hc)
  intro _ _ hA1 hb1 hcfg1 _
  rw [writeBytes_eq _ _ _ _ hL (toInt32_le _ hL)]
  apply runs_andThen _ _ _ _ _ _ (putBytes_runs _ _ _ hA1)
  intro _ _ hA2 _ _ _
  rw [if_neg ha]
  by_cases hp : (a - (toInt32 str.length).tmod a).tmod a > 0
  · rw [if_pos hp]
    exact writePadding_runs _ _ _ hA2
  · rw [if_neg hp]
    have : ((a - (toInt32 str.length).tmod a).tmod a).toNat = 0 := by omega
    rw [this]
    exact runs_ret _ _ hA2

theorem alignedStringBytes_eq (order : Endianness) (str : List Nat) (a : Int) (ha : 1 ≤ a)
    (hlen : str.length < 2147483648) (hchar : ∀ x ∈ str, x < 256) :
    alignedStringBytes order str a =
      encodeUInt order 4 str.length ++ str ++ List.replicate (paddingOf str.length a) 0 := by
  unfold alignedStringBytes paddingOf
  rw [toInt32_small _ hlen, padding_eq _ _ ha]
  have h1 : ((str.length : Int) % 4294967296).toNat = str.length := by omega
  have hmap : List.map (fun x => x % 256) (List.take (str.length : Int).toNat str) = str := by
    rw [Int.toNat_ofNat, List.take_length]
    conv_rhs => rw [← List.map_id str]
    apply List.map_congr_left
    intro x hx
    exact Nat.mod_eq_of_lt (hchar x hx)
  rw [h1, hmap]

theorem writeAlignedString_bits_of_isOk (str : List Nat) (a : Int) (s : BinaryOutputStream)
    (w : World) (h : (writeAlignedString str a s w).isOk = true) : s.m_beginEndBits = 0 := by
  unfold writeAlignedString at h
  obtain ⟨x, hv, -⟩ := Result.andThen_isOk _ _ h
  exact writeUInt32_bits_of_isOk _ _ _ ((Result.isOk_iff _).mpr ⟨x, hv⟩)

theorem consistent_of_same {s s1 : BinaryOutputStream} {w w1 : World} (h : Consistent s w)
    (hc : SameConfig s s1) (hh : SameHost w w1) : Consistent s1 w1 := by
  unfold Consistent at h ⊢
  rw [hc.2.2.1, hc.2.1, hh.1]
  exact h

theorem runOp_runs (op : Op) (s : BinaryOutputStream) (w : World) (hA : Appending s w)
    (hbits : s.m_beginEndBits = 0) (hc : Consistent s w) (hv : op.Valid) :
    Runs (runOp op s w) s w (opBytes s.m_fileEndian op) := by
  cases op with
  | uint16 u => exact writeUInt16_runs u s w hA hc
  | uint32 u => exact writeUInt32_runs u s w hA hbits hc
  | uint64 u => exact writeUInt64_runs u s w hA hc
  | alignedString str a => exact writeAlignedString_runs str a s w hA hbits hc hv
  | bits calls => exact bitsSpan_run calls s w hA hbits

theorem runOps_runs (ops : List Op) (s : BinaryOutputStream) (w : World) (hA : Appending s w)
    (hbits : s.m_beginEndBits = 0) (hc : Consistent s w) (hv : ∀ op ∈ ops, op.Valid) :
    Runs (runOps ops s w) s w (opsBytes s.m_fileEndian ops) := by
  induction ops generalizing s w with
  | nil => exact runs_ret s w hA
  | cons op rest ih =>
    rw [runOps]
    have : opsBytes s.m_fileEndian (op :: rest)
        = opBytes s.m_fileEndian op ++ opsBytes s.m_fileEndian rest := by
      simp [opsBytes]
    rw [this]
    apply runs_andThen _ _ s w _ _
      (runOp_runs op s w hA hbits hc (hv op (List.mem_cons_self _ _)))
    intro _ _ hA1 hb1 hcfg hhost
    rw [← hcfg.2.1]
    exact ih _ _ hA1 (hb1.trans hbits) (consistent_of_same hc hcfg hhost)
      (fun x hx => hv x (List.mem_cons_of_mem _ hx))

theorem runOp_valid_of_isOk (op : Op) (s : BinaryOutputStream) (w : World)
    (h : (runOp op s w).isOk = true) : op.Valid := by
  cases op with
  | uint16 u => trivial
  | uint32 u => trivial
  | uint64 u => trivial
  | bits calls => trivial
  | alignedString str a =>
    simp only [runOp] at h
    unfold writeAlignedString at h
    simp only [] at h
    obtain ⟨x, -, heq⟩ := Result.andThen_isOk _ _ h
    rw [heq] at h
    obtain ⟨y, hy, heq2⟩ := Result.andThen_isOk _ _ h
    rw [heq2] at h
    refine ⟨?_, ?_⟩
    · intro ha
      rw [if_pos ha] at h
      simp [Result.isOk, Result.fail] at h
    · by_contra hneg
      unfold writeBytes at hy
      rw [if_pos (by omega)] at hy
      simp [Result.fail] at hy

theorem runOps_valid_of_isOk (ops : List Op) (s : BinaryOutputStream) (w : World)
    (h : (runOps ops s w).isOk = true) : ∀ op ∈ ops, op.Valid := by
  induction ops generalizing s w with
  | nil => intro op hop; simp at hop
  | cons op rest ih =>
    rw [runOps] at h
    obtain ⟨x, hx, heq⟩ := Result.andThen_isOk _ _ h
    rw [heq] at h
    intro o ho
    rcases List.mem_cons.mp ho with rfl | hr
    · exact runOp_valid_of_isOk _ s w ((Result.isOk_iff _).mpr ⟨x, hx⟩)
    · exact ih _ _ h o hr

theorem paddingOf_smallest (len : Nat) (a : Int) (ha : 1 ≤ a) :
    a ∣ ((len + paddingOf len a : Nat) : Int) ∧
      ∀ m : Int, a ∣ m → (len : Int) ≤ m → ((len + paddingOf len a : Nat) : Int) ≤ m := by
  have h1 : 0 ≤ (len : Int) % a := Int.emod_nonneg _ (by omega)
  have h2 : (len : Int) % a < a := Int.emod_lt_of_pos _ (by omega)
  have h3 : a * ((len : Int) / a) + (len : Int) % a = len := Int.ediv_add_emod _ _
  by_cases hr : (len : Int) % a = 0
  · have hp : paddingOf len a = 0 := by
      unfold paddingOf
      rw [hr, Int.sub_zero, Int.emod_self]
      rfl
    rw [hp, Nat.add_zero]
    exact ⟨Int.dvd_of_emod_eq_zero hr, fun m _ hm => hm⟩
  · have hp : ((paddingOf len a : Nat) : Int) = a - (len : Int) % a := by
      unfold paddingOf
      rw [Int.emod_eq_of_lt (by omega) (by omega), Int.toNat_of_nonneg (by omega)]
    refine ⟨?_, ?_⟩
    · refine ⟨(len : Int) / a + 1, ?_⟩
      push_cast
      rw [hp]
      linarith
    · intro m hd hm
      obtain ⟨q, rfl⟩ := hd
      push_cast
      rw [hp]
      by_contra hlt
      have hq : q < (len : Int) / a + 1 := by
        by_contra hq
        have : a * ((len : Int) / a + 1) ≤ a * q :=
          Int.mul_le_mul_of_nonneg_left (by omega) (by omega)
        linarith
      have : a * q ≤ a * ((len : Int) / a) :=
        Int.mul_le_mul_of_nonneg_left (by omega) (by omega)
      omega

theorem appended_memory {s s1 : BinaryOutputStream} {w w1 : World} {bs : List Nat}
    (h : Appended s w s1 w1 bs) (hm : s.m_path = "<memory>") :
    bufferBytes s1 = bufferBytes s ++ bs := by
  obtain ⟨-, h2, -, -, -, -, h7⟩ := h
  unfold output at h2
  rw [h7 hm, List.append_assoc] at h2
  exact List.append_cancel_left h2

/-- C3: for every sequence of `writeBits(count_i, value_i)` calls with
`0 ≤ count_i ≤ 32` between `beginBits` and `endBits`, issued on a well-formed stream
whose cursor is at the end of the buffer: when the span returns it has appended
exactly `ceil(sum count_i / 8)` bytes to the output (to the buffer itself for an
in-memory stream); these bytes, read least significant bit first, are the low
`count_i` bits of each `value_i` in call order, followed by zero bits up to the end of
the last byte.  On an in-memory stream whose allocations are granted the span does
return. -/
theorem bitsSpan_exact (calls : List (Int × Nat)) (s : BinaryOutputStream) (w : World)
    (hA : Appending s w) (hc : ∀ c ∈ calls, 0 ≤ c.1 ∧ c.1 ≤ 32) :
    (s.m_beginEndBits = 0 → Unfailing s w → (bitsSpan calls s w).isOk = true) ∧
    ((bitsSpan calls s w).isOk = true →
      ∃ emitted : List Nat,
        output (bitsSpan calls s w).stream (bitsSpan calls s w).world = output s w ++ emitted ∧
        (s.m_path = "<memory>" →
          bufferBytes (bitsSpan calls s w).stream = bufferBytes s ++ emitted) ∧
        emitted.length = (totalBits calls + 7) / 8 ∧
        unpackBits emitted =
          calls.flatMap (fun c => lowBits c.1.toNat c.2) ++
            List.replicate (8 * emitted.length - totalBits calls) false) := by
  refine ⟨?_, ?_⟩
  · intro hb hu
    exact ((bitsSpan_run calls s w hA hb).1 0 (Or.inl hu)).1
  · intro hok
    have hb := bitsSpan_bits_of_isOk calls s w hok
    obtain ⟨hap, -⟩ := (bitsSpan_run calls s w hA hb).2 hok
    obtain ⟨q1, q2⟩ := packBits_spec (callBits calls)
    rw [callBits_length] at q1 q2
    rw [← callBits_eq calls hc]
    exact ⟨packBits (callBits calls), hap.2.1, appended_memory hap, q1, q2⟩

theorem bitsSpan_exact_witness :
    ∃ emitted : List Nat,
      output (bitsSpan [(3, 5), (7, 127)] (newMemoryStream Endianness.LITTLE littleHost)
          littleHost).stream
        (bitsSpan [(3, 5), (7, 127)] (newMemoryStream Endianness.LITTLE littleHost)
          littleHost).world
        = output (newMemoryStream Endianness.LITTLE littleHost) littleHost ++ emitted ∧
      ((newMemoryStream Endianness.LITTLE littleHost).m_path = "<memory>" →
        bufferBytes (bitsSpan [(3, 5), (7, 127)] (newMemoryStream Endianness.LITTLE littleHost)
          littleHost).stream
          = bufferBytes (newMemoryStream Endianness.LITTLE littleHost) ++ emitted) ∧
      emitted.length = (totalBits [(3, 5), (7, 127)] + 7) / 8 ∧
      unpackBits emitted =
        [((3 : Int), 5), (7, 127)].flatMap (fun c => lowBits c.1.toNat c.2) ++
          List.replicate (8 * emitted.length - totalBits [(3, 5), (7, 127)]) false :=
  (bitsSpan_exact [(3, 5), (7, 127)] (newMemoryStream Endianness.LITTLE littleHost) littleHost
    (by decide) (by decide)).2 (by decide)

theorem writeAlignedString_take (str : List Nat) (a : Int) (s : BinaryOutputStream) (w : World)
    (hL : 0 ≤ toInt32 str.length) :
    writeAlignedString str a s w =
        writeAlignedString (str.take (toInt32 str.length).toNat) a s w ∧
      ((str.take (toInt32 str.length).toNat).length : Int) = toInt32 str.length ∧
      (str.take (toInt32 str.length).toNat).length < 2147483648 := by
  have hle := toInt32_le _ hL
  have hlen : (str.take (toInt32 str.length).toNat).length = (toInt32 str.length).toNat := by
    rw [List.length_take]; omega
  have hsmall : (toInt32 str.length).toNat < 2147483648 := by
    unfold toInt32 at hL ⊢
    split <;> omega
  have e : toInt32 (str.take (toInt32 str.length).toNat).length = toInt32 str.length := by
    rw [hlen, toInt32_small _ hsmall, Int.toNat_of_nonneg hL]
  refine ⟨?_, by rw [hlen, Int.toNat_of_nonneg hL], by rw [hlen]; exact hsmall⟩
  unfold writeAlignedString
  simp only [e]
  unfold writeBytes
  simp only [List.take_take, Nat.min_self]

theorem writeAlignedString_nonneg (str : List Nat) (a : Int) (s : BinaryOutputStream)
    (w : World) (h : (writeAlignedString str a s w).isOk = true) :
    0 ≤ toInt32 str.length :=
  (runOp_valid_of_isOk (Op.alignedString str a) s w h).2

/-- The aligned string of a string whose length fits an `int`. -/
theorem writeAlignedString_short (str : List Nat) (a : Int) (s : BinaryOutputStream)
    (w : World) (hA : Appending s w) (hc : Consistent s w) (ha : 1 ≤ a)
    (hlen : str.length < 2147483648) (hchar : ∀ x ∈ str, x < 256) :
    (s.m_beginEndBits = 0 → Unfailing s w → (writeAlignedString str a s w).isOk = true) ∧
    ((writeAlignedString str a s w).isOk = true →
      ∃ lenBytes padBytes : List Nat,
        output (writeAlignedString str a s w).stream (writeAlignedString str a s w).world
          = output s w ++ (lenBytes ++ str ++ padBytes) ∧
        (s.m_path = "<memory>" →
          bufferBytes (writeAlignedString str a s w).stream
            = bufferBytes s ++ (lenBytes ++ str ++ padBytes)) ∧
        lenBytes.length = 4 ∧ decodeUInt s.m_fileEndian lenBytes = str.length ∧
        (∀ x ∈ padBytes, x = 0) ∧
        a ∣ (((str ++ padBytes).length : Nat) : Int) ∧
        (str.length : Int) ≤ (((str ++ padBytes).length : Nat) : Int) ∧
        (∀ m : Int, a ∣ m → (str.length : Int) ≤ m →
          (((str ++ padBytes).length : Nat) : Int) ≤ m)) := by
  have hv : (Op.alignedString str a).Valid :=
    ⟨by omega, by rw [toInt32_small _ hlen]; omega⟩
  have hbytes := alignedStringBytes_eq s.m_fileEndian str a ha hlen hchar
  refine ⟨?_, ?_⟩
  · intro hb hu
    exact ((writeAlignedString_runs str a s w hA hb hc hv).1 0 (Or.inl hu)).1
  · intro hok
    have hb := writeAlignedString_bits_of_isOk str a s w hok
    obtain ⟨hap, -⟩ := (writeAlignedString_runs str a s w hA hb hc hv).2 hok
    rw [hbytes] at hap
    obtain ⟨d1, d2⟩ := paddingOf_smallest str.length a ha
    refine ⟨encodeUInt s.m_fileEndian 4 str.length, List.replicate (paddingOf str.length a) 0,
      hap.2.1, appended_memory hap, encodeUInt_length _ _ _,
      decode_encode_32 _ _ (by omega), ?_, ?_, ?_, ?_⟩
    · intro x hx
      exact (List.mem_replicate.mp hx).2
    · simpa using d1
    · simp
    · simpa using d2

/-- C4 (counterexample): strings whose length does not fit an `int`.  For a string of
2^32 + 5 bytes, `writeAlignedString(s, 4)` on a fresh in-memory stream returns having
written the prefix 5 (not `len(s)`), 5 bytes of the string and 3 zero bytes, 8 bytes
after the prefix in all; for a string of 2^31 bytes the cast `(int)s.length()` is
negative and the call does not return. -/
theorem aligned_string_length_counterexample :
    (List.replicate 4294967301 65).length = 4294967301 ∧
    (writeAlignedString (List.replicate 4294967301 65) 4
      (newMemoryStream Endianness.LITTLE littleHost) littleHost).isOk = true ∧
    bufferBytes (writeAlignedString (List.replicate 4294967301 65) 4
      (newMemoryStream Endianness.LITTLE littleHost) littleHost).stream
      = [5, 0, 0, 0, 65, 65, 65, 65, 65, 0, 0, 0] ∧
    decodeUInt Endianness.LITTLE [5, 0, 0, 0] ≠ (List.replicate 4294967301 65).length ∧
    (List.replicate 2147483648 65).length = 2147483648 ∧
    (writeAlignedString (List.replicate 2147483648 65) 4
      (newMemoryStream Endianness.LITTLE littleHost) littleHost).isOk = false := by
  have h5 : toInt32 (List.replicate 4294967301 65).length = 5 := by
    rw [List.length_replicate]; decide
  have e : writeAlignedString (List.replicate 4294967301 65) 4
      (newMemoryStream Endianness.LITTLE littleHost) littleHost
      = writeAlignedString [65, 65, 65, 65, 65] 4
        (newMemoryStream Endianness.LITTLE littleHost) littleHost := by
    rw [(writeAlignedString_take _ 4 _ _ (by rw [h5]; decide)).1, h5, List.take_replicate]
    rfl
  refine ⟨List.length_replicate _ _, ?_, ?_, ?_, List.length_replicate _ _, ?_⟩
  · rw [e]; decide
  · rw [e]; decide
  · rw [List.length_replicate]; decide
  · cases hk : (writeAlignedString (List.replicate 2147483648 65) 4
        (newMemoryStream Endianness.LITTLE littleHost) littleHost).isOk
    · rfl
    · have := writeAlignedString_nonneg _ _ _ _ hk
      rw [List.length_replicate] at this
      exact absurd this (by decide)

/-- C4 (amended): for every alignment `a ≥ 1` and every string `str` of bytes, on a
well-formed stream whose cursor is at the end of the buffer.  If the length fits an
`int` (`len(str) < 2^31`): when `writeAlignedString(str, a)` returns it has appended a
4-byte prefix that decodes to `len(str)` in the declared byte order, then the bytes of
`str`, then padding bytes that are all zero; the number of bytes after the prefix is a
multiple of `a`, at least `len(str)`, and no larger than any other such multiple; and
on an in-memory stream whose allocations are granted the call returns.  For any length,
with `L = (int)len(str)` the 32-bit cast of the length: the call returns only if
`L ≥ 0` (and does return then, on an in-memory stream whose allocations are granted),
and what it appends is the prefix `L`, the first `L` bytes of `str` and zero padding up
to the smallest multiple of `a` that is at least `L`. -/
theorem writeAlignedString_aligned (str : List Nat) (a : Int) (s : BinaryOutputStream)
    (w : World) (hA : Appending s w) (hc : Consistent s w) (ha : 1 ≤ a)
    (hchar : ∀ x ∈ str, x < 256) :
    (str.length < 2147483648 →
      (s.m_beginEndBits = 0 → Unfailing s w → (writeAlignedString str a s w).isOk = true) ∧
      ((writeAlignedString str a s w).isOk = true →
        ∃ lenBytes padBytes : List Nat,
          output (writeAlignedString str a s w).stream (writeAlignedString str a s w).world
            = output s w ++ (lenBytes ++ str ++ padBytes) ∧
          (s.m_path = "<memory>" →
            bufferBytes (writeAlignedString str a s w).stream
              = bufferBytes s ++ (lenBytes ++ str ++ padBytes)) ∧
          lenBytes.length = 4 ∧ decodeUInt s.m_fileEndian lenBytes = str.length ∧
          (∀ x ∈ padBytes, x = 0) ∧
          a ∣ (((str ++ padBytes).length : Nat) : Int) ∧
          (str.length : Int) ≤ (((str ++ padBytes).length : Nat) : Int) ∧
          (∀ m : Int, a ∣ m → (str.length : Int) ≤ m →
            (((str ++ padBytes).length : Nat) : Int) ≤ m))) ∧
    (s.m_beginEndBits = 0 → Unfailing s w → 0 ≤ toInt32 str.length →
      (writeAlignedString str a s w).isOk = true) ∧
    ((writeAlignedString str a s w).isOk = true →
      0 ≤ toInt32 str.length ∧
      ((str.take (toInt32 str.length).toNat).length : Int) = toInt32 str.length ∧
      ∃ lenBytes padBytes : List Nat,
        output (writeAlignedString str a s w).stream (writeAlignedString str a s w).world
          = output s w ++ (lenBytes ++ str.take (toInt32 str.length).toNat ++ padBytes) ∧
        (s.m_path = "<memory>" →
          bufferBytes (writeAlignedString str a s w).stream
            = bufferBytes s ++ (lenBytes ++ str.take (toInt32 str.length).toNat ++ padBytes)) ∧
        lenBytes.length = 4 ∧
        (decodeUInt s.m_fileEndian lenBytes : Int) = toInt32 str.length ∧
        (∀ x ∈ padBytes, x = 0) ∧
        a ∣ (((str.take (toInt32 str.length).toNat ++ padBytes).length : Nat) : Int) ∧
        toInt32 str.length ≤
          (((str.take (toInt32 str.length).toNat ++ padBytes).length : Nat) : Int) ∧
        (∀ m : Int, a ∣ m → toInt32 str.length ≤ m →
          (((str.take (toInt32 str.length).toNat ++ padBytes).length : Nat) : Int) ≤ m)) := by
  have hchar2 : ∀ x ∈ str.take (toInt32 str.length).toNat, x < 256 :=
    fun x hx => hchar x (List.mem_of_mem_take hx)
  refine ⟨fun hlen => writeAlignedString_short str a s w hA hc ha hlen hchar, ?_, ?_⟩
  · intro hb hu hL
    obtain ⟨e, -, hsmall⟩ := writeAlignedString_take str a s w hL
    rw [e]
    exact (writeAlignedString_short _ a s w hA hc ha hsmall hchar2).1 hb hu
  · intro hok
    have hL := writeAlignedString_nonneg str a s w hok
    obtain ⟨e, hlen, hsmall⟩ := writeAlignedString_take str a s w hL
    rw [e] at hok ⊢
    obtain ⟨lenBytes, padBytes, h1, h2, h3, h4, h5, h6, h7, h8⟩ :=
      (writeAlignedString_short _ a s w hA hc ha hsmall hchar2).2 hok
    refine ⟨hL, hlen, lenBytes, padBytes, h1, h2, h3, ?_, h5, h6, ?_, ?_⟩
    · rw [h4]; exact hlen
    · exact le_of_eq_of_le hlen.symm h7
    · intro m hd hm
      exact h8 m hd (le_of_eq_of_le hlen hm)

theorem writeAlignedString_aligned_witness :
    ∃ lenBytes padBytes : List Nat,
      output (writeAlignedString [1, 2, 3, 4, 5] 4 (newMemoryStream Endianness.BIG littleHost)
          littleHost).stream
        (writeAlignedString [1, 2, 3, 4, 5] 4 (newMemoryStream Endianness.BIG littleHost)
          littleHost).world
        = output (newMemoryStream Endianness.BIG littleHost) littleHost ++
          (lenBytes ++ [1, 2, 3, 4, 5] ++ padBytes) ∧
      ((newMemoryStream Endianness.BIG littleHost).m_path = "<memory>" →
        bufferBytes (writeAlignedString [1, 2, 3, 4, 5] 4
            (newMemoryStream Endianness.BIG littleHost) littleHost).stream
          = bufferBytes (newMemoryStream Endianness.BIG littleHost) ++
            (lenBytes ++ [1, 2, 3, 4, 5] ++ padBytes)) ∧
      lenBytes.length = 4 ∧
      decodeUInt (newMemoryStream Endianness.BIG littleHost).m_fileEndian lenBytes
        = [1, 2, 3, 4, 5].length ∧
      (∀ x ∈ padBytes, x = 0) ∧
      (4 : Int) ∣ ((([1, 2, 3, 4, 5] ++ padBytes).length : Nat) : Int) ∧
      (([1, 2, 3, 4, 5].length : Nat) : Int) ≤ ((([1, 2, 3, 4, 5] ++ padBytes).length : Nat) : Int) ∧
      (∀ m : Int, (4 : Int) ∣ m → (([1, 2, 3, 4, 5].length : Nat) : Int) ≤ m →
        ((([1, 2, 3, 4, 5] ++ padBytes).length : Nat) : Int) ≤ m) :=
  ((writeAlignedString_aligned [1, 2, 3, 4, 5] 4 (newMemoryStream Endianness.BIG littleHost)
    littleHost (by decide) (by decide) (by decide) (by decide)).1 (by decide)).2 (by decide)

/-! ### Commit and construction -/

theorem commit_invalid (flush force : Bool) (s : BinaryOutputStream) (w : World)
    (h : s.m_ok = false) : _commit flush force s w = Result.ret false s w := by
  unfold _commit
  rw [if_pos (by simp [h])]

theorem commit_memory (flush force : Bool) (s : BinaryOutputStream) (w : World)
    (hok : s.m_ok = true) (hm : s.m_path = "<memory>") :
    _commit flush force s w = Result.ret true s w := by
  unfold _commit
  rw [if_neg (by simp [hok]), if_pos hm]

theorem commit_sum (flush force : Bool) (s : BinaryOutputStream) (w : World) :
    (_commit flush force s w).stream.m_alreadyWritten + (_commit flush force s w).stream.m_bufferLen
      = s.m_alreadyWritten + s.m_bufferLen := by
  unfold _commit
  simp only []
  repeat' split
  all_goals simp [Result.ret, Result.fail]

theorem commit_file (flush force : Bool) (s : BinaryOutputStream) (w : World)
    (hwf : WellFormed s w) (hpath : s.m_path ≠ "<memory>")
    (h : (_commit flush force s w).value = Except.ok true) :
    (_commit flush force s w).world.file = w.file ++ bufferBytes s ∧
      (_commit flush force s w).stream.m_bufferLen = 0 ∧
      (_commit flush force s w).stream.m_pos = 0 ∧
      (_commit flush force s w).stream.m_alreadyWritten = s.m_alreadyWritten + s.m_bufferLen ∧
      (_commit flush force s w).stream.m_bufferCapacity = s.m_bufferCapacity := by
  obtain ⟨⟨i1, i2, i3⟩, hbuf, hfile⟩ := hwf
  have hfile := hfile hpath
  have hopened : (if s.m_alreadyWritten > 0 then w.file else []) = w.file := by
    split
    · rfl
    · have : w.file.length = 0 := by omega
      exact (List.length_eq_zero.mp this).symm
  have hempty : s.m_bufferLen ≤ 0 → bufferBytes s = [] := by
    intro hle
    have : s.m_bufferLen.toNat = 0 := by omega
    simp [bufferBytes, bufferSlice, this]
  unfold _commit at h ⊢
  simp only [hopened] at h ⊢
  by_cases c1 : s.m_ok = true
  swap
  · simp [c1, Result.ret] at h
  simp only [c1, hpath, not_true_eq_false, ↓reduceIte] at h ⊢
  by_cases c2 : ¬ (force = true) ∧ s.m_bufferLen ≤ 0
  · rw [if_pos c2]
    simp only [Result.ret]
    rw [hempty c2.2]
    refine ⟨?_, ?_, ?_, ?_, ?_⟩ <;> first | trivial | omega | simp
  rw [if_neg c2] at h
  rw [if_neg c2]
  by_cases c3 : s.m_beginEndBits = 0
  swap
  · simp [c3, Result.fail] at h
  simp only [c3, not_true_eq_false, ↓reduceIte] at h ⊢
  by_cases c4 : w.fopenGrants w.fopenCalls = true
  swap
  · simp [c4, Result.ret] at h
  simp only [c4, not_true_eq_false, ↓reduceIte] at h ⊢
  by_cases c5 : s.m_buffer.isSome = true ∧ s.m_bufferLen > 0
  · rw [if_pos c5] at h
    rw [if_pos c5]
    simp only [i3, not_true_eq_false, ↓reduceIte] at h ⊢
    by_cases c6 : w.fwriteGrants w.fwriteCalls = true
    swap
    · simp [c6, Result.fail] at h
    simp only [c6, not_true_eq_false, ↓reduceIte, Result.ret]
    refine ⟨?_, ?_, ?_, ?_, ?_⟩ <;> trivial
  · rw [if_neg c5]
    simp only [Result.ret]
    have hle : s.m_bufferLen ≤ 0 := by
      by_contra hlt
      have hcap : 0 < s.m_bufferCapacity := by omega
      exact c5 ⟨hbuf hcap, by omega⟩
    rw [hempty hle]
    refine ⟨?_, ?_, ?_, ?_, ?_⟩ <;> first | trivial | omega | simp

theorem newFileStream_ok (path : String) (order : Endianness) (w : World)
    (hpath : path ≠ "<memory>") (hprobe : w.fopenGrants w.fopenCalls = true) :
    newFileStream path order w =
      Result.ret () (setEndianness order (initialFields path) w)
        { w with fopenCalls := w.fopenCalls + 1, file := [] } := by
  unfold newFileStream _commit
  simp [setEndianness, initialFields, hpath, hprobe, Result.andThen, Result.ret]

theorem newFileStream_appending (path : String) (order : Endianness) (w : World) :
    Appending (setEndianness order (initialFields path) w)
        { w with fopenCalls := w.fopenCalls + 1, file := [] } ∧
      Consistent (setEndianness order (initialFields path) w)
        { w with fopenCalls := w.fopenCalls + 1, file := [] } ∧
      (setEndianness order (initialFields path) w).m_beginEndBits = 0 ∧
      (setEndianness order (initialFields path) w).m_fileEndian = order ∧
      output (setEndianness order (initialFields path) w)
        { w with fopenCalls := w.fopenCalls + 1, file := [] } = [] ∧
      (setEndianness order (initialFields path) w).m_path = path ∧
      (setEndianness order (initialFields path) w).m_alreadyWritten = 0 ∧
      (setEndianness order (initialFields path) w).m_bufferLen = 0 := by
  simp [Appending, WellFormed, Inv, Consistent, setEndianness, initialFields, output,
    bufferBytes, bufferSlice]

/-- C5: on a file-backed stream whose constructor probe succeeded (so the file starts
empty), for every sequence of appending writes and whatever the allocator, `fopen`
and `fwrite` answer along the way (so with any number of spillovers at the points where
growth is refused): when the writes return and the closing `commit` returns `true`,
the file content is exactly the concatenation of the bytes of the writes, in order. -/
theorem spillover_transparent (path : String) (order : Endianness) (w : World)
    (ops : List Op) (flush : Bool) (hpath : path ≠ "<memory>")
    (hprobe : w.fopenGrants w.fopenCalls = true)
    (hrun : (runOps ops (newFileStream path order w).stream
      (newFileStream path order w).world).isOk = true)
    (hcommit : (commit flush
      (runOps ops (newFileStream path order w).stream (newFileStream path order w).world).stream
      (runOps ops (newFileStream path order w).stream
        (newFileStream path order w).world).world).value = Except.ok true) :
    (commit flush
      (runOps ops (newFileStream path order w).stream (newFileStream path order w).world).stream
      (runOps ops (newFileStream path order w).stream
        (newFileStream path order w).world).world).world.file = opsBytes order ops := by
  rw [newFileStream_ok path order w hpath hprobe] at hrun hcommit ⊢
  simp only [Result.ret] at hrun hcommit ⊢
  obtain ⟨hA, hc, hb, hord, hout, hp, -, -⟩ := newFileStream_appending path order w
  obtain ⟨hap, -⟩ := (runOps_runs ops _ _ hA hb hc (runOps_valid_of_isOk ops _ _ hrun)).2 hrun
  rw [hord] at hap
  obtain ⟨⟨hwf1, -⟩, hout1, hcfg, -⟩ := hap
  have hpath1 : (runOps ops (setEndianness order (initialFields path) w)
      { w with fopenCalls := w.fopenCalls + 1, file := [] }).stream.m_path ≠ "<memory>" := by
    rw [hcfg.1, hp]; exact hpath
  obtain ⟨hfile, -⟩ := commit_file flush false _ _ hwf1 hpath1 hcommit
  unfold commit
  rw [hfile]
  rw [hout] at hout1
  simpa [output] using hout1

theorem spillover_transparent_witness :
    (commit true
      (runOps fifteenWrites (newFileStream "out.bin" Endianness.LITTLE refusingHost).stream
        (newFileStream "out.bin" Endianness.LITTLE refusingHost).world).stream
      (runOps fifteenWrites (newFileStream "out.bin" Endianness.LITTLE refusingHost).stream
        (newFileStream "out.bin" Endianness.LITTLE refusingHost).world).world).world.file
      = opsBytes Endianness.LITTLE fifteenWrites :=
  spillover_transparent "out.bin" Endianness.LITTLE refusingHost fifteenWrites true
    (by decide) (by decide) (by decide) (by rfl)

theorem reset_ok (s : BinaryOutputStream) (w : World) (hb : s.m_beginEndBits = 0)
    (hm : s.m_path = "<memory>") :
    ∃ s2, reset s w = Result.ret () s2 w ∧ SameConfig s s2 ∧ s2.m_bufferLen = 0 ∧
      s2.m_pos = 0 ∧ s2.m_alreadyWritten = 0 ∧ s2.m_beginEndBits = 0 ∧
      s2.m_bufferCapacity = s.m_bufferCapacity ∧ s2.m_buffer = s.m_buffer := by
  unfold reset
  rw [if_neg (not_not.mpr hb), if_neg (not_not.mpr hm)]
  exact ⟨_, rfl, ⟨rfl, rfl, rfl, rfl⟩, rfl, rfl, rfl, rfl, rfl, rfl⟩

theorem bufferBytes_length (s : BinaryOutputStream) : (bufferBytes s).length = s.m_bufferLen.toNat := by
  simp [bufferBytes, bufferSlice]

/-- C6: for an in-memory stream and every sequence of writes (`writeUInt16/32/64`,
`writeAlignedString`, complete bit-packing spans) that returns on the fresh stream:
`reset()` returns, the same sequence applied again returns as well (whatever the
allocator would answer, since the capacity is retained), and the second pass leaves the
same length and byte-identical buffer content `[0, length)` as the first. -/
theorem reset_replay (order : Endianness) (w : World) (ops : List Op)
    (hrun : (runOps ops (newMemoryStream order w) w).isOk = true) :
    (reset (runOps ops (newMemoryStream order w) w).stream
      (runOps ops (newMemoryStream order w) w).world).isOk = true ∧
    (runOps ops
      (reset (runOps ops (newMemoryStream order w) w).stream
        (runOps ops (newMemoryStream order w) w).world).stream
      (reset (runOps ops (newMemoryStream order w) w).stream
        (runOps ops (newMemoryStream order w) w).world).world).isOk = true ∧
    (runOps ops
      (reset (runOps ops (newMemoryStream order w) w).stream
        (runOps ops (newMemoryStream order w) w).world).stream
      (reset (runOps ops (newMemoryStream order w) w).stream
        (runOps ops (newMemoryStream order w) w).world).world).stream.m_bufferLen
      = (runOps ops (newMemoryStream order w) w).stream.m_bufferLen ∧
    bufferBytes (runOps ops
      (reset (runOps ops (newMemoryStream order w) w).stream
        (runOps ops (newMemoryStream order w) w).world).stream
      (reset (runOps ops (newMemoryStream order w) w).stream
        (runOps ops (newMemoryStream order w) w).world).world).stream
      = bufferBytes (runOps ops (newMemoryStream order w) w).stream := by
  have hv := runOps_valid_of_isOk ops _ _ hrun
  obtain ⟨hwf, hmem, happ, hbits, hlen, hswap⟩ := newMemoryStream_wellFormed order w
  have hc0 : Consistent (newMemoryStream order w) w := hswap
  have hord : (newMemoryStream order w).m_fileEndian = order := rfl
  obtain ⟨hap, hb1⟩ := (runOps_runs ops _ w ⟨hwf, happ⟩ hbits hc0 hv).2 hrun
  rw [hord] at hap
  have hbytes1 := appended_memory hap hmem
  have h0 : bufferBytes (newMemoryStream order w) = [] := by
    simp [bufferBytes, bufferSlice, hlen]
  rw [h0, List.nil_append] at hbytes1
  obtain ⟨⟨⟨⟨i1, i2, i3⟩, hbuf1, hfile1⟩, happ1⟩, -, hcfg, hhost, -⟩ := hap
  generalize runOps ops (newMemoryStream order w) w = r1 at *
  have hmem1 : r1.stream.m_path = "<memory>" := by rw [hcfg.1]; exact hmem
  obtain ⟨s2, hreset, hcfg2, l2, p2, a2, b2, c2, bf2⟩ :=
    reset_ok r1.stream r1.world (hb1.trans hbits) hmem1
  rw [hreset]
  simp only [Result.ret]
  have hlen1 : r1.stream.m_bufferLen = ((opsBytes order ops).length : Int) := by
    have := congrArg List.length hbytes1
    rw [bufferBytes_length] at this
    omega
  have hmem2 : s2.m_path = "<memory>" := by rw [hcfg2.1]; exact hmem1
  have hA2 : Appending s2 r1.world := by
    refine ⟨⟨⟨by omega, by omega, by omega⟩, ?_, ?_⟩, by omega⟩
    · rw [c2, bf2]; exact hbuf1
    · intro hne
      exact absurd hmem2 hne
  have hc2 : Consistent s2 r1.world :=
    consistent_of_same (consistent_of_same hc0 hcfg hhost) hcfg2 (sameHost_refl _)
  have hruns := runOps_runs ops s2 r1.world hA2 b2 hc2 hv
  have hord2 : s2.m_fileEndian = order := by
    rw [hcfg2.2.1, hcfg.2.1]
    rfl
  rw [hord2] at hruns
  have hsure : Sure s2 r1.world ((opsBytes order ops).length + 0) := by
    refine Or.inr ?_
    push_cast
    omega
  obtain ⟨hok2, -⟩ := hruns.1 0 hsure
  obtain ⟨hap2, -⟩ := hruns.2 hok2
  have hbytes2 := appended_memory hap2 hmem2
  have h02 : bufferBytes s2 = [] := by
    simp [bufferBytes, bufferSlice, l2]
  rw [h02, List.nil_append] at hbytes2
  refine ⟨rfl, hok2, ?_, ?_⟩
  · have := congrArg List.length hbytes2
    rw [bufferBytes_length] at this
    have hinv := hap2.1.1.1
    obtain ⟨j1, j2, j3⟩ := hinv
    omega
  · rw [hbytes2, hbytes1]

theorem reset_replay_witness :
    bufferBytes (runOps [Op.uint16 4660, Op.alignedString [7, 8, 9] 4, Op.bits [(3, 5), (7, 127)]]
      (reset (runOps [Op.uint16 4660, Op.alignedString [7, 8, 9] 4, Op.bits [(3, 5), (7, 127)]]
          (newMemoryStream Endianness.BIG littleHost) littleHost).stream
        (runOps [Op.uint16 4660, Op.alignedString [7, 8, 9] 4, Op.bits [(3, 5), (7, 127)]]
          (newMemoryStream Endianness.BIG littleHost) littleHost).world).stream
      (reset (runOps [Op.uint16 4660, Op.alignedString [7, 8, 9] 4, Op.bits [(3, 5), (7, 127)]]
          (newMemoryStream Endianness.BIG littleHost) littleHost).stream
        (runOps [Op.uint16 4660, Op.alignedString [7, 8, 9] 4, Op.bits [(3, 5), (7, 127)]]
          (newMemoryStream Endianness.BIG littleHost) littleHost).world).world).stream
      = bufferBytes (runOps
          [Op.uint16 4660, Op.alignedString [7, 8, 9] 4, Op.bits [(3, 5), (7, 127)]]
          (newMemoryStream Endianness.BIG littleHost) littleHost).stream :=
  (reset_replay Endianness.BIG littleHost
    [Op.uint16 4660, Op.alignedString [7, 8, 9] 4, Op.bits [(3, 5), (7, 127)]]
    (by decide)).2.2.2

/-! ### Validity flag -/

/-- C7 (counterexample): a file-backed stream whose constructor probe could not open
the file has `ok() = false`; a subsequent `writeUInt32(0x12345678)` nevertheless
returns normally and appends 4 bytes to the buffer (length 0 before, 4 after). -/
theorem fail_fast_counterexample :
    ok (newFileStream "out.bin" Endianness.LITTLE closedHost).stream = false ∧
    (newFileStream "out.bin" Endianness.LITTLE closedHost).stream.m_bufferLen = 0 ∧
    (writeUInt32 305419896 (newFileStream "out.bin" Endianness.LITTLE closedHost).stream
      (newFileStream "out.bin" Endianness.LITTLE closedHost).world).isOk = true ∧
    (writeUInt32 305419896 (newFileStream "out.bin" Endianness.LITTLE closedHost).stream
      (newFileStream "out.bin" Endianness.LITTLE closedHost).world).stream.m_bufferLen = 4 ∧
    bufferBytes (writeUInt32 305419896
      (newFileStream "out.bin" Endianness.LITTLE closedHost).stream
      (newFileStream "out.bin" Endianness.LITTLE closedHost).world).stream
        = [120, 86, 52, 18] := by
  decide

/-- C7 (amended): once the validity flag is false (`ok()` returns false), every commit
call, `commit(flush)` and `_commit(flush, force)` alike, returns false and changes
nothing: stream, buffer and file stay as they were.  (The write calls do not consult
the flag.) -/
theorem commit_fail_fast (flush : Bool) (s : BinaryOutputStream) (w : World)
    (h : ok s = false) :
    commit flush s w = Result.ret false s w ∧
      ∀ force, _commit flush force s w = Result.ret false s w :=
  ⟨commit_invalid flush false s w h, fun force => commit_invalid flush force s w h⟩

theorem commit_fail_fast_witness :
    commit true (newFileStream "out.bin" Endianness.LITTLE closedHost).stream
        (newFileStream "out.bin" Endianness.LITTLE closedHost).world
      = Result.ret false (newFileStream "out.bin" Endianness.LITTLE closedHost).stream
          (newFileStream "out.bin" Endianness.LITTLE closedHost).world :=
  (commit_fail_fast true (newFileStream "out.bin" Endianness.LITTLE closedHost).stream
    (newFileStream "out.bin" Endianness.LITTLE closedHost).world (by decide)).1

/-! ### Fields no write touches -/

theorem andThen_config {α β : Type} (s : BinaryOutputStream) (r : Result α)
    (k : α → BinaryOutputStream → World → Result β) (h1 : SameConfig s r.stream)
    (h2 : ∀ x s1 w1, SameConfig s1 (k x s1 w1).stream) :
    SameConfig s (r.andThen k).stream := by
  cases hv : r.value with
  | error e => rw [Result.andThen_error _ _ e hv]; exact h1
  | ok a => rw [Result.andThen_ok _ _ a hv]; exact sameConfig_trans h1 (h2 a _ _)

theorem store_config (s : BinaryOutputStream) (i : Int) (bs : List Nat) (w : World) (d : Int) :
    SameConfig s
      (match storeBytes s i bs with
        | none => (Result.fail Error.memoryFault s w : Result Unit)
        | some s2 => Result.ret () { s2 with m_pos := s2.m_pos + d } w).stream := by
  cases hst : storeBytes s i bs with
  | none => exact sameConfig_refl s
  | some s2 =>
    have := storeBytes_fields _ _ _ _ hst
    simp only [Result.ret]
    rw [this]
    exact ⟨rfl, rfl, rfl, rfl⟩

theorem writeUInt8_config (i : Nat) (s : BinaryOutputStream) (w : World) :
    SameConfig s (writeUInt8 i s w).stream := by
  rw [writeUInt8_eq]; exact (putBytes_frame _ s w).1

theorem writeUInt16_config (u : Nat) (s : BinaryOutputStream) (w : World) :
    SameConfig s (writeUInt16 u s w).stream := by
  rw [writeUInt16_eq]; exact (putBytes_frame _ s w).1

theorem writeUInt64_config (u : Nat) (s : BinaryOutputStream) (w : World) :
    SameConfig s (writeUInt64 u s w).stream := by
  rw [writeUInt64_eq]; exact (putBytes_frame _ s w).1

theorem writeUInt32_config (u : Nat) (s : BinaryOutputStream) (w : World) :
    SameConfig s (writeUInt32 u s w).stream := by
  unfold writeUInt32
  apply andThen_config s _ _ (reserveBytes_frame 4 s w).1
  intro _ s1 w1
  split
  · exact sameConfig_refl s1
  · exact store_config s1 _ _ w1 4

theorem writeBytes_config (n : Int) (b : List Nat) (s : BinaryOutputStream) (w : World) :
    SameConfig s (writeBytes n b s w).stream := by
  unfold writeBytes
  split
  · exact sameConfig_refl s
  · apply andThen_config s _ _ (reserveBytes_frame _ s w).1
    intro _ s1 w1
    exact store_config s1 _ _ w1 n

theorem writePadding_config (k : Nat) (s : BinaryOutputStream) (w : World) :
    SameConfig s (writePadding k s w).stream := by
  induction k generalizing s w with
  | zero => exact sameConfig_refl s
  | succ k ih =>
    rw [writePadding]
    exact andThen_config s _ _ (writeUInt8_config 0 s w) (fun _ s1 w1 => ih s1 w1)

theorem writeAlignedString_config (str : List Nat) (a : Int) (s : BinaryOutputStream)
    (w : World) : SameConfig s (writeAlignedString str a s w).stream := by
  unfold writeAlignedString writeInt32
  apply andThen_config s _ _ (writeUInt32_config _ s w)
  intro _ s1 w1
  apply andThen_config s1 _ _ (writeBytes_config _ _ s1 w1)
  intro _ s2 w2
  split
  · exact sameConfig_refl s2
  · simp only []
    split
    · exact writePadding_config _ s2 w2
    · exact sameConfig_refl s2

theorem writeBitsLoop_config (n v : Nat) (s : BinaryOutputStream) (w : World) :
    SameConfig s (writeBitsLoop n v s w).stream := by
  induction n generalizing v s w with
  | zero => exact sameConfig_refl s
  | succ n ih =>
    rw [writeBitsLoop]
    simp only []
    split
    · refine andThen_config s _ _ ?_ ?_
      · exact writeUInt8_config _ _ w
      · intro _ s1 w1
        exact ih _ _ w1
    · exact ih _ _ w

theorem writeBits_config (n : Int) (v : Nat) (s : BinaryOutputStream) (w : World) :
    SameConfig s (writeBits n v s w).stream := by
  unfold writeBits
  split
  · exact sameConfig_refl s
  · exact writeBitsLoop_config _ _ s w

theorem endBits_config (s : BinaryOutputStream) (w : World) :
    SameConfig s (endBits s w).stream := by
  unfold endBits
  split
  · exact sameConfig_refl s
  · refine andThen_config s _ _ ?_ (fun _ s1 w1 => ⟨rfl, rfl, rfl, rfl⟩)
    split
    · exact writeUInt8_config _ s w
    · exact sameConfig_refl s

theorem beginBits_config (s : BinaryOutputStream) (w : World) :
    SameConfig s (beginBits s w).stream := by
  unfold beginBits
  split
  · exact sameConfig_refl s
  · exact ⟨rfl, rfl, rfl, rfl⟩

theorem reset_config (s : BinaryOutputStream) (w : World) :
    SameConfig s (reset s w).stream := by
  unfold reset
  repeat' split
  all_goals exact ⟨rfl, rfl, rfl, rfl⟩

theorem reallocBuffer_config (bytes old : Nat) (s : BinaryOutputStream) (w : World) :
    SameConfig s (reallocBuffer bytes old s w).stream :=
  (reallocBufferWith_frame reserveBytes (fun n s w => reserveBytes_frame n s w) bytes old s w).1

theorem reserveBytesWhenOutOfMemory_config (bytes : Nat) (s : BinaryOutputStream) (w : World) :
    SameConfig s (reserveBytesWhenOutOfMemory bytes s w).stream :=
  (reserveBytesWhenOutOfMemoryWith_frame reserveBytes
    (fun n s w => reserveBytes_frame n s w) bytes s w).1

/-- Every call on an in-memory stream with `m_ok = true` leaves `m_path` and `m_ok`
as they are. -/
theorem call_keeps_memory (c : Call) (s : BinaryOutputStream) (w : World)
    (hm : s.m_path = "<memory>") (hok : s.m_ok = true) :
    (runCall c s w).1.m_path = "<memory>" ∧ (runCall c s w).1.m_ok = true := by
  have key : ∀ s1 : BinaryOutputStream, SameConfig s s1 →
      s1.m_path = "<memory>" ∧ s1.m_ok = true :=
    fun s1 h => ⟨h.1.trans hm, h.2.2.2.trans hok⟩
  cases c with
  | setEndianness endian => exact ⟨hm, hok⟩
  | commit flush =>
    simp only [runCall, commit]
    rw [commit_memory flush false s w hok hm]
    exact ⟨hm, hok⟩
  | reset => exact key _ (reset_config s w)
  | writeUInt8 i => exact key _ (writeUInt8_config i s w)
  | writeBytes n b => exact key _ (writeBytes_config n b s w)
  | writeInt32 i => exact key _ (writeUInt32_config _ s w)
  | writeUInt16 u => exact key _ (writeUInt16_config u s w)
  | writeUInt32 u => exact key _ (writeUInt32_config u s w)
  | writeUInt64 u => exact key _ (writeUInt64_config u s w)
  | writeAlignedString str a => exact key _ (writeAlignedString_config str a s w)
  | beginBits => exact key _ (beginBits_config s w)
  | writeBits n v => exact key _ (writeBits_config n v s w)
  | endBits => exact key _ (endBits_config s w)
  | reserveBytes bytes => exact key _ (reserveBytes_frame bytes s w).1
  | reallocBuffer bytes old => exact key _ (reallocBuffer_config bytes old s w)
  | reserveBytesWhenOutOfMemory bytes =>
    exact key _ (reserveBytesWhenOutOfMemory_config bytes s w)

theorem reachable_memory (endian : Endianness) (w0 : World) (s : BinaryOutputStream)
    (w : World) (h : ReachableFrom (newMemoryStream endian w0) w0 s w) :
    s.m_path = "<memory>" ∧ s.m_ok = true := by
  induction h with
  | start => exact ⟨rfl, rfl⟩
  | step c s w _ ih => exact call_keeps_memory c s w ih.1 ih.2

/-- C8: for an in-memory stream, in every state reachable from construction by any
sequence of calls (public or private, returning or not), `commit(flush)` returns
`true` and leaves every field of the stream, and the world, unchanged, for either
value of `flush`. -/
theorem commit_memory_noop (endian : Endianness) (w0 : World) (s : BinaryOutputStream)
    (w : World) (h : ReachableFrom (newMemoryStream endian w0) w0 s w) (flush : Bool) :
    commit flush s w = Result.ret true s w := by
  obtain ⟨hm, hok⟩ := reachable_memory endian w0 s w h
  exact commit_memory flush false s w hok hm

theorem commit_memory_noop_witness :
    commit true
      (runCall (Call.writeUInt32 305419896) (newMemoryStream Endianness.BIG littleHost) littleHost).1
      (runCall (Call.writeUInt32 305419896) (newMemoryStream Endianness.BIG littleHost) littleHost).2
    = Result.ret true
      (runCall (Call.writeUInt32 305419896) (newMemoryStream Endianness.BIG littleHost) littleHost).1
      (runCall (Call.writeUInt32 305419896) (newMemoryStream Endianness.BIG littleHost)
        littleHost).2 :=
  commit_memory_noop Endianness.BIG littleHost _ _
    (ReachableFrom.step (Call.writeUInt32 305419896) _ _ ReachableFrom.start) true

/-! ### The data-model invariant -/

theorem andThen_keeps {α β : Type} (P : BinaryOutputStream → Prop) (r : Result α)
    (k : α → BinaryOutputStream → World → Result β) (h1 : r.isOk = true → P r.stream)
    (h2 : ∀ x s1 w1, P s1 → (k x s1 w1).isOk = true → P (k x s1 w1).stream)
    (h : (r.andThen k).isOk = true) : P (r.andThen k).stream := by
  obtain ⟨x, hv, heq⟩ := Result.andThen_isOk _ _ h
  rw [heq] at h ⊢
  exact h2 x _ _ (h1 ((Result.isOk_iff _).mpr ⟨x, hv⟩)) h

theorem writeUInt8_inv (i : Nat) (s : BinaryOutputStream) (w : World) (hinv : Inv s)
    (h : (writeUInt8 i s w).isOk = true) : Inv (writeUInt8 i s w).stream := by
  rw [writeUInt8_eq] at h ⊢; exact putBytes_inv _ s w hinv h

theorem writeUInt16_inv (u : Nat) (s : BinaryOutputStream) (w : World) (hinv : Inv s)
    (h : (writeUInt16 u s w).isOk = true) : Inv (writeUInt16 u s w).stream := by
  rw [writeUInt16_eq] at h ⊢; exact putBytes_inv _ s w hinv h

theorem writeUInt32_inv (u : Nat) (s : BinaryOutputStream) (w : World) (hinv : Inv s)
    (h : (writeUInt32 u s w).isOk = true) : Inv (writeUInt32 u s w).stream := by
  have hb := writeUInt32_bits_of_isOk u s w h
  rw [writeUInt32_eq _ _ _ hb] at h ⊢; exact putBytes_inv _ s w hinv h

theorem writeUInt64_inv (u : Nat) (s : BinaryOutputStream) (w : World) (hinv : Inv s)
    (h : (writeUInt64 u s w).isOk = true) : Inv (writeUInt64 u s w).stream := by
  rw [writeUInt64_eq] at h ⊢; exact putBytes_inv _ s w hinv h

theorem writeBytes_inv (n : Int) (b : List Nat) (s : BinaryOutputStream) (w : World)
    (hinv : Inv s) (h : (writeBytes n b s w).isOk = true) : Inv (writeBytes n b s w).stream := by
  unfold writeBytes at h ⊢
  split at h
  · simp [Result.isOk, Result.fail] at h
  rename_i hn
  rw [if_neg hn]
  obtain ⟨x, hv, heq⟩ := Result.andThen_isOk _ _ h
  rw [heq] at h ⊢
  obtain ⟨⟨i1, i2, i3⟩, i4⟩ := reserveBytes_inv n.toNat s w hinv ((Result.isOk_iff _).mpr ⟨x, hv⟩)
  cases hst : storeBytes (reserveBytes n.toNat s w).stream (reserveBytes n.toNat s w).stream.m_pos
      (List.map (fun x => x % 256) (List.take n.toNat b)) with
  | none => rw [hst] at h; simp [Result.isOk, Result.fail] at h
  | some s2 =>
    have hf := storeBytes_fields _ _ _ _ hst
    simp only [Result.ret, Inv]
    rw [hf]
    simp only []
    omega

theorem writePadding_inv (k : Nat) (s : BinaryOutputStream) (w : World) (hinv : Inv s)
    (h : (writePadding k s w).isOk = true) : Inv (writePadding k s w).stream := by
  induction k generalizing s w with
  | zero => exact hinv
  | succ k ih =>
    rw [writePadding] at h ⊢
    exact andThen_keeps Inv _ _ (writeUInt8_inv 0 s w hinv) (fun _ s1 w1 h1 hk => ih s1 w1 h1 hk) h

theorem writeAlignedString_inv (str : List Nat) (a : Int) (s : BinaryOutputStream) (w : World)
    (hinv : Inv s) (h : (writeAlignedString str a s w).isOk = true) :
    Inv (writeAlignedString str a s w).stream := by
  unfold writeAlignedString writeInt32 at h ⊢
  refine andThen_keeps Inv _ _ (writeUInt32_inv _ s w hinv) ?_ h
  intro _ s1 w1 h1 hk
  refine andThen_keeps Inv _ _ (writeBytes_inv _ _ s1 w1 h1) ?_ hk
  intro _ s2 w2 h2 hk2
  split at hk2
  · simp [Result.isOk, Result.fail] at hk2
  rename_i ha
  rw [if_neg ha]
  simp only [] at hk2 ⊢
  split at hk2
  · rename_i hp
    rw [if_pos hp]
    exact writePadding_inv _ s2 w2 h2 hk2
  · rename_i hp
    rw [if_neg hp]
    exact h2

theorem writeBitsLoop_inv (n v : Nat) (s : BinaryOutputStream) (w : World) (hinv : Inv s)
    (h : (writeBitsLoop n v s w).isOk = true) : Inv (writeBitsLoop n v s w).stream := by
  induction n generalizing v s w with
  | zero => exact hinv
  | succ n ih =>
    rw [writeBitsLoop] at h ⊢
    simp only [] at h ⊢
    split at h
    · rename_i hc
      rw [if_pos hc]
      refine andThen_keeps Inv _ _ (writeUInt8_inv _ _ w hinv) ?_ h
      intro _ s1 w1 h1 hk
      exact ih _ _ w1 h1 hk
    · rename_i hc
      rw [if_neg hc]
      exact ih _ _ w hinv h

theorem writeBits_inv (n : Int) (v : Nat) (s : BinaryOutputStream) (w : World) (hinv : Inv s)
    (h : (writeBits n v s w).isOk = true) : Inv (writeBits n v s w).stream := by
  unfold writeBits at h ⊢
  split at h
  · simp [Result.isOk, Result.fail] at h
  rename_i hb
  rw [if_neg hb]
  exact writeBitsLoop_inv _ _ s w hinv h

theorem endBits_inv (s : BinaryOutputStream) (w : World) (hinv : Inv s)
    (h : (endBits s w).isOk = true) : Inv (endBits s w).stream := by
  unfold endBits at h ⊢
  split at h
  · simp [Result.isOk, Result.fail] at h
  rename_i hb
  rw [if_neg hb]
  refine andThen_keeps Inv _ _ ?_ (fun _ s1 w1 h1 _ => h1) h
  split
  · exact writeUInt8_inv _ s w hinv
  · exact fun _ => hinv

theorem beginBits_inv (s : BinaryOutputStream) (w : World) (hinv : Inv s) :
    Inv (beginBits s w).stream := by
  unfold beginBits
  split
  · exact hinv
  · exact hinv

theorem reset_inv (s : BinaryOutputStream) (w : World) (hinv : Inv s)
    (h : (reset s w).isOk = true) : Inv (reset s w).stream := by
  obtain ⟨i1, i2, i3⟩ := hinv
  unfold reset at h ⊢
  split at h
  · simp [Result.isOk, Result.fail] at h
  split at h
  · simp [Result.isOk, Result.fail] at h
  rename_i hb hm
  rw [if_neg hb, if_neg hm]
  simp only [Result.ret, Inv]
  omega

theorem commit_inv (flush force : Bool) (s : BinaryOutputStream) (w : World) (hinv : Inv s) :
    Inv (_commit flush force s w).stream := by
  obtain ⟨i1, i2, i3⟩ := hinv
  unfold _commit
  simp only []
  repeat' split
  all_goals (simp only [Result.ret, Result.fail, Inv]; omega)

theorem reallocBuffer_inv (bytes old : Nat) (s : BinaryOutputStream) (w : World) (hinv : Inv s)
    (h : (reallocBuffer bytes old s w).isOk = true) : Inv (reallocBuffer bytes old s w).stream :=
  (reallocBufferWith_inv reserveBytes bytes old
    (fun s w hi hk => reserveBytes_inv bytes s w hi hk) s w hinv.1 hinv.2.1
    (fun _ => hinv.2.2) h).1

theorem reserveBytesWhenOutOfMemory_inv (bytes : Nat) (s : BinaryOutputStream) (w : World)
    (h : (reserveBytesWhenOutOfMemory bytes s w).isOk = true) :
    Inv (reserveBytesWhenOutOfMemory bytes s w).stream :=
  (reserveBytesWhenOutOfMemoryWith_inv reserveBytes bytes
    (fun s w hi hk => reserveBytes_inv bytes s w hi hk) s w h).1

theorem newFileStream_inv (path : String) (endian : Endianness) (w : World) :
    Inv (newFileStream path endian w).stream := by
  unfold newFileStream
  have h0 : Inv (setEndianness endian (initialFields path) w) := by
    simp [Inv, setEndianness, initialFields]
  have := commit_inv false true _ w h0
  cases hv : (_commit false true (setEndianness endian (initialFields path) w) w).value with
  | error e => rw [Result.andThen_error _ _ e hv]; exact this
  | ok a => rw [Result.andThen_ok _ _ a hv]; exact this

/-- C10: `0 ≤ cursor ≤ length ≤ capacity` holds in the state produced by each
constructor, and every operation that returns (no error raised, no assertion failed)
from a state in which it holds leaves a state in which it holds: `writeUInt16`,
`writeUInt32`, `writeUInt64`, `writeBits`, `endBits`, `writeAlignedString`, `reset`,
`commit`, `reallocBuffer` and `reserveBytesWhenOutOfMemory` (as well as `beginBits`,
`reserveBytes` and the 1-byte and raw-byte writers they rest on). -/
theorem invariant_preserved (s : BinaryOutputStream) (w : World) (hinv : Inv s) :
    (∀ endian w0, Inv (newMemoryStream endian w0)) ∧
    (∀ path endian w0, Inv (newFileStream path endian w0).stream) ∧
    (∀ u, (writeUInt16 u s w).isOk = true → Inv (writeUInt16 u s w).stream) ∧
    (∀ u, (writeUInt32 u s w).isOk = true → Inv (writeUInt32 u s w).stream) ∧
    (∀ u, (writeUInt64 u s w).isOk = true → Inv (writeUInt64 u s w).stream) ∧
    (∀ n v, (writeBits n v s w).isOk = true → Inv (writeBits n v s w).stream) ∧
    ((endBits s w).isOk = true → Inv (endBits s w).stream) ∧
    (∀ str a, (writeAlignedString str a s w).isOk = true →
      Inv (writeAlignedString str a s w).stream) ∧
    ((reset s w).isOk = true → Inv (reset s w).stream) ∧
    (∀ flush, (commit flush s w).isOk = true → Inv (commit flush s w).stream) ∧
    (∀ bytes old, (reallocBuffer bytes old s w).isOk = true →
      Inv (reallocBuffer bytes old s w).stream) ∧
    (∀ bytes, (reserveBytesWhenOutOfMemory bytes s w).isOk = true →
      Inv (reserveBytesWhenOutOfMemory bytes s w).stream) ∧
    (Inv (beginBits s w).stream) ∧
    (∀ bytes, (reserveBytes bytes s w).isOk = true → Inv (reserveBytes bytes s w).stream) ∧
    (∀ i, (writeUInt8 i s w).isOk = true → Inv (writeUInt8 i s w).stream) ∧
    (∀ n b, (writeBytes n b s w).isOk = true → Inv (writeBytes n b s w).stream) :=
  ⟨fun endian w0 => by simp [Inv, newMemoryStream, setEndianness, initialFields],
    fun path endian w0 => newFileStream_inv path endian w0,
    fun u h => writeUInt16_inv u s w hinv h,
    fun u h => writeUInt32_inv u s w hinv h,
    fun u h => writeUInt64_inv u s w hinv h,
    fun n v h => writeBits_inv n v s w hinv h,
    fun h => endBits_inv s w hinv h,
    fun str a h => writeAlignedString_inv str a s w hinv h,
    fun h => reset_inv s w hinv h,
    fun flush _ => commit_inv flush false s w hinv,
    fun bytes old h => reallocBuffer_inv bytes old s w hinv h,
    fun bytes h => reserveBytesWhenOutOfMemory_inv bytes s w h,
    beginBits_inv s w hinv,
    fun bytes h => (reserveBytes_inv bytes s w hinv h).1,
    fun i h => writeUInt8_inv i s w hinv h,
    fun n b h => writeBytes_inv n b s w hinv h⟩



/-! ### Bytes persisted and bytes buffered -/

theorem commit_rest (flush force : Bool) (s : BinaryOutputStream) (w : World) :
    (_commit flush force s w).stream.m_buffer = s.m_buffer ∧
      (_commit flush force s w).stream.m_bufferCapacity = s.m_bufferCapacity ∧
      (_commit flush force s w).stream.m_path = s.m_path ∧
      (_commit flush force s w).stream.m_fileEndian = s.m_fileEndian ∧
      (_commit flush force s w).stream.m_swapBytes = s.m_swapBytes ∧
      SameBits s (_commit flush force s w).stream ∧
      SameHost w (_commit flush force s w).world ∧
      ((_commit flush force s w).value = Except.ok true →
        (_commit flush force s w).stream.m_ok = s.m_ok) := by
  unfold _commit
  simp only []
  repeat' split
  all_goals simp [Result.ret, Result.fail, SameBits, SameHost]

theorem commit_appending (flush : Bool) (s : BinaryOutputStream) (w : World)
    (hA : Appending s w) (hc : Consistent s w) (hpath : s.m_path ≠ "<memory>")
    (h : (commit flush s w).value = Except.ok true) :
    Appending (commit flush s w).stream (commit flush s w).world ∧
      Consistent (commit flush s w).stream (commit flush s w).world ∧
      output (commit flush s w).stream (commit flush s w).world = output s w ∧
      (commit flush s w).stream.m_alreadyWritten + (commit flush s w).stream.m_bufferLen
        = s.m_alreadyWritten + s.m_bufferLen ∧
      (commit flush s w).stream.m_beginEndBits = s.m_beginEndBits ∧
      (commit flush s w).stream.m_path = s.m_path ∧
      (commit flush s w).stream.m_fileEndian = s.m_fileEndian := by
  unfold commit at h ⊢
  obtain ⟨hwf, happ⟩ := hA
  obtain ⟨f1, f2, f3, f4, f5⟩ := commit_file flush false s w hwf hpath h
  obtain ⟨g1, g2, g3, g4, g5, g6, g7, -⟩ := commit_rest flush false s w
  have hinv := commit_inv flush false s w hwf.1
  have hb0 : bufferBytes (_commit flush false s w).stream = [] := by
    simp [bufferBytes, bufferSlice, f2]
  refine ⟨⟨⟨hinv, ?_, ?_⟩, by rw [f2, f3]⟩, ?_, ?_, commit_sum flush false s w, g6.1, g3, g4⟩
  · rw [g1, g2]; exact hwf.2.1
  · intro _
    rw [f1, f4, List.length_append, bufferBytes_length]
    have := hwf.2.2 hpath
    have := hwf.1.1
    have := hwf.1.2.1
    push_cast
    omega
  · unfold Consistent
    rw [g5, g4, g7.1]
    exact hc
  · unfold output
    rw [f1, hb0, List.append_nil]

theorem runActions_sum (order : Endianness) (acts : List Action) (s : BinaryOutputStream)
    (w : World) (s1 : BinaryOutputStream) (w1 : World)
    (hA : Appending s w) (hc : Consistent s w) (hb : s.m_beginEndBits = 0)
    (hpath : s.m_path ≠ "<memory>") (hord : s.m_fileEndian = order)
    (h : runActions acts s w = some (s1, w1)) :
    s1.m_alreadyWritten + s1.m_bufferLen
        = s.m_alreadyWritten + s.m_bufferLen + (actionsBytes order acts).length ∧
      output s1 w1 = output s w ++ actionsBytes order acts := by
  induction acts generalizing s w with
  | nil =>
    simp only [runActions, Option.some.injEq, Prod.mk.injEq] at h
    obtain ⟨rfl, rfl⟩ := h
    simp [actionsBytes]
  | cons a rest ih =>
    cases a with
    | write op =>
      rw [runActions] at h
      split at h
      swap
      · simp at h
      rename_i hok
      obtain ⟨hap, hb1⟩ :=
        (runOp_runs op s w hA hb hc (runOp_valid_of_isOk op s w hok)).2 hok
      obtain ⟨q1, q2, q3, q4, q5, -, -⟩ := hap
      rw [hord] at q2 q5
      obtain ⟨r1, r2⟩ := ih _ _ q1 (consistent_of_same hc q3 q4) (hb1.trans hb)
        (by rw [q3.1]; exact hpath) (by rw [q3.2.1]; exact hord) h
      refine ⟨?_, ?_⟩
      · rw [r1, q5]
        simp only [actionsBytes, List.length_append]
        push_cast
        omega
      · rw [r2, q2]
        simp [actionsBytes]
    | commit flush =>
      rw [runActions] at h
      split at h
      swap
      · simp at h
      rename_i hv1
      obtain ⟨c1, c2, c3, c4, c5, c6, c7⟩ := commit_appending flush s w hA hc hpath hv1
      obtain ⟨r1, r2⟩ := ih _ _ c1 c2 (c5.trans hb) (by rw [c6]; exact hpath)
        (by rw [c7]; exact hord) h
      refine ⟨?_, ?_⟩
      · rw [r1, c4]
        simp [actionsBytes]
      · rw [r2, c3]
        simp [actionsBytes]

/-- C9: for a file-backed stream, a spillover step moves `bytesToWrite` from the length
to the persisted count, and a commit moves the whole length there (leaving
`length = cursor = 0` on a well-formed stream when it returns `true`), so both leave
`persistedCount + length` unchanged; hence after any sequence of appending writes and
successful commits on a freshly constructed stream, with any number of spillovers in
between, `persistedCount + length` is the total number of bytes written so far. -/
theorem persisted_plus_length :
    (∀ s w, (spill s w).isOk = true →
      (spill s w).stream.m_alreadyWritten = s.m_alreadyWritten + bytesToWrite s ∧
      (spill s w).stream.m_bufferLen = s.m_bufferLen - bytesToWrite s ∧
      (spill s w).stream.m_alreadyWritten + (spill s w).stream.m_bufferLen
        = s.m_alreadyWritten + s.m_bufferLen) ∧
    (∀ flush s w,
      (commit flush s w).stream.m_alreadyWritten + (commit flush s w).stream.m_bufferLen
        = s.m_alreadyWritten + s.m_bufferLen) ∧
    (∀ flush s w, WellFormed s w → s.m_path ≠ "<memory>" →
      (commit flush s w).value = Except.ok true →
      (commit flush s w).stream.m_alreadyWritten = s.m_alreadyWritten + s.m_bufferLen ∧
      (commit flush s w).stream.m_bufferLen = 0 ∧ (commit flush s w).stream.m_pos = 0) ∧
    (∀ path order w acts s1 w1, path ≠ "<memory>" → w.fopenGrants w.fopenCalls = true →
      runActions acts (newFileStream path order w).stream (newFileStream path order w).world
        = some (s1, w1) →
      s1.m_alreadyWritten + s1.m_bufferLen = ((actionsBytes order acts).length : Int)) := by
  refine ⟨?_, ?_, ?_, ?_⟩
  · intro s w h
    obtain ⟨b, -, -, -, -, -, -, -, -, -, heq⟩ := spill_ok s w h
    rw [heq]
    refine ⟨rfl, rfl, ?_⟩
    show s.m_alreadyWritten + bytesToWrite s + (s.m_bufferLen - bytesToWrite s)
      = s.m_alreadyWritten + s.m_bufferLen
    omega
  · intro flush s w
    exact commit_sum flush false s w
  · intro flush s w hwf hpath h
    obtain ⟨-, f2, f3, f4, -⟩ := commit_file flush false s w hwf hpath h
    exact ⟨f4, f2, f3⟩
  · intro path order w acts s1 w1 hpath hprobe h
    rw [newFileStream_ok path order w hpath hprobe] at h
    simp only [Result.ret] at h
    obtain ⟨hA, hc, hb, hord, -, hp, haw, hlen⟩ := newFileStream_appending path order w
    obtain ⟨r1, -⟩ := runActions_sum order acts _ _ s1 w1 hA hc hb (by rw [hp]; exact hpath)
      hord h
    rw [r1, haw, hlen]
    simp

theorem persisted_plus_length_witness :
    (spill fullBuffer littleHost).stream.m_alreadyWritten
        = fullBuffer.m_alreadyWritten + bytesToWrite fullBuffer ∧
      (spill fullBuffer littleHost).stream.m_bufferLen
        = fullBuffer.m_bufferLen - bytesToWrite fullBuffer ∧
      (spill fullBuffer littleHost).stream.m_alreadyWritten
          + (spill fullBuffer littleHost).stream.m_bufferLen
        = fullBuffer.m_alreadyWritten + fullBuffer.m_bufferLen :=
  persisted_plus_length.1 fullBuffer littleHost (by decide)

theorem invariant_preserved_witness :
    Inv (writeUInt64 1
      (runOps (List.replicate 14 (Op.uint64 1))
        (newFileStream "out.bin" Endianness.LITTLE refusingHost).stream
        (newFileStream "out.bin" Endianness.LITTLE refusingHost).world).stream
      (runOps (List.replicate 14 (Op.uint64 1))
        (newFileStream "out.bin" Endianness.LITTLE refusingHost).stream
        (newFileStream "out.bin" Endianness.LITTLE refusingHost).world).world).stream :=
  (invariant_preserved _ _ (by decide)).2.2.2.2.1 1 (by decide)

/-! ### Refused growth -/

theorem reallocBuffer_refused_memory (bytes old : Nat) (s : BinaryOutputStream) (w : World)
    (hm : s.m_path = "<memory>") (hb : 0 < bytes)
    (hg : w.reallocGrants w.reallocCalls = false) :
    reallocBuffer bytes old s w =
      Result.fail Error.outOfMemoryMemory { s with m_bufferLen := old }
        { w with reallocCalls := w.reallocCalls + 1 } := by
  unfold reallocBuffer reallocBufferWith
  simp only []
  rw [if_pos (Or.inl hm), if_neg (by simp [hg]), if_pos hb]
  unfold reserveBytesWhenOutOfMemoryWith
  rw [if_pos hm]

theorem reserveBytes_refused_memory (bytes : Nat) (s : BinaryOutputStream) (w : World)
    (hm : s.m_path = "<memory>") (hb : 0 < bytes) (hlen : 0 ≤ s.m_bufferLen)
    (hgrow : s.m_bufferCapacity < max s.m_bufferLen (s.m_pos + bytes))
    (hg : w.reallocGrants w.reallocCalls = false) :
    reserveBytes bytes s w =
      Result.fail Error.outOfMemoryMemory s { w with reallocCalls := w.reallocCalls + 1 } := by
  rw [reserveBytes_eq, if_pos hgrow,
    reallocBuffer_refused_memory bytes s.m_bufferLen.toNat
      { s with m_bufferLen := max s.m_bufferLen (s.m_pos + bytes) } w hm hb hg,
    stream_restore_len s _ hlen]

/-- C20: a refused growth on an in-memory stream backs out the whole request.  When
`reallocBuffer(bytes, oldBufferLen)` is called with `bytes > 0` on an in-memory stream
and `realloc` fails, the call ends with the out-of-memory error of
`reserveBytesWhenOutOfMemory`; no spillover takes place (the file and the counts of
`fopen` and `fwrite` calls are as before); `m_bufferLen` is `oldBufferLen`, the length
before the request; cursor, capacity, persisted count (still 0 if it was 0) and the
buffer are as they were.  Seen from `reserveBytes(bytes)`, which raises the length and
passes the old one: the stream after the error is the stream before the request. -/
theorem refused_growth_backs_out (bytes oldBufferLen : Nat) (s : BinaryOutputStream)
    (w : World) (hmem : s.m_path = "<memory>") (hbytes : 0 < bytes)
    (hdenied : w.reallocGrants w.reallocCalls = false) :
    (reallocBuffer bytes oldBufferLen s w).value = Except.error Error.outOfMemoryMemory ∧
    (reallocBuffer bytes oldBufferLen s w).world.file = w.file ∧
    (reallocBuffer bytes oldBufferLen s w).world.fopenCalls = w.fopenCalls ∧
    (reallocBuffer bytes oldBufferLen s w).world.fwriteCalls = w.fwriteCalls ∧
    (reallocBuffer bytes oldBufferLen s w).stream.m_bufferLen = oldBufferLen ∧
    (reallocBuffer bytes oldBufferLen s w).stream.m_pos = s.m_pos ∧
    (reallocBuffer bytes oldBufferLen s w).stream.m_bufferCapacity = s.m_bufferCapacity ∧
    (reallocBuffer bytes oldBufferLen s w).stream.m_alreadyWritten = s.m_alreadyWritten ∧
    (s.m_alreadyWritten = 0 →
      (reallocBuffer bytes oldBufferLen s w).stream.m_alreadyWritten = 0) ∧
    (reallocBuffer bytes oldBufferLen s w).stream.m_buffer = s.m_buffer ∧
    (reallocBuffer bytes oldBufferLen s w).stream = { s with m_bufferLen := oldBufferLen } ∧
    (0 ≤ s.m_bufferLen → s.m_bufferCapacity < max s.m_bufferLen (s.m_pos + bytes) →
      (reserveBytes bytes s w).value = Except.error Error.outOfMemoryMemory ∧
      (reserveBytes bytes s w).stream = s ∧
      (reserveBytes bytes s w).world = { w with reallocCalls := w.reallocCalls + 1 }) := by
  rw [reallocBuffer_refused_memory bytes oldBufferLen s w hmem hbytes hdenied]
  refine ⟨rfl, rfl, rfl, rfl, rfl, rfl, rfl, rfl, fun h => h, rfl, rfl, ?_⟩
  intro hlen hgrow
  rw [reserveBytes_refused_memory bytes s w hmem hbytes hlen hgrow hdenied]
  exact ⟨rfl, rfl, rfl⟩

theorem refused_growth_backs_out_witness :
    (reserveBytes 8 (runOps (List.replicate 14 (Op.uint64 72623859790382856))
        (newMemoryStream Endianness.LITTLE refusingHost) refusingHost).stream
      (runOps (List.replicate 14 (Op.uint64 72623859790382856))
        (newMemoryStream Endianness.LITTLE refusingHost) refusingHost).world).stream
    = (runOps (List.replicate 14 (Op.uint64 72623859790382856))
        (newMemoryStream Endianness.LITTLE refusingHost) refusingHost).stream :=
  ((refused_growth_backs_out 8 112
    (runOps (List.replicate 14 (Op.uint64 72623859790382856))
        (newMemoryStream Endianness.LITTLE refusingHost) refusingHost).stream
    (runOps (List.replicate 14 (Op.uint64 72623859790382856))
        (newMemoryStream Endianness.LITTLE refusingHost) refusingHost).world
    (by decide) (by decide) (by decide)).2.2.2.2.2.2.2.2.2.2.2 (by decide) (by decide)).2.1

/-! ### Resource exhaustion -/

/-- C12 (the code at the failing input): inside a bit-packing span (`beginBits()` on a
fresh in-memory stream, `m_beginEndBits = 1`), `writeUInt32` fails its assertion
"can't write non-bit data within beginBits/endBits block" and leaves the cursor where
it was, but `writeUInt16(0x1234)` and `writeUInt64(0x0102030405060708)`, which carry
no such check, return normally, place 2 and 8 bytes in the buffer and advance the
cursor. -/
theorem nonbit_write_in_bits_block :
    packingStream.m_beginEndBits = 1 ∧
    (writeUInt32 305419896 packingStream littleHost).value
      = Except.error (Error.assertion Assertion.nonBitDataInBitsBlock) ∧
    (writeUInt32 305419896 packingStream littleHost).stream.m_pos = 0 ∧
    (writeUInt16 4660 packingStream littleHost).isOk = true ∧
    bufferBytes (writeUInt16 4660 packingStream littleHost).stream = [52, 18] ∧
    (writeUInt16 4660 packingStream littleHost).stream.m_pos = 2 ∧
    (writeUInt64 72623859790382856 packingStream littleHost).isOk = true ∧
    bufferBytes (writeUInt64 72623859790382856 packingStream littleHost).stream
      = [8, 7, 6, 5, 4, 3, 2, 1] ∧
    (writeUInt64 72623859790382856 packingStream littleHost).stream.m_pos = 8 := by
  refine ⟨rfl, rfl, ?_, ?_, ?_, ?_, ?_, ?_, ?_⟩ <;> decide

/-! ### Capacity -/

theorem newBufferLen_ge_all (len : Int) : len ≤ (newBufferLen len : Int) := by
  unfold newBufferLen
  by_cases h : 0 ≤ len
  · exact newBufferLen_ge len h
  · push_cast
    omega

theorem newBufferLen_eq (len : Int) (h : 0 ≤ len) :
    (newBufferLen len : Int) = (3 * len) / 2 + 100 := by
  unfold newBufferLen
  rw [Int.tdiv_eq_ediv (by omega) (by omega)]
  push_cast
  omega

/-- A property of the capacity that every granted growth establishes is kept by
`reserveBytesWhenOutOfMemory`, whatever its outcome. -/
theorem reserveBytesWhenOutOfMemoryWith_capacity (P : Int → Prop) (path : String)
    (retry : Nat → BinaryOutputStream → World → Result Unit)
    (hr : ∀ n s1 w1, s1.m_path = path → P s1.m_bufferCapacity →
      P (retry n s1 w1).stream.m_bufferCapacity)
    (bytes : Nat) (s : BinaryOutputStream) (w : World) (hpath : s.m_path = path)
    (hP : P s.m_bufferCapacity) :
    P (reserveBytesWhenOutOfMemoryWith retry bytes s w).stream.m_bufferCapacity := by
  unfold reserveBytesWhenOutOfMemoryWith
  split
  · exact hP
  split
  · exact hP
  obtain ⟨f1, -, -, f4, -⟩ := spill_frame s w
  cases hv : (spill s w).value with
  | error e =>
    rw [Result.andThen_error _ _ e hv]
    show P (spill s w).stream.m_bufferCapacity
    rw [f4]
    exact hP
  | ok a =>
    rw [Result.andThen_ok _ _ a hv]
    exact hr _ _ _ (f1.1.trans hpath) (by rw [f4]; exact hP)

theorem reallocBufferWith_capacity (P : Int → Prop) (path : String)
    (retry : Nat → BinaryOutputStream → World → Result Unit)
    (hr : ∀ n s1 w1, s1.m_path = path → P s1.m_bufferCapacity →
      P (retry n s1 w1).stream.m_bufferCapacity)
    (bytes old : Nat) (s : BinaryOutputStream) (w : World) (hpath : s.m_path = path)
    (hP : P s.m_bufferCapacity)
    (hnew : (path = "<memory>" ∨ newBufferLen s.m_bufferLen < DGP_MAX_WRITE_BUFFER_SIZE) →
      P (newBufferLen s.m_bufferLen)) :
    P (reallocBufferWith retry bytes old s w).stream.m_bufferCapacity := by
  unfold reallocBufferWith
  simp only []
  split
  · rename_i hatt
    split
    · exact hnew (by rw [← hpath]; exact hatt)
    · split
      · exact reserveBytesWhenOutOfMemoryWith_capacity P path retry hr bytes _ _ hpath hP
      · exact hP
  · split
    · exact reserveBytesWhenOutOfMemoryWith_capacity P path retry hr bytes _ _ hpath hP
    · exact hP

theorem reserveBytesFuel_capacity (P : Int → Prop) (path : String)
    (hnew : ∀ len cap : Int, cap < len → P cap →
      (path = "<memory>" ∨ newBufferLen len < DGP_MAX_WRITE_BUFFER_SIZE) →
      P (newBufferLen len))
    (fuel bytes : Nat) (s : BinaryOutputStream) (w : World) (hpath : s.m_path = path)
    (hP : P s.m_bufferCapacity) :
    P (reserveBytesFuel fuel bytes s w).stream.m_bufferCapacity := by
  induction fuel generalizing bytes s w with
  | zero => exact hP
  | succ fuel ih =>
    rw [reserveBytesFuel]
    simp only []
    split
    · rename_i hc
      exact reallocBufferWith_capacity P path (reserveBytesFuel fuel)
        (fun n s1 w1 h1 h2 => ih n s1 w1 h1 h2) bytes _ _ w hpath hP
        (fun hatt => hnew _ _ hc hP hatt)
    · exact hP

theorem reserveBytes_capacity_mono (bytes : Nat) (s : BinaryOutputStream) (w : World) :
    s.m_bufferCapacity ≤ (reserveBytes bytes s w).stream.m_bufferCapacity :=
  reserveBytesFuel_capacity (fun c => s.m_bufferCapacity ≤ c) s.m_path
    (fun len cap h1 h2 _ => by have := newBufferLen_ge_all len; omega)
    _ bytes s w rfl (le_refl _)

theorem reallocBuffer_granted (bytes old : Nat) (s : BinaryOutputStream) (w : World)
    (hatt : s.m_path = "<memory>" ∨ newBufferLen s.m_bufferLen < DGP_MAX_WRITE_BUFFER_SIZE)
    (hg : w.reallocGrants w.reallocCalls = true) :
    (reallocBuffer bytes old s w).isOk = true ∧
      (reallocBuffer bytes old s w).stream.m_bufferCapacity = newBufferLen s.m_bufferLen ∧
      (reallocBuffer bytes old s w).stream.m_bufferLen = s.m_bufferLen ∧
      (reallocBuffer bytes old s w).stream.m_pos = s.m_pos := by
  have hatt2 : s.m_path = "<memory>" ∨
      ((s.m_bufferLen * 3).tdiv 2).toNat + 100 < DGP_MAX_WRITE_BUFFER_SIZE := hatt
  unfold reallocBuffer reallocBufferWith
  simp only []
  rw [if_pos hatt2, if_pos hg]
  exact ⟨rfl, rfl, rfl, rfl⟩

theorem reserveBytesWhenOutOfMemory_room (bytes : Nat) (s : BinaryOutputStream) (w : World)
    (h : (reserveBytesWhenOutOfMemory bytes s w).isOk = true) :
    (reserveBytesWhenOutOfMemory bytes s w).stream.m_pos + bytes ≤
        (reserveBytesWhenOutOfMemory bytes s w).stream.m_bufferCapacity ∧
      s.m_bufferCapacity ≤ (reserveBytesWhenOutOfMemory bytes s w).stream.m_bufferCapacity := by
  constructor
  · obtain ⟨⟨-, -, i3⟩, i4⟩ := reserveBytesWhenOutOfMemoryWith_inv reserveBytes bytes
      (fun s w hi hk => reserveBytes_inv bytes s w hi hk) s w h
    exact le_trans i4 i3
  · exact reserveBytesWhenOutOfMemoryWith_capacity (fun c => s.m_bufferCapacity ≤ c) s.m_path
      reserveBytes (fun n s1 w1 _ h2 => le_trans h2 (reserveBytes_capacity_mono n s1 w1))
      bytes s w rfl (le_refl _)

theorem reallocBuffer_room (bytes old : Nat) (s : BinaryOutputStream) (w : World)
    (hb : 0 < bytes) (hpos : 0 ≤ s.m_pos) (hreq : s.m_pos + bytes ≤ s.m_bufferLen)
    (hgrow : s.m_bufferCapacity < s.m_bufferLen)
    (h : (reallocBuffer bytes old s w).isOk = true) :
    (reallocBuffer bytes old s w).stream.m_pos + bytes ≤
        (reallocBuffer bytes old s w).stream.m_bufferCapacity ∧
      s.m_bufferCapacity ≤ (reallocBuffer bytes old s w).stream.m_bufferCapacity := by
  constructor
  · obtain ⟨⟨-, -, i3⟩, i4⟩ := reallocBufferWith_inv reserveBytes bytes old
      (fun s w hi hk => reserveBytes_inv bytes s w hi hk) s w hpos (by omega)
      (fun h0 => by omega) h
    exact le_trans (i4 hreq) i3
  · exact reallocBufferWith_capacity (fun c => s.m_bufferCapacity ≤ c) s.m_path
      reserveBytes (fun n s1 w1 _ h2 => le_trans h2 (reserveBytes_capacity_mono n s1 w1))
      bytes old s w rfl (le_refl _)
      (fun _ => by have := newBufferLen_ge_all s.m_bufferLen; omega)

/-- C15: whenever a request to make room for `n > 0` bytes at the cursor returns
normally, `cursor + n ≤ capacity` holds afterwards and the capacity is not smaller than
before.  This holds for `reserveBytes(n)` from any state with
`0 ≤ cursor ≤ length ≤ capacity`, for `reallocBuffer(n, old)` entered as
`reserveBytes` enters it (length already raised to the required length, which covers
`cursor + n` and exceeds the capacity), and for `reserveBytesWhenOutOfMemory(n)`
(spillover and retry).  A growth that is attempted and granted, entered with required
length above the capacity, returns with the capacity set to
`floor(1.5 * required length) + 100`, which is strictly larger than the old one. -/
theorem capacity_after_request (n : Nat) (s : BinaryOutputStream) (w : World) (hn : 0 < n) :
    (Inv s → (reserveBytes n s w).isOk = true →
      (reserveBytes n s w).stream.m_pos + n ≤ (reserveBytes n s w).stream.m_bufferCapacity ∧
      s.m_bufferCapacity ≤ (reserveBytes n s w).stream.m_bufferCapacity) ∧
    (∀ old, 0 ≤ s.m_pos → s.m_pos + n ≤ s.m_bufferLen →
      s.m_bufferCapacity < s.m_bufferLen → (reallocBuffer n old s w).isOk = true →
      (reallocBuffer n old s w).stream.m_pos + n ≤
        (reallocBuffer n old s w).stream.m_bufferCapacity ∧
      s.m_bufferCapacity ≤ (reallocBuffer n old s w).stream.m_bufferCapacity) ∧
    ((reserveBytesWhenOutOfMemory n s w).isOk = true →
      (reserveBytesWhenOutOfMemory n s w).stream.m_pos + n ≤
        (reserveBytesWhenOutOfMemory n s w).stream.m_bufferCapacity ∧
      s.m_bufferCapacity ≤ (reserveBytesWhenOutOfMemory n s w).stream.m_bufferCapacity) ∧
    (∀ old, 0 ≤ s.m_bufferLen → s.m_bufferCapacity < s.m_bufferLen →
      (s.m_path = "<memory>" ∨ newBufferLen s.m_bufferLen < DGP_MAX_WRITE_BUFFER_SIZE) →
      w.reallocGrants w.reallocCalls = true →
      (reallocBuffer n old s w).isOk = true ∧
      (reallocBuffer n old s w).stream.m_bufferCapacity = (3 * s.m_bufferLen) / 2 + 100 ∧
      s.m_bufferCapacity < (reallocBuffer n old s w).stream.m_bufferCapacity) := by
  refine ⟨?_, ?_, ?_, ?_⟩
  · intro hinv h
    obtain ⟨⟨-, -, i3⟩, i4⟩ := reserveBytes_inv n s w hinv h
    exact ⟨le_trans i4 i3, reserveBytes_capacity_mono n s w⟩
  · intro old hpos hreq hgrow h
    exact reallocBuffer_room n old s w hn hpos hreq hgrow h
  · intro h
    exact reserveBytesWhenOutOfMemory_room n s w h
  · intro old hlen hgrow hatt hg
    obtain ⟨g1, g2, -, -⟩ := reallocBuffer_granted n old s w hatt hg
    have e := newBufferLen_eq s.m_bufferLen hlen
    refine ⟨g1, by rw [g2, e], ?_⟩
    rw [g2, e]
    omega

theorem capacity_after_request_witness :
    (reserveBytes 8 fullBuffer refusingHost).stream.m_pos + (8 : Nat) ≤
        (reserveBytes 8 fullBuffer refusingHost).stream.m_bufferCapacity ∧
      fullBuffer.m_bufferCapacity ≤
        (reserveBytes 8 fullBuffer refusingHost).stream.m_bufferCapacity :=
  (capacity_after_request 8 fullBuffer refusingHost (by decide)).1 (by decide) (by decide)

/-! ### The spillover policy -/

theorem bytesToWrite_eq (s : BinaryOutputStream) (h : 0 ≤ s.m_bufferLen) :
    bytesToWrite s =
      if s.m_bufferLen - 10 * 1024 * 1024 < s.m_bufferLen / 3 then s.m_bufferLen
      else s.m_bufferLen - 10 * 1024 * 1024 := by
  unfold bytesToWrite
  rw [Int.tdiv_eq_ediv h (by omega)]

theorem bytesToWrite_bounds (s : BinaryOutputStream) (h : 0 < s.m_bufferLen) :
    0 < bytesToWrite s ∧ bytesToWrite s ≤ s.m_bufferLen := by
  rw [bytesToWrite_eq s (by omega)]
  split <;> omega

theorem spill_error_ne (s : BinaryOutputStream) (w : World) (h : 0 < bytesToWrite s) :
    (spill s w).value ≠ Except.error (Error.assertion Assertion.noBytesToWrite) := by
  unfold spill
  rw [if_neg (by simpa using h)]
  repeat' split
  all_goals simp [Result.fail, Result.ret]

theorem reserveBytesFuel_noBytes (fuel bytes : Nat) (s : BinaryOutputStream) (w : World)
    (hinv : Inv s) :
    (reserveBytesFuel fuel bytes s w).value ≠
      Except.error (Error.assertion Assertion.noBytesToWrite) := by
  induction fuel generalizing s w with
  | zero => simp [reserveBytesFuel, Result.fail]
  | succ fuel ih =>
    obtain ⟨i1, i2, i3⟩ := hinv
    have hrestore := stream_restore_len s (max s.m_bufferLen (s.m_pos + bytes)) (by omega)
    have viaSpill : ∀ w0 : World, 0 < bytes →
        s.m_bufferCapacity < max s.m_bufferLen (s.m_pos + bytes) →
        (reserveBytesWhenOutOfMemoryWith (reserveBytesFuel fuel) bytes s w0).value ≠
          Except.error (Error.assertion Assertion.noBytesToWrite) := by
      intro w0 hb hc
      unfold reserveBytesWhenOutOfMemoryWith
      split
      · simp [Result.fail]
      split
      · simp [Result.fail]
      rename_i hmem hcap
      have hbt : 0 < bytesToWrite s := (bytesToWrite_bounds s (by omega)).1
      cases hv : (spill s w0).value with
      | error e =>
        rw [Result.andThen_error _ _ e hv]
        have := spill_error_ne s w0 hbt
        rw [hv] at this
        exact this
      | ok a =>
        rw [Result.andThen_ok _ _ a hv]
        exact ih _ _ (spill_inv s w0 ((Result.isOk_iff _).mpr ⟨a, hv⟩)).1
    rw [reserveBytesFuel]
    simp only []
    split
    · rename_i hc
      have hb : 0 < bytes := by
        rcases Nat.eq_zero_or_pos bytes with h0 | h0
        · subst h0; simp at hc; omega
        · exact h0
      unfold reallocBufferWith
      simp only [hrestore]
      simp only [hb, ↓reduceIte]
      split
      · split
        · simp [Result.ret]
        · exact viaSpill _ hb hc
      · exact viaSpill _ hb hc
    · simp [Result.ret]

theorem reserveBytes_refused_spills (bytes : Nat) (s : BinaryOutputStream) (w : World)
    (hb : 0 < bytes) (hlen : 0 ≤ s.m_bufferLen)
    (hgrow : s.m_bufferCapacity < max s.m_bufferLen (s.m_pos + bytes)) :
    (w.reallocGrants w.reallocCalls = false →
      (s.m_path = "<memory>" ∨
        newBufferLen (max s.m_bufferLen (s.m_pos + bytes)) < DGP_MAX_WRITE_BUFFER_SIZE) →
      reserveBytes bytes s w =
        reserveBytesWhenOutOfMemory bytes s { w with reallocCalls := w.reallocCalls + 1 }) ∧
    (¬ (s.m_path = "<memory>" ∨
        newBufferLen (max s.m_bufferLen (s.m_pos + bytes)) < DGP_MAX_WRITE_BUFFER_SIZE) →
      reserveBytes bytes s w = reserveBytesWhenOutOfMemory bytes s w) := by
  have hrestore := stream_restore_len s (max s.m_bufferLen (s.m_pos + bytes)) hlen
  constructor
  · intro hg hatt
    have hatt2 : s.m_path = "<memory>" ∨
      (((max s.m_bufferLen (s.m_pos + bytes)) * 3).tdiv 2).toNat + 100
        < DGP_MAX_WRITE_BUFFER_SIZE := hatt
    rw [reserveBytes_eq, if_pos hgrow]
    unfold reallocBuffer reallocBufferWith reserveBytesWhenOutOfMemory
    simp only [hrestore]
    rw [if_pos hatt2, if_neg (by simp [hg]), if_pos hb]
  · intro hatt
    have hatt2 : ¬ (s.m_path = "<memory>" ∨
      (((max s.m_bufferLen (s.m_pos + bytes)) * 3).tdiv 2).toNat + 100
        < DGP_MAX_WRITE_BUFFER_SIZE) := hatt
    rw [reserveBytes_eq, if_pos hgrow]
    unfold reallocBuffer reallocBufferWith reserveBytesWhenOutOfMemory
    simp only [hrestore]
    rw [if_neg hatt2, if_pos hb]

theorem reserveBytesWhenOutOfMemory_eq (bytes : Nat) (s : BinaryOutputStream) (w : World)
    (hfile : s.m_path ≠ "<memory>") (hcap : (bytes : Int) ≤ s.m_bufferCapacity) :
    reserveBytesWhenOutOfMemory bytes s w =
      (spill s w).andThen (fun _ s1 w1 => reserveBytes bytes s1 w1) := by
  unfold reserveBytesWhenOutOfMemory reserveBytesWhenOutOfMemoryWith
  rw [if_neg hfile, if_neg (by omega)]

/-- C18: the "No bytes to write" assertion of the spillover is unreachable.  On a
file-backed stream with `0 ≤ cursor ≤ length ≤ capacity` and a request of `n` bytes
with `0 < n ≤ capacity` and `cursor + n > capacity`, a refused growth (`realloc`
denied, or the candidate size not below the maximum) enters the spillover with the
stream as it was before the request, and the `bytesToWrite` computed there is strictly
positive and at most the length; neither `reserveBytesWhenOutOfMemory(n)` nor the
whole request `reserveBytes(n)`, retries included, ends with that assertion. -/
theorem no_bytes_assertion_unreachable (n : Nat) (s : BinaryOutputStream) (w : World)
    (hinv : Inv s) (hfile : s.m_path ≠ "<memory>") (hn : 0 < n)
    (hcap : (n : Int) ≤ s.m_bufferCapacity) (hneed : s.m_bufferCapacity < s.m_pos + n) :
    0 < bytesToWrite s ∧ bytesToWrite s ≤ s.m_bufferLen ∧
    (w.reallocGrants w.reallocCalls = false →
      newBufferLen (max s.m_bufferLen (s.m_pos + n)) < DGP_MAX_WRITE_BUFFER_SIZE →
      reserveBytes n s w =
        (spill s { w with reallocCalls := w.reallocCalls + 1 }).andThen
          (fun _ s1 w1 => reserveBytes n s1 w1)) ∧
    (DGP_MAX_WRITE_BUFFER_SIZE ≤ newBufferLen (max s.m_bufferLen (s.m_pos + n)) →
      reserveBytes n s w = (spill s w).andThen (fun _ s1 w1 => reserveBytes n s1 w1)) ∧
    (reserveBytesWhenOutOfMemory n s w).value ≠
      Except.error (Error.assertion Assertion.noBytesToWrite) ∧
    (reserveBytes n s w).value ≠ Except.error (Error.assertion Assertion.noBytesToWrite) := by
  obtain ⟨i1, i2, i3⟩ := hinv
  have hbt := bytesToWrite_bounds s (by omega)
  have hgrow : s.m_bufferCapacity < max s.m_bufferLen (s.m_pos + n) := by omega
  obtain ⟨e1, e2⟩ := reserveBytes_refused_spills n s w hn (by omega) hgrow
  refine ⟨hbt.1, hbt.2, ?_, ?_, ?_, ?_⟩
  · intro hg hatt
    rw [e1 hg (Or.inr hatt), reserveBytesWhenOutOfMemory_eq n s _ hfile hcap]
  · intro hatt
    rw [e2 (by intro h; rcases h with h | h; exact hfile h; omega),
      reserveBytesWhenOutOfMemory_eq n s _ hfile hcap]
  · rw [reserveBytesWhenOutOfMemory_eq n s _ hfile hcap]
    cases hv : (spill s w).value with
    | error e =>
      rw [Result.andThen_error _ _ e hv]
      have := spill_error_ne s w hbt.1
      rw [hv] at this
      exact this
    | ok a =>
      rw [Result.andThen_ok _ _ a hv]
      exact reserveBytesFuel_noBytes _ n _ _
        (spill_inv s w ((Result.isOk_iff _).mpr ⟨a, hv⟩)).1
  · exact reserveBytesFuel_noBytes _ n s w ⟨i1, i2, i3⟩

theorem no_bytes_assertion_unreachable_witness :
    0 < bytesToWrite fullBuffer ∧ bytesToWrite fullBuffer ≤ fullBuffer.m_bufferLen :=
  ⟨(no_bytes_assertion_unreachable 8 fullBuffer deniedHost (by decide) (by decide) (by decide)
      (by decide) (by decide)).1,
    (no_bytes_assertion_unreachable 8 fullBuffer deniedHost (by decide) (by decide) (by decide)
      (by decide) (by decide)).2.1⟩

/-- C16: a spillover step that goes through on a stream with buffered length `L`
writes `toWrite = L - 10 * 1024 * 1024` bytes, unless that is less than `floor(L / 3)`,
in which case `toWrite = L`: the first `toWrite` bytes of the buffer go to the file
(appended if bytes were persisted before, otherwise to a fresh file).  The length left
in memory is `L - toWrite`, which is either 0 or exactly 10,485,760, and it is
10,485,760 exactly when `L - 10,485,760 ≥ floor(L / 3)`; the retained bytes are the
last `L - toWrite` bytes of the old buffer, moved to offset 0; the cursor goes down by
`toWrite` and the persisted count goes up by `toWrite`.  On a file-backed stream this
step is what `reserveBytesWhenOutOfMemory(n)` does before it retries
`reserveBytes(n)`. -/
theorem spillover_step (s : BinaryOutputStream) (w : World)
    (h : (spill s w).isOk = true) :
    bytesToWrite s =
      (if s.m_bufferLen - 10 * 1024 * 1024 < s.m_bufferLen / 3 then s.m_bufferLen
      else s.m_bufferLen - 10 * 1024 * 1024) ∧
    (spill s w).world.file =
      (if s.m_alreadyWritten > 0 then w.file else []) ++
        (bufferBytes s).take (bytesToWrite s).toNat ∧
    (spill s w).stream.m_bufferLen = s.m_bufferLen - bytesToWrite s ∧
    ((spill s w).stream.m_bufferLen = 0 ∨ (spill s w).stream.m_bufferLen = 10485760) ∧
    ((spill s w).stream.m_bufferLen = 10485760 ↔
      s.m_bufferLen - 10485760 ≥ s.m_bufferLen / 3) ∧
    bufferBytes (spill s w).stream = (bufferBytes s).drop (bytesToWrite s).toNat ∧
    (spill s w).stream.m_pos = s.m_pos - bytesToWrite s ∧
    (spill s w).stream.m_alreadyWritten = s.m_alreadyWritten + bytesToWrite s ∧
    (∀ n : Nat, s.m_path ≠ "<memory>" → (n : Int) ≤ s.m_bufferCapacity →
      reserveBytesWhenOutOfMemory n s w =
        reserveBytes n (spill s w).stream (spill s w).world) := by
  obtain ⟨b, hb, t1, t2, t3, t4, t5, t6, -, -, hsp⟩ := spill_ok s w h
  have hbt := bytesToWrite_eq s (by omega)
  have hL : 0 < s.m_bufferLen := by omega
  refine ⟨hbt, ?_, ?_, ?_, ?_, ?_, ?_, ?_, ?_⟩
  · rw [hsp]
    simp only [Result.ret, spilledWorld]
    congr 1
    unfold bufferBytes bufferSlice
    rw [← List.map_take, List.take_range]
    congr 2
    omega
  · rw [hsp]; rfl
  · rw [hsp]
    simp only [Result.ret, spilled]
    rw [hbt]
    split <;> omega
  · rw [hsp]
    simp only [Result.ret, spilled]
    rw [hbt]
    split <;> omega
  · rw [hsp]
    simp only [Result.ret]
    unfold bufferBytes bufferSlice
    apply List.ext_getElem
    · simp [spilled]; omega
    · intro j h1 h2
      simp only [List.length_map, List.length_range, spilled] at h1
      have hj : (j : Int) < s.m_bufferLen - bytesToWrite s := by omega
      simp [byteAt, spilled, hb, hj, Nat.add_comm]
  · rw [hsp]; rfl
  · rw [hsp]; rfl
  · intro n hfile hcap
    rw [reserveBytesWhenOutOfMemory_eq n s w hfile hcap]
    obtain ⟨a, ha⟩ := (Result.isOk_iff _).mp h
    rw [Result.andThen_ok _ _ a ha]

theorem spillover_step_witness :
    (spill largeBuffer littleHost).stream.m_bufferLen = 10485760 ∧
    (spill largeBuffer littleHost).stream.m_pos = 10485760 ∧
    (spill largeBuffer littleHost).stream.m_alreadyWritten = 20971520 :=
  ⟨by
      have h := (spillover_step largeBuffer littleHost (by decide)).2.2.1
      rw [h]
      decide,
    by decide, by decide⟩

/-! ### The maximum buffer size of a file-backed stream -/

theorem capped_of_same {s s1 : BinaryOutputStream} (h : Capped s)
    (hp : s1.m_path = s.m_path) (hc : s1.m_bufferCapacity = s.m_bufferCapacity) :
    Capped s1 := by
  unfold Capped at h ⊢
  rw [hp, hc]
  exact h

theorem reserveBytes_capped (bytes : Nat) (s : BinaryOutputStream) (w : World)
    (h : Capped s) : Capped (reserveBytes bytes s w).stream := by
  refine ⟨?_, ?_⟩
  · rw [(reserveBytes_frame bytes s w).1.1]; exact h.1
  · exact reserveBytesFuel_capacity (fun c => c < (DGP_MAX_WRITE_BUFFER_SIZE : Int)) s.m_path
      (fun len cap _ _ hatt => by
        rcases hatt with hm | hlt
        · exact absurd hm h.1
        · exact_mod_cast hlt)
      _ bytes s w rfl h.2

theorem reallocBuffer_capped (bytes old : Nat) (s : BinaryOutputStream) (w : World)
    (h : Capped s) : Capped (reallocBuffer bytes old s w).stream := by
  refine ⟨?_, ?_⟩
  · rw [(reallocBuffer_config bytes old s w).1]; exact h.1
  · exact reallocBufferWith_capacity (fun c => c < (DGP_MAX_WRITE_BUFFER_SIZE : Int)) s.m_path
      reserveBytes (fun n s1 w1 hp hc => (reserveBytes_capped n s1 w1 ⟨by rw [hp]; exact h.1, hc⟩).2)
      bytes old s w rfl h.2
      (fun hatt => by
        rcases hatt with hm | hlt
        · exact absurd hm h.1
        · exact_mod_cast hlt)

theorem reserveBytesWhenOutOfMemory_capped (bytes : Nat) (s : BinaryOutputStream) (w : World)
    (h : Capped s) : Capped (reserveBytesWhenOutOfMemory bytes s w).stream := by
  refine ⟨?_, ?_⟩
  · rw [(reserveBytesWhenOutOfMemory_config bytes s w).1]; exact h.1
  · exact reserveBytesWhenOutOfMemoryWith_capacity
      (fun c => c < (DGP_MAX_WRITE_BUFFER_SIZE : Int)) s.m_path
      reserveBytes (fun n s1 w1 hp hc => (reserveBytes_capped n s1 w1 ⟨by rw [hp]; exact h.1, hc⟩).2)
      bytes s w rfl h.2

theorem andThen_always {α β : Type} (P : BinaryOutputStream → Prop) (r : Result α)
    (k : α → BinaryOutputStream → World → Result β) (h1 : P r.stream)
    (h2 : ∀ x s1 w1, P s1 → P (k x s1 w1).stream) : P (r.andThen k).stream := by
  cases hv : r.value with
  | error e => rw [Result.andThen_error _ _ e hv]; exact h1
  | ok a => rw [Result.andThen_ok _ _ a hv]; exact h2 a _ _ h1

theorem store_capped (s : BinaryOutputStream) (i : Int) (bs : List Nat) (w : World) (d : Int)
    (h : Capped s) :
    Capped
      (match storeBytes s i bs with
        | none => (Result.fail Error.memoryFault s w : Result Unit)
        | some s2 => Result.ret () { s2 with m_pos := s2.m_pos + d } w).stream := by
  cases hst : storeBytes s i bs with
  | none => exact h
  | some s2 =>
    have := storeBytes_fields _ _ _ _ hst
    simp only [Result.ret]
    rw [this]
    exact h

theorem putBytes_capped (bs : List Nat) (s : BinaryOutputStream) (w : World) (h : Capped s) :
    Capped (putBytes bs s w).stream := by
  unfold putBytes
  exact andThen_always Capped _ _ (reserveBytes_capped _ s w h)
    (fun _ s1 w1 h1 => store_capped s1 _ _ w1 _ h1)

theorem writeUInt8_capped (i : Nat) (s : BinaryOutputStream) (w : World) (h : Capped s) :
    Capped (writeUInt8 i s w).stream := by
  rw [writeUInt8_eq]; exact putBytes_capped _ s w h

theorem writeUInt16_capped (u : Nat) (s : BinaryOutputStream) (w : World) (h : Capped s) :
    Capped (writeUInt16 u s w).stream := by
  rw [writeUInt16_eq]; exact putBytes_capped _ s w h

theorem writeUInt64_capped (u : Nat) (s : BinaryOutputStream) (w : World) (h : Capped s) :
    Capped (writeUInt64 u s w).stream := by
  rw [writeUInt64_eq]; exact putBytes_capped _ s w h

theorem writeUInt32_capped (u : Nat) (s : BinaryOutputStream) (w : World) (h : Capped s) :
    Capped (writeUInt32 u s w).stream := by
  unfold writeUInt32
  apply andThen_always Capped _ _ (reserveBytes_capped 4 s w h)
  intro _ s1 w1 h1
  split
  · exact h1
  · exact store_capped s1 _ _ w1 4 h1

theorem writeBytes_capped (n : Int) (b : List Nat) (s : BinaryOutputStream) (w : World)
    (h : Capped s) : Capped (writeBytes n b s w).stream := by
  unfold writeBytes
  split
  · exact h
  · apply andThen_always Capped _ _ (reserveBytes_capped _ s w h)
    intro _ s1 w1 h1
    exact store_capped s1 _ _ w1 n h1

theorem writePadding_capped (k : Nat) (s : BinaryOutputStream) (w : World) (h : Capped s) :
    Capped (writePadding k s w).stream := by
  induction k generalizing s w with
  | zero => exact h
  | succ k ih =>
    rw [writePadding]
    exact andThen_always Capped _ _ (writeUInt8_capped 0 s w h) (fun _ s1 w1 h1 => ih s1 w1 h1)

theorem writeAlignedString_capped (str : List Nat) (a : Int) (s : BinaryOutputStream)
    (w : World) (h : Capped s) : Capped (writeAlignedString str a s w).stream := by
  unfold writeAlignedString writeInt32
  apply andThen_always Capped _ _ (writeUInt32_capped _ s w h)
  intro _ s1 w1 h1
  apply andThen_always Capped _ _ (writeBytes_capped _ _ s1 w1 h1)
  intro _ s2 w2 h2
  split
  · exact h2
  · simp only []
    split
    · exact writePadding_capped _ s2 w2 h2
    · exact h2

theorem writeBitsLoop_capped (n v : Nat) (s : BinaryOutputStream) (w : World) (h : Capped s) :
    Capped (writeBitsLoop n v s w).stream := by
  induction n generalizing v s w with
  | zero => exact h
  | succ n ih =>
    rw [writeBitsLoop]
    simp only []
    split
    · refine andThen_always Capped _ _ ?_ ?_
      · exact writeUInt8_capped _ _ w h
      · intro _ s1 w1 h1
        exact ih _ _ w1 h1
    · exact ih _ _ w h

theorem writeBits_capped (n : Int) (v : Nat) (s : BinaryOutputStream) (w : World)
    (h : Capped s) : Capped (writeBits n v s w).stream := by
  unfold writeBits
  split
  · exact h
  · exact writeBitsLoop_capped _ _ s w h

theorem endBits_capped (s : BinaryOutputStream) (w : World) (h : Capped s) :
    Capped (endBits s w).stream := by
  unfold endBits
  split
  · exact h
  · refine andThen_always Capped _ _ ?_ (fun _ s1 w1 h1 => h1)
    split
    · exact writeUInt8_capped _ s w h
    · exact h

theorem beginBits_capped (s : BinaryOutputStream) (w : World) (h : Capped s) :
    Capped (beginBits s w).stream := by
  unfold beginBits
  split
  · exact h
  · exact h

theorem reset_capped (s : BinaryOutputStream) (w : World) (h : Capped s) :
    Capped (reset s w).stream := by
  unfold reset
  repeat' split
  all_goals exact h

theorem commit_capped (flush force : Bool) (s : BinaryOutputStream) (w : World)
    (h : Capped s) : Capped (_commit flush force s w).stream := by
  obtain ⟨-, c2, c3, -⟩ := commit_rest flush force s w
  exact capped_of_same h c3 c2

/-- Every call keeps a file-backed stream file-backed and its capacity below the
maximum, whether the call returns or not. -/
theorem call_keeps_capped (c : Call) (s : BinaryOutputStream) (w : World) (h : Capped s) :
    Capped (runCall c s w).1 := by
  cases c with
  | setEndianness endian => exact h
  | commit flush => exact commit_capped flush false s w h
  | reset => exact reset_capped s w h
  | writeUInt8 i => exact writeUInt8_capped i s w h
  | writeBytes n b => exact writeBytes_capped n b s w h
  | writeInt32 i => exact writeUInt32_capped _ s w h
  | writeUInt16 u => exact writeUInt16_capped u s w h
  | writeUInt32 u => exact writeUInt32_capped u s w h
  | writeUInt64 u => exact writeUInt64_capped u s w h
  | writeAlignedString str a => exact writeAlignedString_capped str a s w h
  | beginBits => exact beginBits_capped s w h
  | writeBits n v => exact writeBits_capped n v s w h
  | endBits => exact endBits_capped s w h
  | reserveBytes bytes => exact reserveBytes_capped bytes s w h
  | reallocBuffer bytes old => exact reallocBuffer_capped bytes old s w h
  | reserveBytesWhenOutOfMemory bytes => exact reserveBytesWhenOutOfMemory_capped bytes s w h

theorem newFileStream_capped (path : String) (endian : Endianness) (w : World)
    (hpath : path ≠ "<memory>") : Capped (newFileStream path endian w).stream := by
  have h0 : Capped (setEndianness endian (initialFields path) w) := by
    refine ⟨hpath, ?_⟩
    simp [setEndianness, initialFields, DGP_MAX_WRITE_BUFFER_SIZE]
  unfold newFileStream
  exact andThen_always Capped _ _ (commit_capped false true _ w h0) (fun _ s1 w1 h1 => h1)

theorem reachable_capped (path : String) (endian : Endianness) (w0 : World)
    (hpath : path ≠ "<memory>") (s : BinaryOutputStream) (w : World)
    (h : ReachableFrom (newFileStream path endian w0).stream
      (newFileStream path endian w0).world s w) : Capped s := by
  induction h with
  | start => exact newFileStream_capped path endian w0 hpath
  | step c s w _ ih => exact call_keeps_capped c s w ih

theorem reallocBuffer_not_attempted (bytes old : Nat) (s : BinaryOutputStream) (w : World)
    (hfile : s.m_path ≠ "<memory>") (hb : 0 < bytes)
    (hbig : DGP_MAX_WRITE_BUFFER_SIZE ≤ newBufferLen s.m_bufferLen) :
    reallocBuffer bytes old s w =
      reserveBytesWhenOutOfMemory bytes { s with m_bufferLen := old } w := by
  have hatt : ¬ (s.m_path = "<memory>" ∨
      ((s.m_bufferLen * 3).tdiv 2).toNat + 100 < DGP_MAX_WRITE_BUFFER_SIZE) := by
    intro h
    rcases h with h | h
    · exact hfile h
    · unfold newBufferLen at hbig; omega
  unfold reallocBuffer reallocBufferWith reserveBytesWhenOutOfMemory
  simp only []
  rw [if_neg hatt, if_pos hb]

/-- C19: for a file-backed stream, in every state reachable from construction by any
sequence of calls (public or private, returning or not), the buffer capacity is
strictly less than `DGP_MAX_WRITE_BUFFER_SIZE` = 400,000,000.  Growth is attempted
only when the candidate size is below that maximum: a granted growth sets the capacity
to the candidate, and when the candidate is not below the maximum `reallocBuffer`
calls no `realloc` and hands the request to `reserveBytesWhenOutOfMemory`, which
spills buffered data to the file before the retry (or raises the out-of-memory error
when the request exceeds the capacity).  (An array writer is a sequence of these calls,
so the states it reaches are among those covered.) -/
theorem file_capacity_below_maximum (path : String) (endian : Endianness) (w0 : World)
    (hpath : path ≠ "<memory>") (s : BinaryOutputStream) (w : World)
    (h : ReachableFrom (newFileStream path endian w0).stream
      (newFileStream path endian w0).world s w) :
    s.m_bufferCapacity < 400000000 ∧
    s.m_bufferCapacity < DGP_MAX_WRITE_BUFFER_SIZE ∧
    (∀ bytes old, (reallocBuffer bytes old s w).stream.m_bufferCapacity ≠ s.m_bufferCapacity →
      (reallocBuffer bytes old s w).stream.m_bufferCapacity < DGP_MAX_WRITE_BUFFER_SIZE) ∧
    (∀ bytes old, 0 < bytes → DGP_MAX_WRITE_BUFFER_SIZE ≤ newBufferLen s.m_bufferLen →
      reallocBuffer bytes old s w =
        reserveBytesWhenOutOfMemory bytes { s with m_bufferLen := old } w) ∧
    (∀ bytes : Nat, (bytes : Int) ≤ s.m_bufferCapacity →
      reserveBytesWhenOutOfMemory bytes s w =
        (spill s w).andThen (fun _ s1 w1 => reserveBytes bytes s1 w1)) ∧
    (∀ bytes : Nat, s.m_bufferCapacity < (bytes : Int) →
      reserveBytesWhenOutOfMemory bytes s w = Result.fail Error.outOfMemoryDisk s w) := by
  have hc := reachable_capped path endian w0 hpath s w h
  refine ⟨hc.2, hc.2, ?_, ?_, ?_, ?_⟩
  · intro bytes old _
    exact (reallocBuffer_capped bytes old s w hc).2
  · intro bytes old hb hbig
    exact reallocBuffer_not_attempted bytes old s w hc.1 hb hbig
  · intro bytes hle
    exact reserveBytesWhenOutOfMemory_eq bytes s w hc.1 hle
  · intro bytes hlt
    unfold reserveBytesWhenOutOfMemory reserveBytesWhenOutOfMemoryWith
    rw [if_neg hc.1, if_pos (by omega)]

theorem file_capacity_below_maximum_witness :
    (runCall (Call.writeUInt32 305419896)
      (newFileStream "out.bin" Endianness.LITTLE littleHost).stream
      (newFileStream "out.bin" Endianness.LITTLE littleHost).world).1.m_bufferCapacity
        < 400000000 :=
  (file_capacity_below_maximum "out.bin" Endianness.LITTLE littleHost (by decide) _ _
    (ReachableFrom.step (Call.writeUInt32 305419896) _ _ ReachableFrom.start)).1

/-! ### The spill-and-retry recursion -/

theorem reserveBytes_cases (n : Nat) (s : BinaryOutputStream) (w : World)
    (hn : 0 < n) (hlen : 0 ≤ s.m_bufferLen) :
    reserveBytes n s w =
        Result.ret () { s with m_bufferLen := max s.m_bufferLen (s.m_pos + n) } w ∨
      (∃ s1, reserveBytes n s w =
        Result.ret () s1 { w with reallocCalls := w.reallocCalls + 1 }) ∨
      (s.m_bufferCapacity < max s.m_bufferLen (s.m_pos + n) ∧
        (reserveBytes n s w = reserveBytesWhenOutOfMemory n s w ∨
         reserveBytes n s w =
          reserveBytesWhenOutOfMemory n s { w with reallocCalls := w.reallocCalls + 1 })) := by
  by_cases hfit : max s.m_bufferLen (s.m_pos + n) ≤ s.m_bufferCapacity
  · exact Or.inl (reserveBytes_fits n s w hfit)
  · have hgrow : s.m_bufferCapacity < max s.m_bufferLen (s.m_pos + n) := by omega
    obtain ⟨e1, e2⟩ := reserveBytes_refused_spills n s w hn hlen hgrow
    by_cases hatt : s.m_path = "<memory>" ∨
        newBufferLen (max s.m_bufferLen (s.m_pos + n)) < DGP_MAX_WRITE_BUFFER_SIZE
    · by_cases hg : w.reallocGrants w.reallocCalls = true
      · refine Or.inr (Or.inl ?_)
        have hatt2 : s.m_path = "<memory>" ∨
          (((max s.m_bufferLen (s.m_pos + n)) * 3).tdiv 2).toNat + 100
            < DGP_MAX_WRITE_BUFFER_SIZE := hatt
        rw [reserveBytes_eq, if_pos hgrow]
        unfold reallocBuffer reallocBufferWith
        simp only []
        rw [if_pos hatt2, if_pos hg]
        exact ⟨_, rfl⟩
      · exact Or.inr (Or.inr ⟨hgrow, Or.inr (e1 (by simpa using hg) hatt)⟩)
    · exact Or.inr (Or.inr ⟨hgrow, Or.inl (e2 hatt)⟩)

theorem spill_returns (s : BinaryOutputStream) (w : World) (b : Nat → Nat)
    (hb : s.m_buffer = some b) (hinv : Inv s) (happ : s.m_pos = s.m_bufferLen)
    (hL : 0 < s.m_bufferLen)
    (hio : w.fopenGrants w.fopenCalls = true ∧ w.fwriteGrants w.fwriteCalls = true) :
    spill s w = Result.ret () (spilled s b) (spilledWorld s w) := by
  obtain ⟨i1, i2, i3⟩ := hinv
  obtain ⟨t1, t2⟩ := bytesToWrite_bounds s hL
  unfold spill
  rw [if_neg (by simpa using t1), if_neg (by simp [hio.1]), hb]
  simp only []
  rw [if_neg (by simp only [not_not]; omega), if_neg (by simp [hio.2]),
    if_neg (by simp only [not_not]; omega), if_neg (by simp only [not_not]; omega),
    if_neg (by simp only [not_not]; omega), if_neg (by simp only [not_not]; omega),
    if_neg (by simp only [not_not]; omega)]

theorem spill_fopenCalls (s : BinaryOutputStream) (w : World) :
    (spill s w).world.fopenCalls ≤ w.fopenCalls + 1 := by
  unfold spill
  split
  · simp [Result.fail]
  split
  · simp [Result.fail]
  repeat' split
  all_goals simp [Result.fail, Result.ret, spilledWorld]


theorem spillsAtMost_zero (n : Nat) (s : BinaryOutputStream) (w : World)
    (hpos : s.m_pos = 0) (hlen : s.m_bufferLen = 0) (hcap : (n : Int) ≤ s.m_bufferCapacity) :
    SpillsAtMost 0 n s w := by
  have e := reserveBytes_fits n s w (by rw [hlen, hpos]; simp; omega)
  unfold SpillsAtMost
  rw [e]
  refine ⟨by simp [Result.ret], fun _ => rfl, fun _ _ => ⟨hpos, ?_, rfl⟩⟩
  simp only [Result.ret]
  rw [hlen, hpos]
  simp

theorem spillsAtMost_step (m n : Nat) (s : BinaryOutputStream) (w : World)
    (hfile : s.m_path ≠ "<memory>") (hinv : Inv s) (happ : s.m_pos = s.m_bufferLen)
    (hbuf : s.m_buffer.isSome = true) (hn : 0 < n) (hcap : (n : Int) ≤ s.m_bufferCapacity)
    (next : ∀ b w0, s.m_buffer = some b → 0 < s.m_bufferLen →
      SpillsAtMost m n (spilled s b) (spilledWorld s w0)) :
    SpillsAtMost (m + 1) n s w := by
  obtain ⟨i1, i2, i3⟩ := hinv
  obtain ⟨b, hb⟩ := Option.isSome_iff_exists.mp hbuf
  have viaSpill : ∀ w0 : World, w0.fopenCalls = w.fopenCalls →
      w0.fopenGrants = w.fopenGrants → w0.fwriteGrants = w.fwriteGrants →
      s.m_bufferCapacity < max s.m_bufferLen (s.m_pos + n) →
      reserveBytes n s w = reserveBytesWhenOutOfMemory n s w0 →
      SpillsAtMost (m + 1) n s w := by
    intro w0 h1 h2 h3 hgrow e
    rw [reserveBytesWhenOutOfMemory_eq n s w0 hfile hcap] at e
    have hL : 0 < s.m_bufferLen := by omega
    by_cases hio0 : w0.fopenGrants w0.fopenCalls = true ∧ w0.fwriteGrants w0.fwriteCalls = true
    · have hsp := spill_returns s w0 b hb ⟨i1, i2, i3⟩ happ hL hio0
      rw [hsp, Result.andThen_ok _ _ () rfl] at e
      obtain ⟨n1, n2, n3⟩ := next b w0 hb hL
      unfold SpillsAtMost
      rw [e]
      simp only [Result.ret] at n1 n2 n3 ⊢
      refine ⟨?_, ?_, ?_⟩
      · have hw : (spilledWorld s w0).fopenCalls = w0.fopenCalls + 1 := rfl
        omega
      · intro hio
        apply n2
        intro k
        simp only [spilledWorld]
        rw [h2, h3]
        exact hio k
      · intro hk hc
        have hw : (spilledWorld s w0).fopenCalls = w0.fopenCalls + 1 := rfl
        have := n3 hk (by omega)
        simpa [spilled] using this
    · have hfail : ¬ ((spill s w0).isOk = true) := by
        intro hk
        obtain ⟨_, _, _, _, _, _, _, _, g1, g2, _⟩ := spill_ok s w0 hk
        exact hio0 ⟨g1, g2⟩
      cases hv : (spill s w0).value with
      | ok a => exact absurd ((Result.isOk_iff _).mpr ⟨a, hv⟩) hfail
      | error err =>
        rw [Result.andThen_error _ _ err hv] at e
        unfold SpillsAtMost
        rw [e]
        refine ⟨?_, ?_, ?_⟩
        · have := spill_fopenCalls s w0
          simp only []
          omega
        · intro hio
          exfalso
          apply hio0
          rw [h2, h3]
          exact ⟨(hio _).1, (hio _).2⟩
        · intro hk
          simp [Result.isOk] at hk
  rcases reserveBytes_cases n s w hn (by omega) with e | ⟨s1, e⟩ | ⟨hgrow, e | e⟩
  · unfold SpillsAtMost
    rw [e]
    refine ⟨by simp [Result.ret], fun _ => rfl, fun _ hc => ?_⟩
    simp only [Result.ret] at hc
    omega
  · unfold SpillsAtMost
    rw [e]
    refine ⟨by simp [Result.ret], fun _ => rfl, fun _ hc => ?_⟩
    simp only [Result.ret] at hc
    omega
  · exact viaSpill w rfl rfl rfl hgrow e
  · exact viaSpill { w with reallocCalls := w.reallocCalls + 1 } rfl rfl rfl hgrow e

theorem spillsAtMost_one (n : Nat) (s : BinaryOutputStream) (w : World)
    (hfile : s.m_path ≠ "<memory>") (hinv : Inv s) (happ : s.m_pos = s.m_bufferLen)
    (hbuf : s.m_buffer.isSome = true) (hn : 0 < n) (hcap : (n : Int) ≤ s.m_bufferCapacity)
    (hwhole : bytesToWrite s = s.m_bufferLen) : SpillsAtMost 1 n s w := by
  apply spillsAtMost_step 0 n s w hfile hinv happ hbuf hn hcap
  intro b w0 _ _
  apply spillsAtMost_zero
  · simp only [spilled]; omega
  · simp only [spilled]; omega
  · exact hcap

theorem spillsAtMost_two (n : Nat) (s : BinaryOutputStream) (w : World)
    (hfile : s.m_path ≠ "<memory>") (hinv : Inv s) (happ : s.m_pos = s.m_bufferLen)
    (hbuf : s.m_buffer.isSome = true) (hn : 0 < n) (hcap : (n : Int) ≤ s.m_bufferCapacity) :
    SpillsAtMost 2 n s w := by
  apply spillsAtMost_step 1 n s w hfile hinv happ hbuf hn hcap
  intro b w0 _ hL
  obtain ⟨i1, i2, i3⟩ := hinv
  obtain ⟨t1, t2⟩ := bytesToWrite_bounds s hL
  have hbt := bytesToWrite_eq s (by omega)
  have hrest : s.m_bufferLen - bytesToWrite s = 0 ∨ s.m_bufferLen - bytesToWrite s = 10485760 := by
    rw [hbt]; split <;> omega
  apply spillsAtMost_one n (spilled s b) (spilledWorld s w0) hfile
  · simp only [Inv, spilled]; omega
  · simp only [spilled]; omega
  · simp [spilled]
  · exact hn
  · exact hcap
  · rw [bytesToWrite_eq _ (by simp only [spilled]; omega)]
    simp only [spilled]
    rcases hrest with h0 | h0 <;> rw [h0] <;> simp

/-- C17: the spill-and-retry recursion terminates.  On a file-backed stream with
`0 ≤ cursor = length ≤ capacity` (and a buffer allocated), a request `reserveBytes(n)`
with `0 < n ≤ capacity` never runs out of the recursion's fuel and goes through at most
two spillover steps (each step opens the file once), whatever `realloc` answers on each
growth attempt; when `fopen` and `fwrite` succeed it returns; and when it returns after
two steps, the second step has left length = cursor = 0, so that `n` fits without
growth: the request ends with cursor 0, length `n` and the capacity it started
with. -/
theorem spill_retry_terminates (n : Nat) (s : BinaryOutputStream) (w : World)
    (hfile : s.m_path ≠ "<memory>") (hA : Appending s w) (hn : 0 < n)
    (hcap : (n : Int) ≤ s.m_bufferCapacity) :
    (reserveBytes n s w).value ≠ Except.error Error.fuelExhausted ∧
    (reserveBytes n s w).world.fopenCalls ≤ w.fopenCalls + 2 ∧
    ((∀ k, w.fopenGrants k = true ∧ w.fwriteGrants k = true) →
      (reserveBytes n s w).isOk = true) ∧
    ((reserveBytes n s w).isOk = true →
      (reserveBytes n s w).world.fopenCalls = w.fopenCalls + 2 →
      (reserveBytes n s w).stream.m_pos = 0 ∧ (reserveBytes n s w).stream.m_bufferLen = n ∧
      (reserveBytes n s w).stream.m_bufferCapacity = s.m_bufferCapacity) := by
  obtain ⟨⟨hinv, hbuf, -⟩, happ⟩ := hA
  obtain ⟨h1, h2, h3⟩ := spillsAtMost_two n s w hfile hinv happ (hbuf (by omega)) hn hcap
  exact ⟨reserveBytes_ne_fuelExhausted n s w, h1, h2, h3⟩

theorem spill_retry_terminates_witness :
    (reserveBytes 26214400 largeBuffer deniedHost).isOk = true ∧
    (reserveBytes 26214400 largeBuffer deniedHost).world.fopenCalls = 2 ∧
    (reserveBytes 26214400 largeBuffer deniedHost).stream.m_bufferLen = 26214400 :=
  ⟨(spill_retry_terminates 26214400 largeBuffer deniedHost (by decide) (by decide) (by decide)
      (by decide)).2.2.1 (fun _ => ⟨rfl, rfl⟩),
    by decide, by decide⟩

/-! ### The swap flag does not influence capacity management -/

theorem spill_returns_of (s : BinaryOutputStream) (w : World) (b : Nat → Nat)
    (hb : s.m_buffer = some b) (h1 : 0 < bytesToWrite s) (h2 : bytesToWrite s ≤ s.m_pos)
    (h3 : s.m_pos ≤ s.m_bufferLen) (h4 : s.m_bufferLen ≤ s.m_bufferCapacity)
    (h5 : s.m_bufferLen - bytesToWrite s < s.m_bufferCapacity)
    (h6 : bytesToWrite s ≤ s.m_bufferLen)
    (h7 : w.fopenGrants w.fopenCalls = true) (h8 : w.fwriteGrants w.fwriteCalls = true) :
    spill s w = Result.ret () (spilled s b) (spilledWorld s w) := by
  unfold spill
  rw [if_neg (by simpa using h1), if_neg (by simp [h7]), hb]
  simp only []
  rw [if_neg (by simp only [not_not]; omega), if_neg (by simp [h8]),
    if_neg (by simp only [not_not]; omega), if_neg (by simp only [not_not]; omega),
    if_neg (by simp only [not_not]; omega), if_neg (by simp only [not_not]; omega),
    if_neg (by simp only [not_not]; omega)]

theorem isOk_ret {α : Type} (a : α) (s : BinaryOutputStream) (w : World) :
    (Result.ret a s w).isOk = true := rfl

theorem spill_swap (b : Bool) (s : BinaryOutputStream) (w : World) :
    SwapImage b (spill { s with m_swapBytes := b } w) (spill s w) := by
  have key : ∀ (s1 s2 : BinaryOutputStream), s2 = { s1 with m_swapBytes := s2.m_swapBytes } →
      (spill s1 w).isOk = true →
      spill s2 w = Result.ret () { (spill s1 w).stream with m_swapBytes := s2.m_swapBytes }
        (spill s1 w).world := by
    intro s1 s2 he hk
    obtain ⟨f, hb, t1, t2, t3, t4, t5, t6, t7, t8, hsp⟩ := spill_ok s1 w hk
    have e : bytesToWrite s2 = bytesToWrite s1 := by rw [he]; rfl
    have hb2 : s2.m_buffer = some f := by rw [he]; exact hb
    have g1 : s2.m_pos = s1.m_pos := by rw [he]
    have g2 : s2.m_bufferLen = s1.m_bufferLen := by rw [he]
    have g3 : s2.m_bufferCapacity = s1.m_bufferCapacity := by rw [he]
    rw [spill_returns_of s2 w f hb2 (by omega) (by omega) (by omega) (by omega) (by omega)
      (by omega) t7 t8, hsp]
    simp only [Result.ret, spilled, spilledWorld, bufferSlice, byteAt, e, g1, g2, hb, hb2]
    have g4 : s2.m_alreadyWritten = s1.m_alreadyWritten := by rw [he]
    rw [g4]
    congr 1
    rw [he]
  by_cases hk : (spill s w).isOk = true
  · have := key s { s with m_swapBytes := b } rfl hk
    refine ⟨by rw [this, hk]; rfl, fun _ => ?_⟩
    rw [this]
    exact ⟨rfl, rfl⟩
  · refine ⟨?_, fun h => absurd h hk⟩
    have hk2 : ¬ (spill { s with m_swapBytes := b } w).isOk = true := by
      intro h2
      have := key { s with m_swapBytes := b } s (by cases s; rfl) h2
      rw [this] at hk
      exact hk rfl
    cases h1 : (spill { s with m_swapBytes := b } w).isOk
    · cases h2 : (spill s w).isOk
      · rfl
      · exact absurd h2 hk
    · exact absurd h1 hk2


theorem swapImage_fail (b : Bool) (e1 e2 : Error) (s1 s2 : BinaryOutputStream)
    (w1 w2 : World) : SwapImage b (Result.fail e1 s1 w1) (Result.fail e2 s2 w2) :=
  ⟨rfl, fun h => by simp [Result.isOk, Result.fail] at h⟩

theorem swapImage_ret (b : Bool) (s : BinaryOutputStream) (w : World) :
    SwapImage b (Result.ret () { s with m_swapBytes := b } w) (Result.ret () s w) :=
  ⟨rfl, fun _ => ⟨rfl, rfl⟩⟩

theorem swapImage_andThen (b : Bool) (r1 r : Result Unit)
    (k1 k : Unit → BinaryOutputStream → World → Result Unit) (h : SwapImage b r1 r)
    (hk : ∀ s w, SwapImage b (k1 () { s with m_swapBytes := b } w) (k () s w)) :
    SwapImage b (r1.andThen k1) (r.andThen k) := by
  obtain ⟨h1, h2⟩ := h
  cases hv : r.value with
  | ok a =>
    have hok : r.isOk = true := (Result.isOk_iff _).mpr ⟨a, hv⟩
    obtain ⟨a1, hv1⟩ := (Result.isOk_iff _).mp (h1.trans hok)
    obtain ⟨e1, e2⟩ := h2 hok
    rw [Result.andThen_ok _ _ a hv, Result.andThen_ok _ _ a1 hv1, e1, e2]
    exact hk _ _
  | error e =>
    have hno : r.isOk = false := by simp [Result.isOk, hv]
    cases hv1 : r1.value with
    | ok a1 =>
      have : r1.isOk = true := (Result.isOk_iff _).mpr ⟨a1, hv1⟩
      rw [h1, hno] at this
      exact absurd this (by simp)
    | error e1 =>
      rw [Result.andThen_error _ _ e hv, Result.andThen_error _ _ e1 hv1]
      exact ⟨rfl, fun h => by simp [Result.isOk] at h⟩

theorem reserveBytesWhenOutOfMemoryWith_swap (b : Bool)
    (retry : Nat → BinaryOutputStream → World → Result Unit)
    (hr : ∀ n s w, SwapImage b (retry n { s with m_swapBytes := b } w) (retry n s w))
    (bytes : Nat) (s : BinaryOutputStream) (w : World) :
    SwapImage b (reserveBytesWhenOutOfMemoryWith retry bytes { s with m_swapBytes := b } w)
      (reserveBytesWhenOutOfMemoryWith retry bytes s w) := by
  unfold reserveBytesWhenOutOfMemoryWith
  simp only []
  by_cases hm : s.m_path = "<memory>"
  · rw [if_pos hm, if_pos hm]
    exact swapImage_fail b _ _ _ _ _ _
  · rw [if_neg hm, if_neg hm]
    by_cases hc : (bytes : Int) > s.m_bufferCapacity
    · rw [if_pos hc, if_pos hc]
      exact swapImage_fail b _ _ _ _ _ _
    · rw [if_neg hc, if_neg hc]
      exact swapImage_andThen b _ _ _ _ (spill_swap b s w) (fun s1 w1 => hr bytes s1 w1)

theorem reallocBufferWith_swap (b : Bool)
    (retry : Nat → BinaryOutputStream → World → Result Unit)
    (hr : ∀ n s w, SwapImage b (retry n { s with m_swapBytes := b } w) (retry n s w))
    (bytes old : Nat) (s : BinaryOutputStream) (w : World) :
    SwapImage b (reallocBufferWith retry bytes old { s with m_swapBytes := b } w)
      (reallocBufferWith retry bytes old s w) := by
  have h1 := reserveBytesWhenOutOfMemoryWith_swap b retry hr bytes
    { s with m_bufferLen := old } { w with reallocCalls := w.reallocCalls + 1 }
  have h2 := reserveBytesWhenOutOfMemoryWith_swap b retry hr bytes
    { s with m_bufferLen := old } w
  unfold reallocBufferWith
  simp only []
  split
  · split
    · exact ⟨rfl, fun _ => ⟨rfl, rfl⟩⟩
    · split
      · exact h1
      · exact ⟨rfl, fun _ => ⟨rfl, rfl⟩⟩
  · split
    · exact h2
    · exact ⟨rfl, fun _ => ⟨rfl, rfl⟩⟩

theorem reserveBytesFuel_swap (b : Bool) (fuel bytes : Nat) (s : BinaryOutputStream)
    (w : World) :
    SwapImage b (reserveBytesFuel fuel bytes { s with m_swapBytes := b } w)
      (reserveBytesFuel fuel bytes s w) := by
  induction fuel generalizing bytes s w with
  | zero => exact swapImage_fail b _ _ _ _ _ _
  | succ fuel ih =>
    have h1 := reallocBufferWith_swap b (reserveBytesFuel fuel) (fun n s w => ih n s w) bytes
      s.m_bufferLen.toNat { s with m_bufferLen := max s.m_bufferLen (s.m_pos + bytes) } w
    rw [reserveBytesFuel, reserveBytesFuel]
    simp only []
    split
    · exact h1
    · exact ⟨rfl, fun _ => ⟨rfl, rfl⟩⟩

theorem reserveBytes_swap (b : Bool) (bytes : Nat) (s : BinaryOutputStream) (w : World) :
    SwapImage b (reserveBytes bytes { s with m_swapBytes := b } w) (reserveBytes bytes s w) :=
  reserveBytesFuel_swap b _ bytes s w

theorem storeBytes_swap (b : Bool) (s : BinaryOutputStream) (i : Int) (bs : List Nat) :
    storeBytes { s with m_swapBytes := b } i bs =
      (storeBytes s i bs).map (fun s2 => { s2 with m_swapBytes := b }) := by
  unfold storeBytes
  simp only []
  split
  · rfl
  · cases s.m_buffer with
    | none => rfl
    | some f =>
      simp only []
      split <;> rfl

theorem putBytes_swap (b : Bool) (bs : List Nat) (s : BinaryOutputStream) (w : World) :
    SwapImage b (putBytes bs { s with m_swapBytes := b } w) (putBytes bs s w) := by
  unfold putBytes
  apply swapImage_andThen b _ _ _ _ (reserveBytes_swap b bs.length s w)
  intro s1 w1
  simp only []
  rw [storeBytes_swap]
  cases storeBytes s1 s1.m_pos bs with
  | none => exact swapImage_fail b _ _ _ _ _ _
  | some s2 => exact ⟨rfl, fun _ => ⟨rfl, rfl⟩⟩

/-! ### What placing bytes at the cursor changes -/

theorem bufferSlice_add (s : BinaryOutputStream) (a b c : Nat) :
    bufferSlice s a (b + c) = bufferSlice s a b ++ bufferSlice s (a + b) c := by
  simp [bufferSlice, List.range_add, List.map_map, Function.comp_def, Nat.add_assoc]

/-- The effect of a write of `bs` at the cursor that returns, on a well-formed stream:
`k` bytes were spilled on the way (none on an in-memory stream); the cursor ends
`bs.length` past its old place moved down by `k`; the bytes `bs` lie just before it;
every other buffered byte is the old one, moved down by `k`. -/
theorem putBytes_effect (bs : List Nat) (s : BinaryOutputStream) (w : World)
    (hwf : WellFormed s w) (h : (putBytes bs s w).isOk = true) :
    ∃ k : Nat, (k : Int) ≤ s.m_pos ∧
      (reserveBytes bs.length s w).stream.m_alreadyWritten = s.m_alreadyWritten + k ∧
      (s.m_path = "<memory>" → k = 0) ∧
      (putBytes bs s w).stream.m_pos = s.m_pos - k + bs.length ∧
      (putBytes bs s w).stream.m_alreadyWritten = s.m_alreadyWritten + k ∧
      (putBytes bs s w).stream.m_bufferLen = max (s.m_bufferLen - k) (s.m_pos - k + bs.length) ∧
      (putBytes bs s w).world.file = w.file ++ bufferSlice s 0 k ∧
      bufferSlice (putBytes bs s w).stream (s.m_pos - k).toNat bs.length = bs ∧
      (∀ j : Nat, (j : Int) < s.m_bufferLen - k →
        ((j : Int) < s.m_pos - k ∨ s.m_pos - k + bs.length ≤ j) →
        byteAt (putBytes bs s w).stream j = byteAt s (j + k)) ∧
      WellFormed (putBytes bs s w).stream (putBytes bs s w).world ∧
      s.m_bufferCapacity ≤ (putBytes bs s w).stream.m_bufferCapacity := by
  obtain ⟨hr, s2, hst, heq⟩ := putBytes_ok bs s w h
  obtain ⟨⟨⟨i1, i2, i3⟩, hbuf, hfile⟩, k, r1, r2, r3, r4, r5, r6, r7, r8⟩ :=
    reserveBytes_spec bs.length s w hwf hr
  obtain ⟨-, i4⟩ := reserveBytes_inv bs.length s w hwf.1 hr
  obtain ⟨⟨j1, j2, j3⟩, -, -⟩ := hwf
  have hf := storeBytes_fields _ _ _ _ hst
  refine ⟨k, r1, r3, r8, ?_, ?_, ?_, ?_, ?_, ?_, ⟨⟨?_, ?_, ?_⟩, ?_, ?_⟩, ?_⟩
  · rw [heq]; simp only [Result.ret]; rw [hf]; simp only []; omega
  · rw [heq]; simp only [Result.ret]; rw [hf]; simp only []; omega
  · rw [heq]; simp only [Result.ret]; rw [hf]; simp only []; omega
  · rw [heq]; exact r6
  · rw [heq]
    simp only [Result.ret]
    show bufferSlice s2 _ _ = bs
    rw [← r2]
    exact storeBytes_slice _ s2 _ _ hst
  · intro j hj hout
    rw [heq]
    simp only [Result.ret]
    show byteAt s2 j = byteAt s (j + k)
    rw [storeBytes_outside _ _ _ _ hst j (by omega), r7 j hj]
  · rw [heq]; simp only [Result.ret]; rw [hf]; simp only []; omega
  · rw [heq]; simp only [Result.ret]; rw [hf]; simp only []; omega
  · rw [heq]; simp only [Result.ret]; rw [hf]; simp only []; omega
  · intro hc
    rw [heq] at hc ⊢
    simp only [Result.ret] at hc ⊢
    by_cases hne : bs = []
    · subst hne
      simp only [storeBytes, if_true] at hst
      injection hst with hst
      subst hst
      exact hbuf hc
    · exact (storeBytes_bounds _ _ _ _ hne hst).2.2
  · rw [heq]; simp only [Result.ret]; rw [hf]; exact hfile
  · rw [heq]; simp only [Result.ret]; rw [hf]; simp only []; omega


theorem hostBytes_length (b : Bool) (w : World) (width u : Nat) :
    (hostBytes b w width u).length = width := by
  unfold hostBytes
  split <;> simp

theorem putBytes_isOk_eq (bs : List Nat) (s : BinaryOutputStream) (w : World)
    (hwf : WellFormed s w) :
    (putBytes bs s w).isOk = (reserveBytes bs.length s w).isOk := by
  cases h : (reserveBytes bs.length s w).isOk
  · cases h2 : (putBytes bs s w).isOk
    · rfl
    · rw [(putBytes_ok bs s w h2).1] at h
      exact absurd h (by simp)
  · exact putBytes_isOk_of_reserve bs s w hwf h

theorem swapReverses_of_putBytes (write : Nat → BinaryOutputStream → World → Result Unit)
    (width : Nat) (s : BinaryOutputStream) (w : World) (hwf : WellFormed s w) (u : Nat)
    (hw : ∀ b, write u { s with m_swapBytes := b } w =
      putBytes (hostBytes b w width u) { s with m_swapBytes := b } w) :
    SwapReverses write width s w u := by
  have l0 := hostBytes_length false w width u
  have l1 := hostBytes_length true w width u
  obtain ⟨a0, b0⟩ := putBytes_swap false (hostBytes false w width u) s w
  obtain ⟨a1, b1⟩ := putBytes_swap true (hostBytes true w width u) s w
  have e0 := putBytes_isOk_eq (hostBytes false w width u) s w hwf
  have e1 := putBytes_isOk_eq (hostBytes true w width u) s w hwf
  rw [l0] at e0
  rw [l1] at e1
  unfold SwapReverses
  rw [hw true, hw false]
  refine ⟨by rw [a1, a0, e1, e0], ?_⟩
  intro hok
  have hok0 : (putBytes (hostBytes false w width u) s w).isOk = true := by rw [← a0]; exact hok
  have hok1 : (putBytes (hostBytes true w width u) s w).isOk = true := by rw [e1, ← e0]; exact hok0
  obtain ⟨s0eq, -⟩ := b0 hok0
  obtain ⟨s1eq, -⟩ := b1 hok1
  obtain ⟨k0, p1, p2, p3, p4, p5, -, -, p8, p9, -, -⟩ :=
    putBytes_effect (hostBytes false w width u) s w hwf hok0
  obtain ⟨k1, q1, q2, q3, q4, q5, -, -, q8, q9, -, -⟩ :=
    putBytes_effect (hostBytes true w width u) s w hwf hok1
  rw [l0] at p2 p4 p8 p9
  rw [l1] at q2 q4 q8 q9
  have hk : k1 = k0 := by omega
  subst hk
  have hrev : hostBytes true w width u = (hostBytes false w width u).reverse := by
    simp [hostBytes]
  refine ⟨k1, p1, p3, ?_, ?_, ?_, ?_, ?_, ?_, ?_⟩
  · rw [s0eq]; exact p5
  · rw [s1eq]; exact q5
  · rw [s0eq]
    show bufferSlice (putBytes (hostBytes false w width u) s w).stream _ _ = _
    rw [p8]
    simp [hostBytes]
  · rw [s0eq, s1eq]
    show bufferSlice (putBytes (hostBytes true w width u) s w).stream _ _
      = (bufferSlice (putBytes (hostBytes false w width u) s w).stream _ _).reverse
    rw [p8, q8, hrev]
  · rw [s0eq]; exact p4
  · rw [s1eq]; exact q4
  · intro j hj hout
    rw [s0eq, s1eq]
    exact ⟨p9 j hj hout, q9 j hj hout⟩

/-- C14 (counterexample): a file-backed stream whose buffer of 112 bytes is full (after
fourteen 8-byte writes) and whose growth is denied.  `writeUInt16(0x1234)` returns after
a spillover that empties the buffer: for either setting of `m_swapBytes` the cursor
goes from 112 to 2 (it does not advance by the width) and the bytes buffered before
have left the buffer (byte 0 was 8 and is now a byte of the value).  The two bytes
placed are still the reversal of each other. -/
theorem swap_frame_counterexample :
    fullRun.isOk = true ∧ fullRun.stream.m_pos = 112 ∧ fullRun.stream.m_bufferLen = 112 ∧
    fullRun.stream.m_bufferCapacity = 112 ∧
    (writeUInt16 4660 { fullRun.stream with m_swapBytes := false } fullRun.world).isOk = true ∧
    (writeUInt16 4660 { fullRun.stream with m_swapBytes := true } fullRun.world).isOk = true ∧
    (writeUInt16 4660 { fullRun.stream with m_swapBytes := false } fullRun.world).stream.m_pos
      = 2 ∧
    (writeUInt16 4660 { fullRun.stream with m_swapBytes := true } fullRun.world).stream.m_pos
      = 2 ∧
    bufferBytes (writeUInt16 4660 { fullRun.stream with m_swapBytes := false }
      fullRun.world).stream = [52, 18] ∧
    bufferBytes (writeUInt16 4660 { fullRun.stream with m_swapBytes := true }
      fullRun.world).stream = [18, 52] ∧
    byteAt fullRun.stream 0 = 8 ∧
    byteAt (writeUInt16 4660 { fullRun.stream with m_swapBytes := false }
      fullRun.world).stream 0 = 52 := by
  decide

/-- C14 (amended): for every value and each width in {2, 4, 8}, starting from the same
well-formed stream state with `m_swapBytes` set either way, `writeUInt16`,
`writeUInt32` and `writeUInt64` return or fail together, and when they return the bytes
placed at the cursor with `m_swapBytes = true` are the exact reversal of the bytes
placed with `m_swapBytes = false` (the host representation of the value).  With `k` the
number of bytes the write spilled to the file on the way, the cursor ends at
`cursor - k + width` and every buffered byte outside the bytes placed is the old byte
moved down by `k` places.  On an in-memory stream, and whenever the write does not
spill (the persisted count is unchanged), `k = 0`: the cursor advances by exactly the
width and no buffered byte outside `[cursor, cursor + width)` changes. -/
theorem swap_reverses (s : BinaryOutputStream) (w : World) (hwf : WellFormed s w) (u : Nat) :
    SwapReverses writeUInt16 2 s w u ∧ SwapReverses writeUInt32 4 s w u ∧
      SwapReverses writeUInt64 8 s w u := by
  refine ⟨?_, ?_, ?_⟩
  · exact swapReverses_of_putBytes writeUInt16 2 s w hwf u (fun b => writeUInt16_eq u _ w)
  · by_cases hbits : s.m_beginEndBits = 0
    · exact swapReverses_of_putBytes writeUInt32 4 s w hwf u
        (fun b => writeUInt32_eq u _ w hbits)
    · have hno : ∀ b, (writeUInt32 u { s with m_swapBytes := b } w).isOk = false := by
        intro b
        cases h : (writeUInt32 u { s with m_swapBytes := b } w).isOk
        · rfl
        · exact absurd (writeUInt32_bits_of_isOk u _ w h) hbits
      unfold SwapReverses
      rw [hno true, hno false]
      exact ⟨rfl, fun h => absurd h (by simp)⟩
  · exact swapReverses_of_putBytes writeUInt64 8 s w hwf u (fun b => writeUInt64_eq u _ w)

theorem swap_reverses_witness :
    SwapReverses writeUInt32 4 (newMemoryStream Endianness.LITTLE littleHost) littleHost
      305419896 :=
  (swap_reverses (newMemoryStream Endianness.LITTLE littleHost) littleHost (by decide)
    305419896).2.1

/-! ### Writes as overwrites of the logical output -/

theorem bufferSlice_take (s : BinaryOutputStream) (a n m : Nat) :
    (bufferSlice s a n).take m = bufferSlice s a (min m n) := by
  unfold bufferSlice
  rw [← List.map_take, List.take_range]

theorem bufferSlice_drop (s : BinaryOutputStream) (a n m : Nat) :
    (bufferSlice s a n).drop m = bufferSlice s (a + m) (n - m) := by
  unfold bufferSlice
  apply List.ext_getElem
  · simp
  · intro j h1 h2
    simp [Nat.add_assoc]

theorem overwrite_overwrite (l : List Nat) (p : Nat) (a b : List Nat) (hp : p ≤ l.length) :
    overwrite (overwrite l p a) (p + a.length) b = overwrite l p (a ++ b) := by
  unfold overwrite
  have hlen : (List.take p l ++ a).length = p + a.length := by
    simp [List.length_take, Nat.min_eq_left hp]
  rw [List.take_left' hlen]
  have hd : List.drop (p + a.length + b.length)
      (List.take p l ++ a ++ List.drop (p + a.length) l) = List.drop (p + (a ++ b).length) l := by
    rw [List.drop_append_eq_append_drop, List.drop_eq_nil_of_le (by omega), hlen,
      List.nil_append, List.drop_drop, List.length_append]
    congr 1
    omega
  rw [hd]
  simp [List.append_assoc]

theorem overwrite_length_ge (l : List Nat) (p : Nat) (bs : List Nat) (hp : p ≤ l.length) :
    p + bs.length ≤ (overwrite l p bs).length := by
  unfold overwrite
  simp [List.length_take, Nat.min_eq_left hp]


theorem logicalCursor_le (s : BinaryOutputStream) (w : World) (hwf : WellFormed s w) :
    logicalCursor s w ≤ (output s w).length := by
  obtain ⟨⟨i1, i2, i3⟩, -, -⟩ := hwf
  unfold logicalCursor output
  rw [List.length_append, bufferBytes_length]
  omega

theorem wrote_refl (s : BinaryOutputStream) (w : World) (hwf : WellFormed s w) :
    Wrote s w s w [] := by
  refine ⟨hwf, ?_, rfl, ⟨[], by simp, by simp⟩, fun _ => rfl, sameConfig_refl s,
    sameBits_refl s, sameHost_refl w⟩
  simp [overwrite]

theorem wrote_trans {s s1 s2 : BinaryOutputStream} {w w1 w2 : World} {a b : List Nat}
    (hwf : WellFormed s w) (h1 : Wrote s w s1 w1 a) (h2 : Wrote s1 w1 s2 w2 b) :
    Wrote s w s2 w2 (a ++ b) := by
  obtain ⟨a1, a2, a3, ⟨x, a4, a5⟩, a6, a7, a8, a9⟩ := h1
  obtain ⟨b1, b2, b3, ⟨y, b4, b5⟩, b6, b7, b8, b9⟩ := h2
  refine ⟨b1, ?_, ?_, ⟨x ++ y, ?_, ?_⟩, ?_, sameConfig_trans a7 b7, sameBits_trans a8 b8,
    sameHost_trans a9 b9⟩
  · rw [b2, a2, a3, overwrite_overwrite _ _ _ _ (logicalCursor_le s w hwf)]
  · rw [b3, a3, List.length_append]; omega
  · rw [b4, a4, List.append_assoc]
  · rw [List.length_append]; push_cast; omega
  · intro hm
    rw [b6 (a7.1.trans hm), a6 hm]

theorem putBytes_wrote (bs : List Nat) (s : BinaryOutputStream) (w : World)
    (hwf : WellFormed s w) (h : (putBytes bs s w).isOk = true) :
    Wrote s w (putBytes bs s w).stream (putBytes bs s w).world bs := by
  obtain ⟨k, p1, -, p3, p4, p5, p6, p7, p8, p9, p10, -⟩ := putBytes_effect bs s w hwf h
  obtain ⟨f1, f2, f3⟩ := putBytes_frame bs s w
  obtain ⟨⟨i1, i2, i3⟩, -, -⟩ := hwf
  refine ⟨p10, ?_, ?_, ⟨bufferSlice s 0 k, p7, ?_⟩, ?_, f1, f2, f3⟩
  · unfold output overwrite logicalCursor
    rw [p7, List.take_append, List.append_assoc, List.append_assoc, List.append_assoc]
    congr 1
    have hd : List.drop (w.file.length + s.m_pos.toNat + bs.length) (w.file ++ bufferBytes s)
        = List.drop (s.m_pos.toNat + bs.length) (bufferBytes s) := by
      rw [Nat.add_assoc, List.drop_append]
    rw [hd]
    unfold bufferBytes
    rw [bufferSlice_take, bufferSlice_drop, p6]
    have e1 : (max (s.m_bufferLen - (k : Int)) (s.m_pos - k + bs.length)).toNat
        = (s.m_pos.toNat - k) + (bs.length + (s.m_bufferLen.toNat - (s.m_pos.toNat + bs.length))) := by
      omega
    have e2 : min s.m_pos.toNat s.m_bufferLen.toNat = k + (s.m_pos.toNat - k) := by omega
    rw [e1, e2, bufferSlice_add, bufferSlice_add, bufferSlice_add, List.append_assoc]
    congr 1
    congr 1
    · apply bufferSlice_congr
      intro j hj
      rw [p9 (0 + j) (by omega) (Or.inl (by omega))]
      congr 1
      omega
    · congr 1
      · have : 0 + (s.m_pos.toNat - k) = (s.m_pos - (k : Int)).toNat := by omega
        rw [this]
        exact p8
      · apply bufferSlice_congr
        intro j hj
        rw [p9 _ (by omega) (Or.inr (by omega))]
        congr 1
        omega
  · unfold logicalCursor
    rw [p7, List.length_append, bufferSlice_length, p4]
    omega
  · rw [bufferSlice_length, p5]; omega
  · intro hm
    rw [p5, p3 hm]; simp

/-! ### Array writers -/

theorem writeLoop_eq_writeEach {α : Type}
    (single : α → BinaryOutputStream → World → Result Unit)
    (out : List α) (k i : Nat) (s : BinaryOutputStream) (w : World)
    (h : i + k = out.length) :
    writeLoop single out k i s w = writeEach single (out.drop i) s w := by
  induction k generalizing i s w with
  | zero =>
    have : out.drop i = [] := List.drop_eq_nil_of_le (by omega)
    rw [this]
    rfl
  | succ k ih =>
    have hi : i < out.length := by omega
    rw [writeLoop, List.getElem?_eq_getElem hi, List.drop_eq_getElem_cons hi]
    simp only [writeEach]
    congr 1
    funext _ s1 w1
    exact ih (i + 1) s1 w1 (by omega)

theorem writeEach_wrote {α : Type} (width : Nat) (bits : α → Nat)
    (single : α → BinaryOutputStream → World → Result Unit)
    (hsingle : ∀ x s w, (single x s w).isOk = true →
      single x s w = putBytes (hostBytes s.m_swapBytes w width (bits x)) s w)
    (out : List α) (s : BinaryOutputStream) (w : World) (hwf : WellFormed s w)
    (h : (writeEach single out s w).isOk = true) :
    Wrote s w (writeEach single out s w).stream (writeEach single out s w).world
      (out.flatMap (fun x => hostBytes s.m_swapBytes w width (bits x))) := by
  induction out generalizing s w with
  | nil => exact wrote_refl s w hwf
  | cons x rest ih =>
    rw [writeEach] at h ⊢
    obtain ⟨a, hv, heq⟩ := Result.andThen_isOk _ _ h
    have hok1 : (single x s w).isOk = true := (Result.isOk_iff _).mpr ⟨a, hv⟩
    rw [heq] at h ⊢
    have e := hsingle x s w hok1
    have w1 := putBytes_wrote _ s w hwf (by rw [← e]; exact hok1)
    rw [← e] at w1
    have w2 := ih _ _ w1.1 h
    have hsw : (single x s w).stream.m_swapBytes = s.m_swapBytes := w1.2.2.2.2.2.1.2.2.1
    have hcv : convert (single x s w).world = convert w :=
      convert_congr w _ w1.2.2.2.2.2.2.2.1
    have hhb : ∀ y, hostBytes (single x s w).stream.m_swapBytes (single x s w).world width y
        = hostBytes s.m_swapBytes w width y := by
      intro y
      unfold hostBytes
      rw [hsw, hcv]
    simp only [hhb] at w2
    rw [List.flatMap_cons]
    exact wrote_trans hwf w1 w2

theorem arrayMemory_length {α : Type} (w : World) (width : Nat) (bits : α → Nat)
    (out : List α) : (arrayMemory w width bits out).length = width * out.length := by
  induction out with
  | nil => simp [arrayMemory]
  | cons x rest ih =>
    unfold arrayMemory at ih ⊢
    rw [List.flatMap_cons, List.length_append, ih, List.length_map, List.length_range,
      List.length_cons]
    ring

theorem arrayMemory_mod {α : Type} (w : World) (width : Nat) (bits : α → Nat)
    (out : List α) :
    (arrayMemory w width bits out).map (fun x => x % 256) = arrayMemory w width bits out := by
  have : ∀ y ∈ arrayMemory w width bits out, y % 256 = y := by
    intro y hy
    unfold arrayMemory at hy
    obtain ⟨u, -, hu⟩ := List.mem_flatMap.mp hy
    obtain ⟨i, -, hi⟩ := List.mem_map.mp hu
    rw [← hi]
    unfold convert
    split <;> exact Nat.mod_mod _ _
  calc (arrayMemory w width bits out).map (fun x => x % 256)
      = (arrayMemory w width bits out).map id := List.map_congr_left this
    _ = arrayMemory w width bits out := List.map_id _

theorem arrayMemory_eq {α : Type} (w : World) (width : Nat) (bits : α → Nat) (out : List α) :
    arrayMemory w width bits out = out.flatMap (fun x => hostBytes false w width (bits x)) := by
  simp [arrayMemory, hostBytes]

theorem writeBytes_array {α : Type} (w : World) (width : Nat) (bits : α → Nat)
    (out : List α) (s : BinaryOutputStream) :
    writeBytes ((width : Int) * (out.length : Int)) (arrayMemory w width bits out) s w =
      putBytes (out.flatMap (fun x => hostBytes false w width (bits x))) s w := by
  have hl := arrayMemory_length w width bits out
  rw [writeBytes_eq _ _ s w (by positivity) (by rw [hl]; push_cast; exact le_refl _)]
  have ht : ((width : Int) * (out.length : Int)).toNat
      = (arrayMemory w width bits out).length := by
    rw [hl]
    have : (width : Int) * (out.length : Int) = ((width * out.length : Nat) : Int) := by
      push_cast; rfl
    rw [this, Int.toNat_ofNat]
  rw [ht, List.take_length, arrayMemory_mod, arrayMemory_eq]

theorem wrote_agree {s s1 s2 : BinaryOutputStream} {w w1 w2 : World} {bs : List Nat}
    (h1 : Wrote s w s1 w1 bs) (h2 : Wrote s w s2 w2 bs) :
    SameOutput (Result.ret () s1 w1) (Result.ret () s2 w2) ∧
    (s1.m_alreadyWritten = s.m_alreadyWritten → s2.m_alreadyWritten = s.m_alreadyWritten →
      SameBuffer (Result.ret () s1 w1) (Result.ret () s2 w2)) ∧
    (s.m_path = "<memory>" → SameBuffer (Result.ret () s1 w1) (Result.ret () s2 w2)) := by
  obtain ⟨⟨⟨i1, i2, i3⟩, -, -⟩, a2, a3, ⟨x, a4, a5⟩, a6, -, -, -⟩ := h1
  obtain ⟨⟨⟨j1, j2, j3⟩, -, -⟩, b2, b3, ⟨y, b4, b5⟩, b6, -, -, -⟩ := h2
  have hout : output s1 w1 = output s2 w2 := by rw [a2, b2]
  have hcur : logicalCursor s1 w1 = logicalCursor s2 w2 := by rw [a3, b3]
  have key : s1.m_alreadyWritten = s.m_alreadyWritten →
      s2.m_alreadyWritten = s.m_alreadyWritten →
      SameBuffer (Result.ret () s1 w1) (Result.ret () s2 w2) := by
    intro e1 e2
    have hx : x = [] := List.length_eq_zero.mp (by omega)
    have hy : y = [] := List.length_eq_zero.mp (by omega)
    subst hx hy
    rw [List.append_nil] at a4 b4
    unfold output at hout
    rw [a4, b4] at hout
    have hbb := List.append_cancel_left hout
    unfold logicalCursor at hcur
    rw [a4, b4] at hcur
    have hl := congrArg List.length hbb
    rw [bufferBytes_length, bufferBytes_length] at hl
    exact ⟨hbb, by simp only [Result.ret]; omega, by simp only [Result.ret]; omega⟩
  exact ⟨⟨hout, hcur⟩, key, fun hm => key (a6 hm) (b6 hm)⟩

theorem arrayAgrees_of {α : Type} (width : Nat) (bits : α → Nat)
    (single : α → BinaryOutputStream → World → Result Unit)
    (hsingle : ∀ x s w, (single x s w).isOk = true →
      single x s w = putBytes (hostBytes s.m_swapBytes w width (bits x)) s w)
    (arr : Result Unit) (s : BinaryOutputStream) (w : World) (hwf : WellFormed s w)
    (out : List α)
    (harr : arr = putBytes (out.flatMap (fun x => hostBytes s.m_swapBytes w width (bits x)))
        s w ∨ arr = writeEach single out s w) :
    ArrayAgrees arr (writeEach single out s w) s := by
  intro ha he
  rcases harr with e | e
  · rw [e] at ha
    have w1 := putBytes_wrote _ s w hwf ha
    have w2 := writeEach_wrote width bits single hsingle out s w hwf he
    rw [e]
    exact wrote_agree w1 w2
  · rw [e]
    exact ⟨⟨rfl, rfl⟩, fun _ _ => ⟨rfl, rfl, rfl⟩, fun _ => ⟨rfl, rfl, rfl⟩⟩

theorem writeEach_returns {α : Type} (width : Nat) (bits : α → Nat)
    (single : α → BinaryOutputStream → World → Result Unit)
    (hsingle : ∀ x s w, s.m_beginEndBits = 0 →
      single x s w = putBytes (hostBytes s.m_swapBytes w width (bits x)) s w)
    (out : List α) (s : BinaryOutputStream) (w : World) (hwf : WellFormed s w)
    (hu : Unfailing s w) (hbits : s.m_beginEndBits = 0) :
    (writeEach single out s w).isOk = true := by
  induction out generalizing s w with
  | nil => rfl
  | cons x rest ih =>
    have e := hsingle x s w hbits
    have hok : (single x s w).isOk = true := by
      rw [e]
      exact putBytes_isOk_of_reserve _ s w hwf (reserveBytes_isOk_of_grant _ s w hu.1 (hu.2 _))
    have w1 := putBytes_wrote _ s w hwf (by rw [← e]; exact hok)
    rw [← e] at w1
    obtain ⟨a, hv⟩ := (Result.isOk_iff _).mp hok
    rw [writeEach, Result.andThen_ok _ _ a hv]
    exact ih _ _ w1.1 (unfailing_of_same hu w1.2.2.2.2.2.1 w1.2.2.2.2.2.2.2)
      (w1.2.2.2.2.2.2.1.1.trans hbits)

theorem hostBytes_one (b : Bool) (w : World) (x : Nat) : hostBytes b w 1 x = [x % 256] := by
  cases b <;> cases hm : w.machine <;> simp [hostBytes, convert, hm, List.range_succ]

theorem writeArrayOfWords_eq {α : Type} (width : Nat) (bits : α → Nat)
    (single : α → BinaryOutputStream → World → Result Unit) (out : List α)
    (s : BinaryOutputStream) (w : World) :
    (s.m_swapBytes = false ∧ writeArrayOfWords width bits single out.length out s w =
        putBytes (out.flatMap (fun x => hostBytes s.m_swapBytes w width (bits x))) s w) ∨
      (s.m_swapBytes = true ∧
        writeArrayOfWords width bits single out.length out s w = writeEach single out s w) := by
  unfold writeArrayOfWords
  cases hsw : s.m_swapBytes with
  | false =>
    left
    refine ⟨rfl, ?_⟩
    rw [if_neg (by simp)]
    exact writeBytes_array w width bits out s
  | true =>
    right
    refine ⟨rfl, ?_⟩
    rw [if_pos rfl, Int.toNat_ofNat,
      writeLoop_eq_writeEach single out out.length 0 s w (by omega), List.drop_zero]

theorem writeArrayOfBytes_eq {α : Type} (bits : α → Nat)
    (single : α → BinaryOutputStream → World → Result Unit) (out : List α)
    (s : BinaryOutputStream) (w : World) :
    writeArrayOfBytes 1 bits single out.length out s w =
      putBytes (out.flatMap (fun x => hostBytes s.m_swapBytes w 1 (bits x))) s w := by
  unfold writeArrayOfBytes
  rw [if_pos rfl]
  have e : (out.length : Int) = ((1 : Nat) : Int) * (out.length : Int) := by simp
  rw [e, writeBytes_array w 1 bits out s]
  simp only [hostBytes_one]

theorem putBytes_returns (bs : List Nat) (s : BinaryOutputStream) (w : World)
    (hwf : WellFormed s w) (hu : Unfailing s w) : (putBytes bs s w).isOk = true :=
  putBytes_isOk_of_reserve _ s w hwf (reserveBytes_isOk_of_grant _ s w hu.1 (hu.2 _))

theorem arrayOfWords_agrees {α : Type} (width : Nat) (bits : α → Nat)
    (single : α → BinaryOutputStream → World → Result Unit)
    (hok : ∀ x s w, (single x s w).isOk = true →
      single x s w = putBytes (hostBytes s.m_swapBytes w width (bits x)) s w)
    (hbit : ∀ x s w, s.m_beginEndBits = 0 →
      single x s w = putBytes (hostBytes s.m_swapBytes w width (bits x)) s w)
    (s : BinaryOutputStream) (w : World) (hwf : WellFormed s w) :
    ArrayWriterAgrees (writeArrayOfWords width bits single) single s w := by
  intro out
  have pick : writeArrayOfWords width bits single out.length out s w =
        putBytes (out.flatMap (fun x => hostBytes s.m_swapBytes w width (bits x))) s w ∨
      writeArrayOfWords width bits single out.length out s w = writeEach single out s w := by
    rcases writeArrayOfWords_eq width bits single out s w with ⟨-, e⟩ | ⟨-, e⟩
    · exact Or.inl e
    · exact Or.inr e
  refine ⟨arrayAgrees_of width bits single hok _ s w hwf out pick, ?_⟩
  intro hu hbits
  have he := writeEach_returns width bits single hbit out s w hwf hu hbits
  refine ⟨?_, he⟩
  rcases pick with e | e
  · rw [e]; exact putBytes_returns _ s w hwf hu
  · rw [e]; exact he

theorem arrayOfBytes_agrees {α : Type} (bits : α → Nat)
    (single : α → BinaryOutputStream → World → Result Unit)
    (hsingle : ∀ x s w,
      single x s w = putBytes (hostBytes s.m_swapBytes w 1 (bits x)) s w)
    (s : BinaryOutputStream) (w : World) (hwf : WellFormed s w) :
    ArrayWriterAgrees (writeArrayOfBytes 1 bits single) single s w := by
  intro out
  have e := writeArrayOfBytes_eq bits single out s w
  refine ⟨arrayAgrees_of 1 bits single (fun x s w _ => hsingle x s w) _ s w hwf out
    (Or.inl e), ?_⟩
  intro hu hbits
  refine ⟨by rw [e]; exact putBytes_returns _ s w hwf hu, ?_⟩
  exact writeEach_returns 1 bits single (fun x s w _ => hsingle x s w) out s w hwf hu hbits

theorem arrayOfWords_loop {α : Type} (width : Nat) (bits : α → Nat)
    (single : α → BinaryOutputStream → World → Result Unit) (out : List α)
    (s : BinaryOutputStream) (w : World) (hsw : s.m_swapBytes = true) :
    writeArrayOfWords width bits single out.length out s w = writeEach single out s w := by
  rcases writeArrayOfWords_eq width bits single out s w with ⟨h, -⟩ | ⟨-, e⟩
  · rw [hsw] at h; exact absurd h (by simp)
  · exact e

/-- The `std::vector<bool>` overload of `writeBool8` is the per-element loop. -/
theorem writeBool8Vector_eq (out : List Bool) (s : BinaryOutputStream) (w : World) :
    writeBool8Vector out.length out s w = writeEach writeBool8 out s w := by
  unfold writeBool8Vector
  rw [Int.toNat_ofNat, writeLoop_eq_writeEach writeBool8 out out.length 0 s w (by omega),
    List.drop_zero]

set_option maxRecDepth 100000 in
/-- Where the bulk copy fails and the per-element calls return: fifteen 8-byte elements
on the nearly full file-backed stream whose growth is denied. -/
theorem bulk_fails_loop_returns :
    (writeUInt64Array 15 (List.replicate 15 72623859790382856) nearlyFullRun.stream
        nearlyFullRun.world).value = Except.error Error.outOfMemoryDisk ∧
      (writeEach writeUInt64 (List.replicate 15 72623859790382856) nearlyFullRun.stream
        nearlyFullRun.world).isOk = true :=
  ⟨by rfl, by decide⟩

set_option maxRecDepth 100000 in
/-- Where the bulk copy returns and the per-element calls fail: fifteen 8-byte elements
on a fresh in-memory stream whose first allocation only is granted. -/
theorem bulk_returns_loop_fails :
    (writeUInt64Array 15 (List.replicate 15 72623859790382856)
        (newMemoryStream Endianness.LITTLE refusingHost) refusingHost).isOk = true ∧
      (writeEach writeUInt64 (List.replicate 15 72623859790382856)
        (newMemoryStream Endianness.LITTLE refusingHost) refusingHost).value
          = Except.error Error.outOfMemoryMemory :=
  ⟨by decide, by rfl⟩

/-- C13 (counterexample): a file-backed stream with `m_swapBytes = false` whose buffer
of 112 bytes holds 100 (after twelve 8-byte writes and one 4-byte write) and whose
growth is denied.  The array writer `writeUInt64(2, out)` and the two single-value
calls `writeUInt64(out[0])`, `writeUInt64(out[1])` both return, but leave different
buffers: the bulk copy spills the 100 bytes first and leaves length 16 and cursor 16,
the per-element calls place the first element, spill 108 bytes and leave length 8 and
cursor 8. -/
theorem array_writer_counterexample :
    nearlyFullRun.isOk = true ∧ nearlyFullRun.stream.m_swapBytes = false ∧
    nearlyFullRun.stream.m_pos = 100 ∧ nearlyFullRun.stream.m_bufferLen = 100 ∧
    nearlyFullRun.stream.m_bufferCapacity = 112 ∧
    (writeUInt64Array 2 [72623859790382856, 1] nearlyFullRun.stream nearlyFullRun.world).isOk
      = true ∧
    (writeEach writeUInt64 [72623859790382856, 1] nearlyFullRun.stream nearlyFullRun.world).isOk
      = true ∧
    (writeUInt64Array 2 [72623859790382856, 1] nearlyFullRun.stream
      nearlyFullRun.world).stream.m_bufferLen = 16 ∧
    (writeEach writeUInt64 [72623859790382856, 1] nearlyFullRun.stream
      nearlyFullRun.world).stream.m_bufferLen = 8 ∧
    (writeUInt64Array 2 [72623859790382856, 1] nearlyFullRun.stream
      nearlyFullRun.world).stream.m_pos = 16 ∧
    (writeEach writeUInt64 [72623859790382856, 1] nearlyFullRun.stream
      nearlyFullRun.world).stream.m_pos = 8 ∧
    bufferBytes (writeUInt64Array 2 [72623859790382856, 1] nearlyFullRun.stream
      nearlyFullRun.world).stream = [8, 7, 6, 5, 4, 3, 2, 1, 1, 0, 0, 0, 0, 0, 0, 0] ∧
    bufferBytes (writeEach writeUInt64 [72623859790382856, 1] nearlyFullRun.stream
      nearlyFullRun.world).stream = [1, 0, 0, 0, 0, 0, 0, 0] := by
  decide

/-- C13 (amended): for every array writer the claim names (1-byte: `writeBool8`, in its
pointer and its `std::vector<bool>` overload, `writeUInt8`, `writeInt8`; multi-byte:
`writeUInt16`, `writeInt16`, `writeUInt32`, `writeInt32`, `writeUInt64`, `writeInt64`,
`writeFloat32`, `writeFloat64`), every array `out` of `n` elements and both settings of
`m_swapBytes`, started from the same well-formed stream state: whenever the array
writer and the calls of the corresponding single-value writer on the elements `0..n-1`
in order both return, they leave the same logical stream, that is the same logical
output (bytes persisted in the file, then buffer bytes `[0, length)`) and the same
cursor position in it; when neither run persisted anything, which is always so on an
in-memory stream, they leave the same buffer bytes `[0, length)`, the same length and
the same cursor.  On an in-memory stream whose allocations are granted, outside a
bit-packing span, both return.  With `m_swapBytes` set, each multi-byte array writer is
the per-element loop itself, so is the `std::vector<bool>` overload always.  Otherwise
one may return where the other does not: on a file-backed stream holding 100 bytes in a
buffer of 112 whose growth is denied, the bulk copy of fifteen 8-byte elements raises
the out-of-memory error while the fifteen single-value calls return; on a fresh
in-memory stream whose first allocation only is granted, the bulk copy of the same
array returns while the per-element calls raise the out-of-memory error. -/
theorem array_writers_agree (s : BinaryOutputStream) (w : World) (hwf : WellFormed s w) :
    (ArrayWriterAgrees writeBool8Array writeBool8 s w ∧
      ArrayWriterAgrees writeBool8Vector writeBool8 s w ∧
      ArrayWriterAgrees writeUInt8Array writeUInt8 s w ∧
      ArrayWriterAgrees writeInt8Array writeInt8 s w ∧
      ArrayWriterAgrees writeUInt16Array writeUInt16 s w ∧
      ArrayWriterAgrees writeInt16Array writeInt16 s w ∧
      ArrayWriterAgrees writeUInt32Array writeUInt32 s w ∧
      ArrayWriterAgrees writeInt32Array writeInt32 s w ∧
      ArrayWriterAgrees writeUInt64Array writeUInt64 s w ∧
      ArrayWriterAgrees writeInt64Array writeInt64 s w ∧
      ArrayWriterAgrees writeFloat32Array writeFloat32 s w ∧
      ArrayWriterAgrees writeFloat64Array writeFloat64 s w) ∧
    (∀ out : List Bool, writeBool8Vector out.length out s w = writeEach writeBool8 out s w) ∧
    (s.m_swapBytes = true →
      (∀ out : List Nat,
        writeUInt16Array out.length out s w = writeEach writeUInt16 out s w ∧
        writeUInt32Array out.length out s w = writeEach writeUInt32 out s w ∧
        writeUInt64Array out.length out s w = writeEach writeUInt64 out s w ∧
        writeFloat32Array out.length out s w = writeEach writeFloat32 out s w ∧
        writeFloat64Array out.length out s w = writeEach writeFloat64 out s w) ∧
      (∀ out : List Int,
        writeInt16Array out.length out s w = writeEach writeInt16 out s w ∧
        writeInt32Array out.length out s w = writeEach writeInt32 out s w ∧
        writeInt64Array out.length out s w = writeEach writeInt64 out s w)) ∧
    ((writeUInt64Array 15 (List.replicate 15 72623859790382856) nearlyFullRun.stream
        nearlyFullRun.world).value = Except.error Error.outOfMemoryDisk ∧
      (writeEach writeUInt64 (List.replicate 15 72623859790382856) nearlyFullRun.stream
        nearlyFullRun.world).isOk = true) ∧
    ((writeUInt64Array 15 (List.replicate 15 72623859790382856)
        (newMemoryStream Endianness.LITTLE refusingHost) refusingHost).isOk = true ∧
      (writeEach writeUInt64 (List.replicate 15 72623859790382856)
        (newMemoryStream Endianness.LITTLE refusingHost) refusingHost).value
          = Except.error Error.outOfMemoryMemory) := by
  have h8 : ∀ x s w, writeUInt8 x s w = putBytes (hostBytes s.m_swapBytes w 1 x) s w := by
    intro x s w
    rw [writeUInt8_eq, hostBytes_one]
  have h16 : ∀ x s w, writeUInt16 x s w = putBytes (hostBytes s.m_swapBytes w 2 x) s w :=
    fun x s w => writeUInt16_eq x s w
  have h32 : ∀ x s w, (writeUInt32 x s w).isOk = true →
      writeUInt32 x s w = putBytes (hostBytes s.m_swapBytes w 4 x) s w :=
    fun x s w h => writeUInt32_eq x s w (writeUInt32_bits_of_isOk x s w h)
  have b32 : ∀ x s w, s.m_beginEndBits = 0 →
      writeUInt32 x s w = putBytes (hostBytes s.m_swapBytes w 4 x) s w :=
    fun x s w h => writeUInt32_eq x s w h
  have h64 : ∀ x s w, writeUInt64 x s w = putBytes (hostBytes s.m_swapBytes w 8 x) s w :=
    fun x s w => writeUInt64_eq x s w
  have hb8 : ∀ (x : Bool) s w, writeBool8 x s w =
      putBytes (hostBytes s.m_swapBytes w 1 (if x = true then 1 else 0)) s w := by
    intro x s w
    unfold writeBool8
    exact h8 _ s w
  have hi8 : ∀ (x : Int) s w, writeInt8 x s w =
      putBytes (hostBytes s.m_swapBytes w 1 (x % 256).toNat) s w := by
    intro x s w
    unfold writeInt8
    exact h8 _ s w
  have hi16 : ∀ (x : Int) s w, writeInt16 x s w =
      putBytes (hostBytes s.m_swapBytes w 2 (x % 65536).toNat) s w := by
    intro x s w
    unfold writeInt16
    exact h16 _ s w
  have hi32 : ∀ (x : Int) s w, (writeInt32 x s w).isOk = true → writeInt32 x s w =
      putBytes (hostBytes s.m_swapBytes w 4 (x % 4294967296).toNat) s w := by
    intro x s w
    unfold writeInt32
    exact h32 _ s w
  have bi32 : ∀ (x : Int) s w, s.m_beginEndBits = 0 → writeInt32 x s w =
      putBytes (hostBytes s.m_swapBytes w 4 (x % 4294967296).toNat) s w := by
    intro x s w
    unfold writeInt32
    exact b32 _ s w
  have hi64 : ∀ (x : Int) s w, writeInt64 x s w =
      putBytes (hostBytes s.m_swapBytes w 8 (x % 18446744073709551616).toNat) s w := by
    intro x s w
    unfold writeInt64
    exact h64 _ s w
  have hf32 : ∀ (x : Nat) s w, (writeFloat32 x s w).isOk = true → writeFloat32 x s w =
      putBytes (hostBytes s.m_swapBytes w 4 x) s w := by
    intro x s w
    unfold writeFloat32
    exact h32 _ s w
  have bf32 : ∀ (x : Nat) s w, s.m_beginEndBits = 0 → writeFloat32 x s w =
      putBytes (hostBytes s.m_swapBytes w 4 x) s w := by
    intro x s w
    unfold writeFloat32
    exact b32 _ s w
  have hf64 : ∀ (x : Nat) s w, writeFloat64 x s w =
      putBytes (hostBytes s.m_swapBytes w 8 x) s w := by
    intro x s w
    unfold writeFloat64
    exact h64 _ s w
  refine ⟨⟨?_, ?_, ?_, ?_, ?_, ?_, ?_, ?_, ?_, ?_, ?_, ?_⟩, ?_, ?_, bulk_fails_loop_returns,
    bulk_returns_loop_fails⟩
  · exact arrayOfBytes_agrees _ writeBool8 hb8 s w hwf
  · intro out
    rw [writeBool8Vector_eq]
    refine ⟨fun _ _ => ⟨⟨rfl, rfl⟩, fun _ _ => ⟨rfl, rfl, rfl⟩, fun _ => ⟨rfl, rfl, rfl⟩⟩, ?_⟩
    intro hu hbits
    have r := writeEach_returns 1 _ writeBool8 (fun x s w _ => hb8 x s w) out s w hwf hu hbits
    exact ⟨r, r⟩
  · exact arrayOfBytes_agrees _ writeUInt8 h8 s w hwf
  · exact arrayOfBytes_agrees _ writeInt8 hi8 s w hwf
  · exact arrayOfWords_agrees 2 _ writeUInt16 (fun x s w _ => h16 x s w)
      (fun x s w _ => h16 x s w) s w hwf
  · exact arrayOfWords_agrees 2 _ writeInt16 (fun x s w _ => hi16 x s w)
      (fun x s w _ => hi16 x s w) s w hwf
  · exact arrayOfWords_agrees 4 _ writeUInt32 h32 b32 s w hwf
  · exact arrayOfWords_agrees 4 _ writeInt32 hi32 bi32 s w hwf
  · exact arrayOfWords_agrees 8 _ writeUInt64 (fun x s w _ => h64 x s w)
      (fun x s w _ => h64 x s w) s w hwf
  · exact arrayOfWords_agrees 8 _ writeInt64 (fun x s w _ => hi64 x s w)
      (fun x s w _ => hi64 x s w) s w hwf
  · exact arrayOfWords_agrees 4 _ writeFloat32 hf32 bf32 s w hwf
  · exact arrayOfWords_agrees 8 _ writeFloat64 (fun x s w _ => hf64 x s w)
      (fun x s w _ => hf64 x s w) s w hwf
  · exact fun out => writeBool8Vector_eq out s w
  · intro hsw
    exact ⟨fun out => ⟨arrayOfWords_loop 2 _ writeUInt16 out s w hsw,
        arrayOfWords_loop 4 _ writeUInt32 out s w hsw,
        arrayOfWords_loop 8 _ writeUInt64 out s w hsw,
        arrayOfWords_loop 4 _ writeFloat32 out s w hsw,
        arrayOfWords_loop 8 _ writeFloat64 out s w hsw⟩,
      fun out => ⟨arrayOfWords_loop 2 _ writeInt16 out s w hsw,
        arrayOfWords_loop 4 _ writeInt32 out s w hsw,
        arrayOfWords_loop 8 _ writeInt64 out s w hsw⟩⟩

theorem array_writers_agree_witness :
    SameBuffer
      (writeInt16Array 3 [-2, 1, 4660] (newMemoryStream Endianness.BIG littleHost) littleHost)
      (writeEach writeInt16 [-2, 1, 4660] (newMemoryStream Endianness.BIG littleHost)
        littleHost) ∧
    SameBuffer
      (writeFloat32Array 2 [1065353216, 0] (newMemoryStream Endianness.LITTLE littleHost)
        littleHost)
      (writeEach writeFloat32 [1065353216, 0] (newMemoryStream Endianness.LITTLE littleHost)
        littleHost) :=
  ⟨((((array_writers_agree (newMemoryStream Endianness.BIG littleHost) littleHost
      (by decide)).1.2.2.2.2.2.1 [-2, 1, 4660]).1 (by decide) (by decide)).2.2 rfl),
   ((((array_writers_agree (newMemoryStream Endianness.LITTLE littleHost) littleHost
      (by decide)).1.2.2.2.2.2.2.2.2.2.2.1 [1065353216, 0]).1 (by decide) (by decide)).2.2 rfl)⟩

end DGP
